import Mathlib

/-!
Verification of the QSteed quantum-circuit transpiler core against its
natural-language specification.

The development shallowly embeds the Python source:

* `qsteed/passes/decomposition/utils/matrix_utils.py` (matrix kernel),
* `qsteed/passes/unroll/unroll_to_basis.py` and the rules library,
* `qsteed/passes/unroll/rules/cp2cnot.py`,
* `qsteed/compiler/program_verification.py`,
* `qsteed/dag/dagcircuit.py`,
* `qsteed/passes/mapping/routing/sabre_routing.py`.

Matrices are embedded over `ℂ`, numeric scores over `ℚ` where the Python
code only performs field arithmetic, and qubit indices over `ℕ`.
A few helper modules of the repository (`instruction_node.py`,
`baselayout.py`, `couplinggraph.py`, some rule files) are not part of the
provided sources; the definitions standing in for them are modelled from
the specification and carry a doc comment saying so.
-/

namespace QSteed

/-! ## Matrix kernel (`matrix_utils.py`) -/

/-- Tolerance of `is_zero` in `matrix_utils.py` (`1e-8`). -/
noncomputable def zeroTol : ℝ := 1 / 100000000

/-- Tolerance of `is_approx` in `matrix_utils.py` (`thres = 1e-6`, used as both
the relative and the absolute tolerance of `np.allclose`). -/
noncomputable def approxTol : ℝ := 1 / 1000000

/-- Embedding of `is_zero(a)` from `matrix_utils.py` for a single complex
entry: `not np.any(np.absolute(a) > 1e-8)`, i.e. the absolute value is at
most `1e-8`. -/
def entryIsZero (a : ℂ) : Prop := Complex.abs a ≤ zeroTol

/-- Embedding of one entry of `np.allclose(a, b, rtol=thres, atol=thres)`
used by `is_approx` in `matrix_utils.py`: `|a - b| ≤ atol + rtol * |b|`. -/
def entryIsApprox (a b : ℂ) : Prop :=
  Complex.abs (a - b) ≤ approxTol + approxTol * Complex.abs b

/-- Embedding of `is_approx(a, b)` from `matrix_utils.py` for matrices:
`np.allclose` holds entrywise. -/
def isApproxMat {m n : ℕ} (A B : Matrix (Fin m) (Fin n) ℂ) : Prop :=
  ∀ i j, entryIsApprox (A i j) (B i j)

/-- Embedding of `is_kron_with_id2(matrix)` from `matrix_utils.py` for a
square matrix of even size `2*(n+1)`.  The four checks of the source:
`a_cond` (`matrix[0:nsize:2, 1:nsize:2]` is zero), `b_cond`
(`matrix[1:nsize:2, 0:nsize:2]` is zero), `c_cond`
(`matrix[0, :-1] ≈ matrix[1, 1:]`) and `d_cond`
(`matrix[-2, :-1] ≈ matrix[-1, 1:]`). -/
def isKronWithId2 {n : ℕ} (M : Matrix (Fin (2 * (n + 1))) (Fin (2 * (n + 1))) ℂ) : Prop :=
  (∀ i j : Fin (n + 1), entryIsZero (M ⟨2 * i.val, by omega⟩ ⟨2 * j.val + 1, by omega⟩)) ∧
  (∀ i j : Fin (n + 1), entryIsZero (M ⟨2 * i.val + 1, by omega⟩ ⟨2 * j.val, by omega⟩)) ∧
  (∀ j : Fin (2 * (n + 1) - 1),
    entryIsApprox (M ⟨0, by omega⟩ ⟨j.val, by omega⟩) (M ⟨1, by omega⟩ ⟨j.val + 1, by omega⟩)) ∧
  (∀ j : Fin (2 * (n + 1) - 1),
    entryIsApprox (M ⟨2 * (n + 1) - 2, by omega⟩ ⟨j.val, by omega⟩)
      (M ⟨2 * (n + 1) - 1, by omega⟩ ⟨j.val + 1, by omega⟩))

/-- The Kronecker product `K ⊗ I₂` (`np.kron(K, np.eye(2))` ordering):
entry `(2a+r, 2b+s)` is `K a b` if `r = s` and `0` otherwise. -/
def kronId2 {m : ℕ} (K : Matrix (Fin m) (Fin m) ℂ) :
    Matrix (Fin (2 * m)) (Fin (2 * m)) ℂ :=
  fun i j =>
    if i.val % 2 = j.val % 2 then K ⟨i.val / 2, by omega⟩ ⟨j.val / 2, by omega⟩ else 0

/-- The property that `is_kron_with_id2` claims to detect: `M` coincides,
entrywise within the `is_approx` tolerance, with `K ⊗ I₂` for some `K`. -/
def hasKronId2Form {n : ℕ} (M : Matrix (Fin (2 * (n + 1))) (Fin (2 * (n + 1))) ℂ) : Prop :=
  ∃ K : Matrix (Fin (n + 1)) (Fin (n + 1)) ℂ, isApproxMat M (kronId2 K)

/-- Embedding of `get_global_phase(unitary)` from `matrix_utils.py`:
`coefficient = det(U) ** (-0.5)`, `global_phase = -phase(coefficient)`,
`special_unitary = coefficient * U`. -/
noncomputable def getGlobalPhase {n : ℕ} (U : Matrix (Fin n) (Fin n) ℂ) :
    ℝ × Matrix (Fin n) (Fin n) ℂ :=
  let coefficient : ℂ := U.det ^ (-(1 : ℂ) / 2)
  (-coefficient.arg, coefficient • U)

/-- Concrete 6×6 matrix refuting the completeness of `is_kron_with_id2`:
the only nonzero entries are `M[2,0] = 1` and `M[3,1] = 2`, which sit in the
even-even and odd-odd sub-grids that the four checks never compare. -/
def kronCexMat : Matrix (Fin (2 * (2 + 1))) (Fin (2 * (2 + 1))) ℂ :=
  fun i j =>
    if i.val = 2 ∧ j.val = 0 then 1 else if i.val = 3 ∧ j.val = 1 then 2 else 0

/-- C6 (counterexample): `is_kron_with_id2` accepts `kronCexMat`, a 6×6
matrix that is not within the `is_approx` tolerance of any `K ⊗ I₂`
(such a `K` would need `K[1,0]` within `1e-6`-tolerance of both `1` and
`2`), so the four checks are not equivalent to having the `K ⊗ I₂` form. -/
theorem c6_kron_counterexample :
    isKronWithId2 kronCexMat ∧ ¬ hasKronId2Form kronCexMat := by
  constructor
  · refine ⟨?_, ?_, ?_, ?_⟩
    · intro i j
      simp only [entryIsZero, kronCexMat]
      rw [if_neg (by omega), if_neg (by omega)]
      simp only [map_zero]
      norm_num [zeroTol]
    · intro i j
      simp only [entryIsZero, kronCexMat]
      rw [if_neg (by omega), if_neg (by omega)]
      simp only [map_zero]
      norm_num [zeroTol]
    · intro j
      simp only [entryIsApprox, kronCexMat]
      rw [if_neg (by omega), if_neg (by omega), if_neg (by omega), if_neg (by omega)]
      simp only [sub_zero, map_zero]
      norm_num [approxTol]
    · intro j
      simp only [entryIsApprox, kronCexMat]
      rw [if_neg (by omega), if_neg (by omega), if_neg (by omega), if_neg (by omega)]
      simp only [sub_zero, map_zero]
      norm_num [approxTol]
  · rintro ⟨K, hK⟩
    have p2 : (2 : ℕ) < 2 * (2 + 1) := by norm_num
    have p3 : (3 : ℕ) < 2 * (2 + 1) := by norm_num
    have p0 : (0 : ℕ) < 2 * (2 + 1) := by norm_num
    have p1 : (1 : ℕ) < 2 * (2 + 1) := by norm_num
    have q1 : (1 : ℕ) < 2 + 1 := by norm_num
    have q0 : (0 : ℕ) < 2 + 1 := by norm_num
    have h1 := hK ⟨2, p2⟩ ⟨0, p0⟩
    have h2 := hK ⟨3, p3⟩ ⟨1, p1⟩
    have e1 : kronCexMat ⟨2, p2⟩ ⟨0, p0⟩ = 1 := by norm_num [kronCexMat]
    have e2 : kronId2 K ⟨2, p2⟩ ⟨0, p0⟩ = K ⟨1, q1⟩ ⟨0, q0⟩ := by norm_num [kronId2]
    have e3 : kronCexMat ⟨3, p3⟩ ⟨1, p1⟩ = 2 := by norm_num [kronCexMat]
    have e4 : kronId2 K ⟨3, p3⟩ ⟨1, p1⟩ = K ⟨1, q1⟩ ⟨0, q0⟩ := by norm_num [kronId2]
    rw [e1, e2] at h1
    rw [e3, e4] at h2
    simp only [entryIsApprox] at h1 h2
    set k : ℂ := K ⟨1, q1⟩ ⟨0, q0⟩ with hk
    have hone : Complex.abs ((2 : ℂ) - 1) ≤ Complex.abs (2 - k) + Complex.abs (k - 1) :=
      Complex.abs.sub_le 2 k 1
    have hcomm : Complex.abs (k - 1) = Complex.abs (1 - k) := by
      rw [← neg_sub, Complex.abs.map_neg]
    have hkb : Complex.abs k ≤ Complex.abs (k - 1) + 1 := by
      have := Complex.abs.add_le (k - 1) 1
      simpa using this
    have hnn : (0 : ℝ) ≤ Complex.abs k := Complex.abs.nonneg k
    have h21 : Complex.abs ((2 : ℂ) - 1) = 1 := by norm_num
    rw [h21, hcomm] at hone
    simp only [approxTol] at h1 h2
    linarith

/-- Two entries of a matrix agree when the underlying index values do. -/
theorem matrix_entry_congr {m : ℕ} (K : Matrix (Fin m) (Fin m) ℂ) {a b c d : ℕ}
    (ha : a < m) (hb : b < m) (hc : c < m) (hd : d < m) (h1 : a = c) (h2 : b = d) :
    K ⟨a, ha⟩ ⟨b, hb⟩ = K ⟨c, hc⟩ ⟨d, hd⟩ := by
  subst h1
  subst h2
  rfl

/-- C6 (amended): the four checks performed by `is_kron_with_id2` are sound
for exact Kronecker products — every matrix of the form `K ⊗ I₂` passes all
of them — but (by the counterexample) for sizes ≥ 6 they are not sufficient
for the `K ⊗ I₂` form, so the claimed equivalence only holds as the
forward implication. -/
theorem c6_kron_with_id2_sound (n : ℕ) (K : Matrix (Fin (n + 1)) (Fin (n + 1)) ℂ) :
    isKronWithId2 (kronId2 K) := by
  have haprx : ∀ a : ℂ, entryIsApprox a a := by
    intro a
    simp only [entryIsApprox, sub_self, map_zero]
    have := Complex.abs.nonneg a
    have ht : (0 : ℝ) < approxTol := by norm_num [approxTol]
    nlinarith
  have hz : entryIsZero 0 := by
    simp only [entryIsZero, map_zero]
    norm_num [zeroTol]
  refine ⟨?_, ?_, ?_, ?_⟩
  · intro i j
    simp only [kronId2, Fin.val_mk]
    rw [if_neg (by omega)]
    exact hz
  · intro i j
    simp only [kronId2, Fin.val_mk]
    rw [if_neg (by omega)]
    exact hz
  · intro j
    simp only [kronId2, Fin.val_mk]
    rcases Nat.even_or_odd j.val with he | ho
    · obtain ⟨m, hm⟩ := he
      rw [if_pos (by omega), if_pos (by omega)]
      have hcongr := matrix_entry_congr K (a := 0 / 2) (b := j.val / 2)
        (c := 1 / 2) (d := (j.val + 1) / 2) (by omega) (by omega) (by omega) (by omega)
        (by omega) (by omega)
      rw [hcongr]
      exact haprx _
    · obtain ⟨m, hm⟩ := ho
      rw [if_neg (by omega), if_neg (by omega)]
      exact haprx 0
  · intro j
    simp only [kronId2, Fin.val_mk]
    rcases Nat.even_or_odd j.val with he | ho
    · obtain ⟨m, hm⟩ := he
      rw [if_pos (by omega), if_pos (by omega)]
      have hcongr := matrix_entry_congr K (a := (2 * (n + 1) - 2) / 2) (b := j.val / 2)
        (c := (2 * (n + 1) - 1) / 2) (d := (j.val + 1) / 2) (by omega) (by omega)
        (by omega) (by omega) (by omega) (by omega)
      rw [hcongr]
      exact haprx _
    · obtain ⟨m, hm⟩ := ho
      rw [if_neg (by omega), if_neg (by omega)]
      exact haprx 0

/-- Concrete 4×4 unitary (`diag(i, 1, 1, 1)`) on which `get_global_phase`
does not return a determinant-one matrix. -/
def phaseCexMat : Matrix (Fin 4) (Fin 4) ℂ := Matrix.diagonal ![Complex.I, 1, 1, 1]

/-- Concrete 2×2 unitary (`diag(i, 1)`) used to instantiate the amended
`get_global_phase` property. -/
def phaseWitMat : Matrix (Fin 2) (Fin 2) ℂ := Matrix.diagonal ![Complex.I, 1]

/-- C7 (counterexample): for the 4×4 unitary `diag(i, 1, 1, 1)` the matrix
returned by `get_global_phase` has determinant `(det U)^{-2} · det U = -i`,
not `+1`, so the claim's "for every unitary matrix U (of any size)" fails:
the renormalization `det(U)^{-1/2} · U` only fixes the determinant for 2×2
matrices. -/
theorem c7_global_phase_counterexample :
    phaseCexMat.conjTranspose * phaseCexMat = 1 ∧ (getGlobalPhase phaseCexMat).2.det ≠ 1 := by
  have hdet : phaseCexMat.det = Complex.I := by
    simp [phaseCexMat, Matrix.det_diagonal, Fin.prod_univ_four]
  constructor
  · simp only [phaseCexMat, Matrix.diagonal_conjTranspose, Matrix.diagonal_mul_diagonal]
    have hfun : (fun i => star (![Complex.I, 1, 1, 1]) i * (![Complex.I, 1, 1, 1]) i) =
        fun _ : Fin 4 => (1 : ℂ) := by
      funext i
      fin_cases i <;> simp [Complex.ext_iff]
    rw [hfun]
    exact Matrix.diagonal_one
  · simp only [getGlobalPhase]
    rw [Matrix.det_smul, hdet]
    have hI : Complex.I ≠ 0 := Complex.I_ne_zero
    have hcpow : Complex.I ^ (-(1 : ℂ) / 2) =
        Complex.exp (Complex.log Complex.I * (-(1 : ℂ) / 2)) :=
      Complex.cpow_def_of_ne_zero hI _
    have hcard : (Fintype.card (Fin 4)) = 4 := by simp
    rw [hcard, hcpow]
    have hexp4 : Complex.exp (Complex.log Complex.I * (-(1 : ℂ) / 2)) ^ (4 : ℕ) =
        Complex.exp ((-2 : ℤ) * Complex.log Complex.I) := by
      rw [← Complex.exp_nat_mul]
      congr 1
      push_cast
      ring
    rw [hexp4]
    have hint : Complex.exp ((-2 : ℤ) * Complex.log Complex.I) =
        Complex.exp (Complex.log Complex.I) ^ (-2 : ℤ) := by
      exact_mod_cast Complex.exp_int_mul (Complex.log Complex.I) (-2)
    rw [hint, Complex.exp_log hI]
    have : Complex.I ^ (-2 : ℤ) = -1 := by
      rw [zpow_neg, show ((2 : ℤ) : ℤ) = ((2 : ℕ) : ℤ) by norm_num, zpow_natCast]
      norm_num [Complex.I_sq]
    rw [this]
    intro hcontra
    rw [neg_one_mul, neg_eq_iff_eq_neg] at hcontra
    simp [Complex.ext_iff] at hcontra

/-- C7 (amended): for every *2×2* unitary `U`, `get_global_phase(U)` returns
`(phase, V)` with `phase = -arg(det(U)^{-1/2})`, `V = det(U)^{-1/2} · U =
U · e^{-i·phase}`, and `det V = +1`.  (By the counterexample the
determinant-one conclusion is special to size 2, the only size at which
the source calls this normalization.) -/
theorem c7_global_phase_two_by_two (U : Matrix (Fin 2) (Fin 2) ℂ)
    (hU : U.conjTranspose * U = 1) :
    (getGlobalPhase U).1 = -(U.det ^ (-(1 : ℂ) / 2)).arg ∧
    (getGlobalPhase U).2 = U.det ^ (-(1 : ℂ) / 2) • U ∧
    (getGlobalPhase U).2 = Complex.exp (-(((getGlobalPhase U).1 : ℝ) : ℂ) * Complex.I) • U ∧
    (getGlobalPhase U).2.det = 1 := by
  have hdet1 : U.det * (starRingEnd ℂ) U.det = 1 := by
    have h := congrArg Matrix.det hU
    rw [Matrix.det_mul, Matrix.det_one, Matrix.det_conjTranspose] at h
    rw [mul_comm] at h
    exact h
  have hns : Complex.normSq U.det = 1 := by
    have := hdet1
    rw [Complex.mul_conj] at this
    exact_mod_cast this
  have habs : Complex.abs U.det = 1 := by
    rw [Complex.abs_apply, hns, Real.sqrt_one]
  have hd0 : U.det ≠ 0 := by
    intro h
    rw [h, map_zero] at hns
    norm_num at hns
  have hre : ((-(1 : ℂ) / 2).re) = (-(1 / 2) : ℝ) := by
    simp [Complex.div_re]
    norm_num
  have him : ((-(1 : ℂ) / 2).im) = 0 := by
    simp [Complex.div_im]
  have habscoeff : Complex.abs (U.det ^ (-(1 : ℂ) / 2)) = 1 := by
    rw [Complex.abs_cpow_of_ne_zero hd0, hre, him, habs]
    simp
  refine ⟨rfl, rfl, ?_, ?_⟩
  · have harg : Complex.exp (((U.det ^ (-(1 : ℂ) / 2)).arg : ℂ) * Complex.I) =
        U.det ^ (-(1 : ℂ) / 2) := by
      have h := Complex.abs_mul_exp_arg_mul_I (U.det ^ (-(1 : ℂ) / 2))
      rw [habscoeff] at h
      simpa using h
    show U.det ^ (-(1 : ℂ) / 2) • U = _
    rw [show (-(((getGlobalPhase U).1 : ℝ) : ℂ) * Complex.I) =
        ((U.det ^ (-(1 : ℂ) / 2)).arg : ℂ) * Complex.I by
      simp [getGlobalPhase]]
    rw [harg]
  · show (U.det ^ (-(1 : ℂ) / 2) • U).det = 1
    rw [Matrix.det_smul]
    have hcard : (Fintype.card (Fin 2)) = 2 := by simp
    rw [hcard]
    have hsq : (U.det ^ (-(1 : ℂ) / 2)) ^ (2 : ℕ) = (U.det)⁻¹ := by
      rw [Complex.cpow_def_of_ne_zero hd0, ← Complex.exp_nat_mul]
      have : ((2 : ℕ) : ℂ) * (Complex.log U.det * (-(1 : ℂ) / 2)) = -Complex.log U.det := by
        push_cast
        ring
      rw [this, Complex.exp_neg, Complex.exp_log hd0]
    rw [hsq, inv_mul_cancel₀ hd0]

/-- C7 (witness): the amended `get_global_phase` property instantiated at the
concrete 2×2 unitary `diag(i, 1)`. -/
theorem c7_global_phase_witness :
    phaseWitMat.conjTranspose * phaseWitMat = 1 ∧ (getGlobalPhase phaseWitMat).2.det = 1 := by
  have hU : phaseWitMat.conjTranspose * phaseWitMat = 1 := by
    simp only [phaseWitMat, Matrix.diagonal_conjTranspose, Matrix.diagonal_mul_diagonal]
    have hfun : (fun i => star (![Complex.I, 1]) i * (![Complex.I, 1]) i) =
        fun _ : Fin 2 => (1 : ℂ) := by
      funext i
      fin_cases i <;> simp [Complex.ext_iff]
    rw [hfun]
    exact Matrix.diagonal_one
  exact ⟨hU, (c7_global_phase_two_by_two phaseWitMat hU).2.2.2⟩

/-! ## Gates (quafu `Instruction` values as used by the unroll passes)

Gate parameters are embedded as real numbers (`ℝ`) — the Python code
carries floats and never branches on them inside the passes below.
`ctrls`/`targs` mirror the fields of quafu's multi-controlled gates. -/

structure QGate where
  name : String
  pos : List ℕ
  paras : List ℝ := []
  ctrls : List ℕ := []
  targs : List ℕ := []

/-- quafu `PhaseGate(pos, theta)` (name `p`). -/
noncomputable def phaseGate (q : ℕ) (theta : ℝ) : QGate := { name := "p", pos := [q], paras := [theta] }

/-- quafu `CXGate(c, t)` (name `cx`). -/
def cxGate (c t : ℕ) : QGate := { name := "cx", pos := [c, t] }

/-- quafu `CPGate(c, t, theta)` (name `cp`). -/
noncomputable def cpGate (c t : ℕ) (theta : ℝ) : QGate := { name := "cp", pos := [c, t], paras := [theta] }

/-! ## `CPToCNOT` rule (`rules/cp2cnot.py`) -/

/-- Embedding of `CPToCNOT.run(op)`: if `op` is a `CPGate` (in this
embedding, a gate named `cp`), emit
`P(c, θ/2), CX(c, t), P(t, −θ/2), CX(c, t), P(t, θ/2)`; otherwise return
`[op]`.  (`op.paras[0]` / `op.pos[0]` / `op.pos[1]` are embedded with
default-0 lookups; a `cp` gate always carries one parameter and two
positions.) -/
noncomputable def cpToCNOTRun (op : QGate) : List QGate :=
  if op.name = "cp" then
    let theta := op.paras.headD 0
    [phaseGate (op.pos.headD 0) (theta / 2),
     cxGate (op.pos.headD 0) (op.pos.getD 1 0),
     phaseGate (op.pos.getD 1 0) (-theta / 2),
     cxGate (op.pos.headD 0) (op.pos.getD 1 0),
     phaseGate (op.pos.getD 1 0) (theta / 2)]
  else [op]

/-- The 2×2 matrix of `P(θ)`: `diag(1, e^{iθ})`. -/
noncomputable def pMat (theta : ℝ) : Matrix (Fin 2) (Fin 2) ℂ :=
  !![1, 0; 0, Complex.exp (theta * Complex.I)]

/-- Big-endian two-qubit Kronecker embedding (`np.kron` ordering, as in
`general_kron` of `matrix_utils.py` with two qubits): entry
`(2a+r, 2b+s) = A a b * B r s`. -/
def kron2 (A B : Matrix (Fin 2) (Fin 2) ℂ) : Matrix (Fin 4) (Fin 4) ℂ :=
  fun i j =>
    A ⟨i.val / 2, by omega⟩ ⟨j.val / 2, by omega⟩ *
      B ⟨i.val % 2, by omega⟩ ⟨j.val % 2, by omega⟩

/-- The 4×4 matrix of `CNOT(0, 1)` (control qubit 0, target qubit 1,
big-endian), as produced by `general_CNOT(2, 0, 1)` in `matrix_utils.py`. -/
def cnotMat01 : Matrix (Fin 4) (Fin 4) ℂ :=
  !![1, 0, 0, 0; 0, 1, 0, 0; 0, 0, 0, 1; 0, 0, 1, 0]

/-- The 4×4 matrix of `CP(θ)`: `diag(1, 1, 1, e^{iθ})`. -/
noncomputable def cpMat (theta : ℝ) : Matrix (Fin 4) (Fin 4) ℂ :=
  !![1, 0, 0, 0; 0, 1, 0, 0; 0, 0, 1, 0; 0, 0, 0, Complex.exp (theta * Complex.I)]

/-- `kron2 (pMat a) 1` written out as a 4×4 literal. -/
theorem kron2_pMat_left (a : ℝ) :
    kron2 (pMat a) 1 =
      !![1, 0, 0, 0; 0, 1, 0, 0; 0, 0, Complex.exp (a * Complex.I), 0;
         0, 0, 0, Complex.exp (a * Complex.I)] := by
  ext i j
  fin_cases i <;> fin_cases j <;>
    simp [kron2, pMat, Matrix.one_apply, Matrix.vecHead, Matrix.vecTail]

/-- `kron2 1 (pMat a)` written out as a 4×4 literal. -/
theorem kron2_pMat_right (a : ℝ) :
    kron2 1 (pMat a) =
      !![1, 0, 0, 0; 0, Complex.exp (a * Complex.I), 0, 0; 0, 0, 1, 0;
         0, 0, 0, Complex.exp (a * Complex.I)] := by
  ext i j
  fin_cases i <;> fin_cases j <;>
    simp [kron2, pMat, Matrix.one_apply, Matrix.vecHead, Matrix.vecTail]

set_option maxHeartbeats 2000000

/-- C5: `CPToCNOT.run` on a `CPGate(c, t, θ)` returns exactly the five-gate
list `P(c, θ/2), CNOT(c, t), P(t, −θ/2), CNOT(c, t), P(t, θ/2)`, and on
qubits `(0, 1)` the product of these gates' 4×4 matrices equals the `CP(θ)`
matrix `diag(1, 1, 1, e^{iθ})` — here exactly, hence in particular within
the fixed tolerance. -/
theorem c5_cp_to_cnot_rule (c t : ℕ) (theta : ℝ) :
    cpToCNOTRun (cpGate c t theta) =
      [phaseGate c (theta / 2), cxGate c t, phaseGate t (-theta / 2),
       cxGate c t, phaseGate t (theta / 2)] ∧
    kron2 (pMat (theta / 2)) 1 * cnotMat01 * kron2 1 (pMat (-theta / 2)) *
        cnotMat01 * kron2 1 (pMat (theta / 2)) = cpMat theta := by
  constructor
  · rfl
  · have hmerge : Complex.exp (theta / 2 * Complex.I) * Complex.exp (theta / 2 * Complex.I) =
        Complex.exp (theta * Complex.I) := by
      rw [← Complex.exp_add]
      congr 1
      ring
    have hcancel : Complex.exp (-theta / 2 * Complex.I) * Complex.exp (theta / 2 * Complex.I) =
        1 := by
      rw [← Complex.exp_add, ← Complex.exp_zero]
      congr 1
      ring
    have hcancel2 : Complex.exp (theta / 2 * Complex.I) * Complex.exp (-theta / 2 * Complex.I) =
        1 := by
      rw [mul_comm]
      exact hcancel
    rw [kron2_pMat_left, kron2_pMat_right, kron2_pMat_right]
    ext i j
    fin_cases i <;> fin_cases j <;>
      simp [cnotMat01, cpMat, Matrix.mul_apply, Fin.sum_univ_four,
        Matrix.vecHead, Matrix.vecTail, hmerge, hcancel, hcancel2]

set_option maxHeartbeats 400000

/-! ## Further gate constructors (quafu gate classes, canonical lowercase names) -/

/-- One-qubit gate without parameters. -/
def g1 (nm : String) (q : ℕ) : QGate := { name := nm, pos := [q] }

/-- One-qubit rotation-style gate with one parameter. -/
noncomputable def g1p (nm : String) (q : ℕ) (theta : ℝ) : QGate :=
  { name := nm, pos := [q], paras := [theta] }

/-- Two-qubit gate without parameters. -/
def g2 (nm : String) (a b : ℕ) : QGate := { name := nm, pos := [a, b] }

/-- Two-qubit gate with one parameter. -/
noncomputable def g2p (nm : String) (a b : ℕ) (theta : ℝ) : QGate :=
  { name := nm, pos := [a, b], paras := [theta] }

/-- Three-qubit gate without parameters. -/
def g3 (nm : String) (a b c : ℕ) : QGate := { name := nm, pos := [a, b, c] }

def hGate (q : ℕ) : QGate := g1 "h" q
def sGate (q : ℕ) : QGate := g1 "s" q
def sdgGate (q : ℕ) : QGate := g1 "sdg" q
def tGate (q : ℕ) : QGate := g1 "t" q
def tdgGate (q : ℕ) : QGate := g1 "tdg" q
def xGate (q : ℕ) : QGate := g1 "x" q
def yGate (q : ℕ) : QGate := g1 "y" q
def zGate (q : ℕ) : QGate := g1 "z" q
def sxGate (q : ℕ) : QGate := g1 "sx" q
def sxdgGate (q : ℕ) : QGate := g1 "sxdg" q
def syGate (q : ℕ) : QGate := g1 "sy" q
def sydgGate (q : ℕ) : QGate := g1 "sydg" q
def wGate (q : ℕ) : QGate := g1 "w" q
def swGate (q : ℕ) : QGate := g1 "sw" q
def swdgGate (q : ℕ) : QGate := g1 "swdg" q
noncomputable def rxGate (q : ℕ) (theta : ℝ) : QGate := g1p "rx" q theta
noncomputable def ryGate (q : ℕ) (theta : ℝ) : QGate := g1p "ry" q theta
noncomputable def rzGate (q : ℕ) (theta : ℝ) : QGate := g1p "rz" q theta
def czGate (a b : ℕ) : QGate := g2 "cz" a b
def cyGate (a b : ℕ) : QGate := g2 "cy" a b
def csGate (a b : ℕ) : QGate := g2 "cs" a b
def ctGate (a b : ℕ) : QGate := g2 "ct" a b
def iswapGate (a b : ℕ) : QGate := g2 "iswap" a b
def swapGate (a b : ℕ) : QGate := g2 "swap" a b
noncomputable def crxGate (a b : ℕ) (theta : ℝ) : QGate := g2p "crx" a b theta
noncomputable def cryGate (a b : ℕ) (theta : ℝ) : QGate := g2p "cry" a b theta
noncomputable def crzGate (a b : ℕ) (theta : ℝ) : QGate := g2p "crz" a b theta
noncomputable def rxxGate (a b : ℕ) (theta : ℝ) : QGate := g2p "rxx" a b theta
noncomputable def ryyGate (a b : ℕ) (theta : ℝ) : QGate := g2p "ryy" a b theta
noncomputable def rzzGate (a b : ℕ) (theta : ℝ) : QGate := g2p "rzz" a b theta
def ccxGate (a b c : ℕ) : QGate := g3 "ccx" a b c
def cswapGate (a b c : ℕ) : QGate := g3 "cswap" a b c

/-- quafu `U3Gate(pos, theta, phi, lamda)` (name `u3`). -/
noncomputable def u3Gate (q : ℕ) (theta phi lam : ℝ) : QGate :=
  { name := "u3", pos := [q], paras := [theta, phi, lam] }

/-- quafu `MCXGate(ctrls, targ)` (name `mcx`). -/
def mcxGate (ctrls : List ℕ) (t : ℕ) : QGate :=
  { name := "mcx", pos := ctrls ++ [t], ctrls := ctrls, targs := [t] }

/-- quafu `MCRYGate(ctrls, targ, theta)` (name `mcry`). -/
noncomputable def mcryGate (ctrls : List ℕ) (t : ℕ) (theta : ℝ) : QGate :=
  { name := "mcry", pos := ctrls ++ [t], paras := [theta], ctrls := ctrls, targs := [t] }

/-- quafu `MCYGate(ctrls, targ)` (name `mcy`). -/
def mcyGate (ctrls : List ℕ) (t : ℕ) : QGate :=
  { name := "mcy", pos := ctrls ++ [t], ctrls := ctrls, targs := [t] }

/-- quafu `MCZGate(ctrls, targ)` (name `mcz`). -/
def mczGate (ctrls : List ℕ) (t : ℕ) : QGate :=
  { name := "mcz", pos := ctrls ++ [t], ctrls := ctrls, targs := [t] }

/-- quafu `MCRXGate(ctrls, targ, theta)` (name `mcrx`). -/
noncomputable def mcrxGate (ctrls : List ℕ) (t : ℕ) (theta : ℝ) : QGate :=
  { name := "mcrx", pos := ctrls ++ [t], paras := [theta], ctrls := ctrls, targs := [t] }

/-- quafu `MCRZGate(ctrls, targ, theta)` (name `mcrz`). -/
noncomputable def mcrzGate (ctrls : List ℕ) (t : ℕ) (theta : ℝ) : QGate :=
  { name := "mcrz", pos := ctrls ++ [t], paras := [theta], ctrls := ctrls, targs := [t] }

/-! ## Gray code construction (`build_gray_code` of `mcx2cnot.py`) -/

/-- Entry `(r, i)` of the `2^n × n` gray-code array of `build_gray_code`:
column 0 is `np.repeat([0,1], 2^(n-1))`, i.e. `r / 2^(n-1)`; column `i ≥ 1`
is `np.tile(np.repeat([0,1,1,0], 2^(n-1-i)), 2^(i-1))`, whose entry at `r`
is `[0,1,1,0][(r mod 2^(n+1-i)) / 2^(n-1-i)]`, and `[0,1,1,0][k]` equals
`((k+1)/2) mod 2`. -/
def grayEntry (n r i : ℕ) : ℕ :=
  if i = 0 then r / 2 ^ (n - 1)
  else ((r % 2 ^ (n + 1 - i)) / 2 ^ (n - 1 - i) + 1) / 2 % 2

/-- Embedding of `build_gray_code(n)`: the list of the `2^n` rows. -/
def buildGrayCode (n : ℕ) : List (List ℕ) :=
  (List.range (2 ^ n)).map fun r => (List.range n).map (grayEntry n r)

/-- One iteration of the `for i in range(1, len(graycode))` loop shared by
the multi-controlled rules (`mcx2cnot.py`, `mcry2cnot.py`): emit at most
one CX propagating parity between controls and one `CP(±θ)` on
`(control_bits[set_idx], target_bit)`.  The state pairs the accumulated
gate list with the Python loop's `last_code` variable, updated to the
current row at the end of each iteration. -/
noncomputable def grayStep (controlBits : List ℕ) (targetBit : ℕ) (theta : ℝ)
    (st : List QGate × List ℕ) (code : List ℕ) : List QGate × List ℕ :=
  let acc := st.1
  let lastCode := st.2
  let onesBits := (List.range code.length).filter fun b => code.getD b 0 = 1
  let setIdx := onesBits.headD 0
  let diffIdx :=
    ((List.range code.length).filter fun b => code.getD b 0 ≠ lastCode.getD b 0).headD 0
  let acc1 :=
    if diffIdx ≠ setIdx then
      acc ++ [cxGate (controlBits.getD diffIdx 0) (controlBits.getD setIdx 0)]
    else if 2 ≤ onesBits.length then
      acc ++ [cxGate (controlBits.getD (onesBits.getD 1 0) 0) (controlBits.getD setIdx 0)]
    else acc
  (if code.sum % 2 = 0 then
    acc1 ++ [cpGate (controlBits.getD setIdx 0) targetBit (-theta)]
  else acc1 ++ [cpGate (controlBits.getD setIdx 0) targetBit theta], code)

/-- The gray-code driven CX/CP section of the multi-controlled rules: fold
`grayStep` over the rows `1, …, 2^k − 1` of the gray-code array, with
`last_code` entering the loop holding `initLast`. -/
noncomputable def graySectionFrom (controlBits : List ℕ) (targetBit : ℕ) (theta : ℝ)
    (initLast : List ℕ) : List QGate :=
  (((buildGrayCode controlBits.length).drop 1).foldl
    (grayStep controlBits targetBit theta) ([], initLast)).1

/-- The gray-code section as first entered (`last_code = graycode[0, :]`),
used by `mcx2cnot.py` and by the first loop of `mcry2cnot.py`. -/
noncomputable def graySection (controlBits : List ℕ) (targetBit : ℕ) (theta : ℝ) : List QGate :=
  graySectionFrom controlBits targetBit theta ((buildGrayCode controlBits.length).headD [])

/-- Embedding of Python's `str.lower()` for the ASCII gate names used
throughout (`String.toLower` itself is defined by well-founded recursion
and does not reduce definitionally, so the embedding maps `Char.toLower`
over the character data instead). -/
def strToLower (s : String) : String := ⟨s.data.map Char.toLower⟩

/-! ## The unroll rules library (`rules/*.py`, `rules_library.py`)

Each rule object carries its `original` gate name, its declared produced
`basis`, its `run` function, and its `global_phase` (read by
`UnrollToBasis._apply_gate_rules` after calling `run`; only `PhaseToRZ`
computes it from the gate's parameter). -/

structure UnrollRule where
  original : String
  basis : List String
  run : QGate → List QGate
  phase : QGate → ℝ

/-- `CPToCNOT` (`cp2cnot.py`), packaged with `cpToCNOTRun` above. -/
noncomputable def cpToCNOTRule : UnrollRule :=
  { original := "cp", basis := ["cx", "p"], run := cpToCNOTRun, phase := fun _ => 0 }

/-- `CSToCNOT` (`cs2cnot.py`): `P(c,π/4)·CX·P(t,−π/4)·CX·P(t,π/4)`. -/
noncomputable def csToCNOTRule : UnrollRule where
  original := "cs"
  basis := ["cx", "p"]
  run op :=
    if op.name = "cs" then
      [phaseGate (op.pos.headD 0) (Real.pi / 4),
       cxGate (op.pos.headD 0) (op.pos.getD 1 0),
       phaseGate (op.pos.getD 1 0) (-Real.pi / 4),
       cxGate (op.pos.headD 0) (op.pos.getD 1 0),
       phaseGate (op.pos.getD 1 0) (Real.pi / 4)]
    else [op]
  phase _ := 0

/-- Modelled from the spec: `CTToCNOT` (`ct2cnot.py` is not among the
provided sources).  CT is the controlled-T gate; analogously to CS it is
rewritten over `{cx, p}` with angles `±π/8`. -/
noncomputable def ctToCNOTRule : UnrollRule where
  original := "ct"
  basis := ["cx", "p"]
  run op :=
    if op.name = "ct" then
      [phaseGate (op.pos.headD 0) (Real.pi / 8),
       cxGate (op.pos.headD 0) (op.pos.getD 1 0),
       phaseGate (op.pos.getD 1 0) (-Real.pi / 8),
       cxGate (op.pos.headD 0) (op.pos.getD 1 0),
       phaseGate (op.pos.getD 1 0) (Real.pi / 8)]
    else [op]
  phase _ := 0

/-- `CYToCNOT` (`cy2cnot.py`): `Sdg(t)·CX·S(t)`. -/
def cyToCNOTRule : UnrollRule where
  original := "cy"
  basis := ["cx", "s", "sdg"]
  run op :=
    if op.name = "cy" then
      [sdgGate (op.pos.getD 1 0),
       cxGate (op.pos.headD 0) (op.pos.getD 1 0),
       sGate (op.pos.getD 1 0)]
    else [op]
  phase _ := 0

/-- `CZToCNOT` (`cz2cnot.py`): `H(t)·CX·H(t)`. -/
def czToCNOTRule : UnrollRule where
  original := "cz"
  basis := ["cx", "h"]
  run op :=
    if op.name = "cz" then
      [hGate (op.pos.getD 1 0),
       cxGate (op.pos.headD 0) (op.pos.getD 1 0),
       hGate (op.pos.getD 1 0)]
    else [op]
  phase _ := 0

/-- `FredkinToToffoli` (`fredkin2toffoli.py`): `CX(t2,t1)·CCX·CX(t2,t1)`. -/
def fredkinToToffoliRule : UnrollRule where
  original := "cswap"
  basis := ["cx", "ccx"]
  run op :=
    if op.name = "cswap" then
      [cxGate (op.pos.getD 2 0) (op.pos.getD 1 0),
       ccxGate (op.pos.headD 0) (op.pos.getD 1 0) (op.pos.getD 2 0),
       cxGate (op.pos.getD 2 0) (op.pos.getD 1 0)]
    else [op]
  phase _ := 0

/-- Modelled from the spec: `HToRYRZ` (`h2ryrz.py` is not among the provided
sources).  H is rewritten over its declared `{ry, rz}` basis as
`RZ(π)·RY(π/2)` with global phase `π/2`. -/
noncomputable def hToRYRZRule : UnrollRule where
  original := "h"
  basis := ["ry", "rz"]
  run op :=
    if op.name = "h" then
      [rzGate (op.pos.headD 0) Real.pi, ryGate (op.pos.headD 0) (Real.pi / 2)]
    else [op]
  phase _ := Real.pi / 2

/-- `ISWAPToCNOT` (`iswap2cnot.py`): `S·S·H·CX·CX·H`. -/
def iswapToCNOTRule : UnrollRule where
  original := "iswap"
  basis := ["s", "h", "cx"]
  run op :=
    if op.name = "iswap" then
      [sGate (op.pos.headD 0), sGate (op.pos.getD 1 0), hGate (op.pos.headD 0),
       cxGate (op.pos.headD 0) (op.pos.getD 1 0),
       cxGate (op.pos.getD 1 0) (op.pos.headD 0),
       hGate (op.pos.getD 1 0)]
    else [op]
  phase _ := 0

/-- `PhaseToRZ` (`phase2rz.py`): `P(λ) → RZ(λ)` with global phase `λ/2`
(set inside `run` from the gate's parameter). -/
noncomputable def phaseToRZRule : UnrollRule where
  original := "p"
  basis := ["rz"]
  run op :=
    if op.name = "p" then [rzGate (op.pos.headD 0) (op.paras.headD 0)] else [op]
  phase op := if op.name = "p" then op.paras.headD 0 / 2 else 0

/-- `RXXToCNOT` (`rxx2cnot.py`). -/
noncomputable def rxxToCNOTRule : UnrollRule where
  original := "rxx"
  basis := ["cx", "rz", "h"]
  run op :=
    if op.name = "rxx" then
      [hGate (op.pos.headD 0), hGate (op.pos.getD 1 0),
       cxGate (op.pos.headD 0) (op.pos.getD 1 0),
       rzGate (op.pos.getD 1 0) (op.paras.headD 0),
       cxGate (op.pos.headD 0) (op.pos.getD 1 0),
       hGate (op.pos.headD 0), hGate (op.pos.getD 1 0)]
    else [op]
  phase _ := 0

/-- `RYYToCNOT` (`ryy2cnot.py`). -/
noncomputable def ryyToCNOTRule : UnrollRule where
  original := "ryy"
  basis := ["cx", "rx", "rz"]
  run op :=
    if op.name = "ryy" then
      [rxGate (op.pos.headD 0) (Real.pi / 2), rxGate (op.pos.getD 1 0) (Real.pi / 2),
       cxGate (op.pos.headD 0) (op.pos.getD 1 0),
       rzGate (op.pos.getD 1 0) (op.paras.headD 0),
       cxGate (op.pos.headD 0) (op.pos.getD 1 0),
       rxGate (op.pos.headD 0) (-Real.pi / 2), rxGate (op.pos.getD 1 0) (-Real.pi / 2)]
    else [op]
  phase _ := 0

/-- `RZZToCNOT` (`rzz2cnot.py`). -/
noncomputable def rzzToCNOTRule : UnrollRule where
  original := "rzz"
  basis := ["cx", "rz"]
  run op :=
    if op.name = "rzz" then
      [cxGate (op.pos.headD 0) (op.pos.getD 1 0),
       rzGate (op.pos.getD 1 0) (op.paras.headD 0),
       cxGate (op.pos.headD 0) (op.pos.getD 1 0)]
    else [op]
  phase _ := 0

/-- `SToRZ` (`s2rz.py`): `S → RZ(π/2)`, global phase `π/4`. -/
noncomputable def sToRZRule : UnrollRule where
  original := "s"
  basis := ["rz"]
  run op := if op.name = "s" then [rzGate (op.pos.headD 0) (Real.pi / 2)] else [op]
  phase _ := Real.pi / 4

/-- Modelled from the spec: `SdgToRZ` (`sdg2rz.py` is not among the provided
sources): `Sdg → RZ(−π/2)`, global phase `7π/4`. -/
noncomputable def sdgToRZRule : UnrollRule where
  original := "sdg"
  basis := ["rz"]
  run op := if op.name = "sdg" then [rzGate (op.pos.headD 0) (-Real.pi / 2)] else [op]
  phase _ := 7 * Real.pi / 4

/-- `SWToRYRZ` (`sw2ryrz.py`): `√W → RZ(π/4)·RY(π/2)·RZ(−π/4)`, phase `π/4`. -/
noncomputable def swToRYRZRule : UnrollRule where
  original := "sw"
  basis := ["ry", "rz"]
  run op :=
    if op.name = "sw" then
      [rzGate (op.pos.headD 0) (Real.pi / 4), ryGate (op.pos.headD 0) (Real.pi / 2),
       rzGate (op.pos.headD 0) (-Real.pi / 4)]
    else [op]
  phase _ := Real.pi / 4

/-- Modelled from the spec: `SWdgToRYRZ` (`swdg2ryrz.py` is not among the
provided sources): the inverse sequence `RZ(π/4)·RY(−π/2)·RZ(−π/4)` with
global phase `7π/4`. -/
noncomputable def swdgToRYRZRule : UnrollRule where
  original := "swdg"
  basis := ["ry", "rz"]
  run op :=
    if op.name = "swdg" then
      [rzGate (op.pos.headD 0) (Real.pi / 4), ryGate (op.pos.headD 0) (-Real.pi / 2),
       rzGate (op.pos.headD 0) (-Real.pi / 4)]
    else [op]
  phase _ := 7 * Real.pi / 4

/-- `SwapToCNOT` (`swap2cnot.py`): three alternating CNOTs. -/
def swapToCNOTRule : UnrollRule where
  original := "swap"
  basis := ["cx"]
  run op :=
    if op.name = "swap" then
      [cxGate (op.pos.headD 0) (op.pos.getD 1 0),
       cxGate (op.pos.getD 1 0) (op.pos.headD 0),
       cxGate (op.pos.headD 0) (op.pos.getD 1 0)]
    else [op]
  phase _ := 0

/-- `SXToRX` (`sx2rx.py`): `√X → RX(π/2)`, global phase `π/4`. -/
noncomputable def sxToRXRule : UnrollRule where
  original := "sx"
  basis := ["rx"]
  run op := if op.name = "sx" then [rxGate (op.pos.headD 0) (Real.pi / 2)] else [op]
  phase _ := Real.pi / 4

/-- Modelled from the spec: `SXdgToRX` (`sxdg2rx.py` is not among the
provided sources): `√X† → RX(−π/2)`, global phase `7π/4`. -/
noncomputable def sxdgToRXRule : UnrollRule where
  original := "sxdg"
  basis := ["rx"]
  run op := if op.name = "sxdg" then [rxGate (op.pos.headD 0) (-Real.pi / 2)] else [op]
  phase _ := 7 * Real.pi / 4

/-- `SYToRY` (`sy2ry.py`): `√Y → RY(π/2)`, global phase `π/4`. -/
noncomputable def syToRYRule : UnrollRule where
  original := "sy"
  basis := ["ry"]
  run op := if op.name = "sy" then [ryGate (op.pos.headD 0) (Real.pi / 2)] else [op]
  phase _ := Real.pi / 4

/-- `SYdgToRY` (`sydg2ry.py`): `√Y† → RY(−π/2)`, global phase `7π/4`. -/
noncomputable def sydgToRYRule : UnrollRule where
  original := "sydg"
  basis := ["ry"]
  run op := if op.name = "sydg" then [ryGate (op.pos.headD 0) (-Real.pi / 2)] else [op]
  phase _ := 7 * Real.pi / 4

/-- `TToRZ` (`t2rz.py`): `T → RZ(π/4)`, global phase `π/8`. -/
noncomputable def tToRZRule : UnrollRule where
  original := "t"
  basis := ["rz"]
  run op := if op.name = "t" then [rzGate (op.pos.headD 0) (Real.pi / 4)] else [op]
  phase _ := Real.pi / 8

/-- `TdgToRZ` (`tdg2rz.py`): `Tdg → RZ(−π/4)`, global phase `15π/8`. -/
noncomputable def tdgToRZRule : UnrollRule where
  original := "tdg"
  basis := ["rz"]
  run op := if op.name = "tdg" then [rzGate (op.pos.headD 0) (-Real.pi / 4)] else [op]
  phase _ := 15 * Real.pi / 8

/-- `ToffoliToCNOT8` (`toffoli2cnot.py`), the 8-CNOT synthesis; this is the
variant that ends up under key `ccx` in `Rules_dict` because it is
instantiated after `ToffoliToCNOT` in `rules/__init__.__all__`. -/
def toffoliToCNOT8Rule : UnrollRule where
  original := "ccx"
  basis := ["cx", "h", "t", "tdg"]
  run op :=
    if op.name = "ccx" then
      [hGate (op.pos.getD 2 0), tGate (op.pos.headD 0), tGate (op.pos.getD 1 0),
       tGate (op.pos.getD 2 0),
       cxGate (op.pos.headD 0) (op.pos.getD 1 0),
       cxGate (op.pos.getD 1 0) (op.pos.getD 2 0),
       tGate (op.pos.getD 2 0),
       cxGate (op.pos.headD 0) (op.pos.getD 1 0),
       cxGate (op.pos.getD 1 0) (op.pos.getD 2 0),
       cxGate (op.pos.headD 0) (op.pos.getD 1 0),
       tdgGate (op.pos.getD 1 0), tdgGate (op.pos.getD 2 0),
       cxGate (op.pos.getD 1 0) (op.pos.getD 2 0),
       cxGate (op.pos.headD 0) (op.pos.getD 1 0),
       tdgGate (op.pos.getD 2 0),
       cxGate (op.pos.getD 1 0) (op.pos.getD 2 0),
       hGate (op.pos.getD 2 0)]
    else [op]
  phase _ := 0

/-- `WToRYRZ` (`w2ryrz.py`): `W → RZ(π/2)·RY(π)`, global phase `π/2`. -/
noncomputable def wToRYRZRule : UnrollRule where
  original := "w"
  basis := ["ry", "rz"]
  run op :=
    if op.name = "w" then
      [rzGate (op.pos.headD 0) (Real.pi / 2), ryGate (op.pos.headD 0) Real.pi]
    else [op]
  phase _ := Real.pi / 2

/-- Modelled from the spec: `XToRX` (`x2rx.py` is not among the provided
sources): `X → RX(π)`, global phase `π/2` (spec §4.6). -/
noncomputable def xToRXRule : UnrollRule where
  original := "x"
  basis := ["rx"]
  run op := if op.name = "x" then [rxGate (op.pos.headD 0) Real.pi] else [op]
  phase _ := Real.pi / 2

/-- Modelled from the spec: `YToRY` (`y2ry.py` is not among the provided
sources): `Y → RY(π)`, global phase `π/2`. -/
noncomputable def yToRYRule : UnrollRule where
  original := "y"
  basis := ["ry"]
  run op := if op.name = "y" then [ryGate (op.pos.headD 0) Real.pi] else [op]
  phase _ := Real.pi / 2

/-- `ZToRZ` (`z2rz.py`): `Z → RZ(π)`, global phase `π/2`. -/
noncomputable def zToRZRule : UnrollRule where
  original := "z"
  basis := ["rz"]
  run op := if op.name = "z" then [rzGate (op.pos.headD 0) Real.pi] else [op]
  phase _ := Real.pi / 2

/-- `CRXToCNOT` (`crx2cnot.py`): `S·CX·RY(−θ/2)·CX·RY(θ/2)·Sdg` on target. -/
noncomputable def crxToCNOTRule : UnrollRule where
  original := "crx"
  basis := ["cx", "s", "sdg", "ry"]
  run op :=
    if op.name = "crx" then
      [sGate (op.pos.getD 1 0),
       cxGate (op.pos.headD 0) (op.pos.getD 1 0),
       ryGate (op.pos.getD 1 0) (-op.paras.headD 0 / 2),
       cxGate (op.pos.headD 0) (op.pos.getD 1 0),
       ryGate (op.pos.getD 1 0) (op.paras.headD 0 / 2),
       sdgGate (op.pos.getD 1 0)]
    else [op]
  phase _ := 0

/-- `CRYToCNOT` (`cry2cnot.py`): `RY(θ/2)·CX·RY(−θ/2)·CX` on target. -/
noncomputable def cryToCNOTRule : UnrollRule where
  original := "cry"
  basis := ["cx", "ry"]
  run op :=
    if op.name = "cry" then
      [ryGate (op.pos.getD 1 0) (op.paras.headD 0 / 2),
       cxGate (op.pos.headD 0) (op.pos.getD 1 0),
       ryGate (op.pos.getD 1 0) (-op.paras.headD 0 / 2),
       cxGate (op.pos.headD 0) (op.pos.getD 1 0)]
    else [op]
  phase _ := 0

/-- `CRZToCNOT` (`crz2cnot.py`): `RZ(θ/2)·CX·RZ(−θ/2)·CX` on target. -/
noncomputable def crzToCNOTRule : UnrollRule where
  original := "crz"
  basis := ["cx", "rz"]
  run op :=
    if op.name = "crz" then
      [rzGate (op.pos.getD 1 0) (op.paras.headD 0 / 2),
       cxGate (op.pos.headD 0) (op.pos.getD 1 0),
       rzGate (op.pos.getD 1 0) (-op.paras.headD 0 / 2),
       cxGate (op.pos.headD 0) (op.pos.getD 1 0)]
    else [op]
  phase _ := 0

/-- The case split of `MCXToCNOT.run` on the number of controls: one
control → plain CNOT; two → Toffoli; more → `H(t)`, the gray-code CX/CP
section with `θ = π/2^(k−1)`, `H(t)`. -/
noncomputable def mcxCore (controlBits : List ℕ) (targetBit : ℕ) : List QGate :=
  if controlBits.length = 1 then [cxGate (controlBits.headD 0) targetBit]
  else if controlBits.length = 2 then
    [ccxGate (controlBits.headD 0) (controlBits.getD 1 0) targetBit]
  else
    [hGate targetBit] ++
      graySection controlBits targetBit (Real.pi / 2 ^ (controlBits.length - 1)) ++
      [hGate targetBit]

/-- `MCXToCNOT` (`mcx2cnot.py`). -/
noncomputable def mcxToCNOTRule : UnrollRule where
  original := "mcx"
  basis := ["cx", "h", "cp", "ccx"]
  run op := if op.name = "mcx" then mcxCore op.ctrls (op.targs.headD 0) else [op]
  phase _ := 0

/-- Modelled from the spec: `MCYToCNOT` (`mcy2cnot.py` is not among the
provided sources).  MCY is the S/Sdg conjugation of the MCX construction
(spec §4.6). -/
noncomputable def mcyToCNOTRule : UnrollRule where
  original := "mcy"
  basis := ["cx", "h", "cp", "ccx", "s", "sdg"]
  run op :=
    if op.name = "mcy" then
      [sdgGate (op.targs.headD 0)] ++ mcxCore op.ctrls (op.targs.headD 0) ++
        [sGate (op.targs.headD 0)]
    else [op]
  phase _ := 0

/-- Modelled from the spec: `MCZToCNOT` (`mcz2cnot.py` is not among the
provided sources).  MCZ is the H conjugation of the MCX construction
(`CZ = H·CX·H`, spec §4.6). -/
noncomputable def mczToCNOTRule : UnrollRule where
  original := "mcz"
  basis := ["cx", "h", "cp", "ccx"]
  run op :=
    if op.name = "mcz" then
      [hGate (op.targs.headD 0)] ++ mcxCore op.ctrls (op.targs.headD 0) ++
        [hGate (op.targs.headD 0)]
    else [op]
  phase _ := 0

/-- `MCRYToCNOT` (`mcry2cnot.py`): one control → CY; two controls → the
Toffoli-based sandwich; more → `RY(θ'/2)·Sdg·H`, gray section, `H·S`,
`RY(−θ'/2)·Sdg·H`, gray section, `H·S`, where `θ' = π/2^(k−1)` (the source
overwrites the gate parameter with this value before the `RY` appends).
The second loop of the source re-enters with `last_code` still holding
the final gray row left over from the first loop, hence
`graySectionFrom … getLastD`.  Note the declared `basis` has no `h` even
though the more-than-two-controls branch appends `HGate`s. -/
noncomputable def mcryToCNOTRule : UnrollRule where
  original := "mcry"
  basis := ["cx", "sdg", "s", "cp", "cy", "ccx", "ry"]
  run op :=
    if op.name = "mcry" then
      let controlBits := op.ctrls
      let targetBit := op.targs.headD 0
      let theta := op.paras.headD 0
      if controlBits.length = 1 then [cyGate (controlBits.headD 0) targetBit]
      else if controlBits.length = 2 then
        [ryGate targetBit (theta / 2), sdgGate targetBit,
         ccxGate (controlBits.headD 0) (controlBits.getD 1 0) targetBit,
         sGate targetBit, ryGate targetBit (-theta / 2), sdgGate targetBit,
         ccxGate (controlBits.headD 0) (controlBits.getD 1 0) targetBit,
         sGate targetBit]
      else
        let theta := Real.pi / 2 ^ (controlBits.length - 1)
        [ryGate targetBit (theta / 2), sdgGate targetBit, hGate targetBit] ++
          graySection controlBits targetBit theta ++
          [hGate targetBit, sGate targetBit, ryGate targetBit (-theta / 2),
           sdgGate targetBit, hGate targetBit] ++
          graySectionFrom controlBits targetBit theta
            ((buildGrayCode controlBits.length).getLastD []) ++
          [hGate targetBit, sGate targetBit]
    else [op]
  phase _ := 0

/-- Modelled from the spec: `MCRXToCNOT` (`mcrx2cnot.py` is not among the
provided sources): outer `RX(±θ/2)` half-rotations around gray-code CP
sections (spec §4.6). -/
noncomputable def mcrxToCNOTRule : UnrollRule where
  original := "mcrx"
  basis := ["cx", "cp", "rx"]
  run op :=
    if op.name = "mcrx" then
      let targetBit := op.targs.headD 0
      let theta := op.paras.headD 0
      [rxGate targetBit (theta / 2)] ++ graySection op.ctrls targetBit theta ++
        [rxGate targetBit (-theta / 2)] ++ graySection op.ctrls targetBit theta
    else [op]
  phase _ := 0

/-- Modelled from the spec: `MCRZToCNOT` (`mcrz2cnot.py` is not among the
provided sources): outer `RZ(±θ/2)` half-rotations around gray-code CP
sections (spec §4.6). -/
noncomputable def mcrzToCNOTRule : UnrollRule where
  original := "mcrz"
  basis := ["cx", "cp", "rz"]
  run op :=
    if op.name = "mcrz" then
      let targetBit := op.targs.headD 0
      let theta := op.paras.headD 0
      [rzGate targetBit (theta / 2)] ++ graySection op.ctrls targetBit theta ++
        [rzGate targetBit (-theta / 2)] ++ graySection op.ctrls targetBit theta
    else [op]
  phase _ := 0

/-- `math.atan2 y x` as the argument of the complex number `x + y·i`. -/
noncomputable def atanTwo (y x : ℝ) : ℝ := Complex.arg ⟨x, y⟩

/-- Embedding of `OneQubitDecompose.zyz_decomposition` (from
`one_qubit_decompose.py`): returns `(gamma, beta, alpha, global_phase)`. -/
noncomputable def zyzDecomposition (U : Matrix (Fin 2) (Fin 2) ℂ) : ℝ × ℝ × ℝ × ℝ :=
  let gp := getGlobalPhase U
  let V := gp.2
  let beta := 2 * atanTwo (Complex.abs (V 1 0)) (Complex.abs (V 0 0))
  let t1 := Complex.arg (V 1 1)
  let t2 := Complex.arg (V 1 0)
  (t1 - t2, beta, t1 + t2, gp.1)

/-- Embedding of `OneQubitDecompose.zxz_decomposition`: ZYZ angles shifted
by `∓π/2` on the outer rotations. -/
noncomputable def zxzDecomposition (U : Matrix (Fin 2) (Fin 2) ℂ) : ℝ × ℝ × ℝ × ℝ :=
  let z := zyzDecomposition U
  (z.1 - Real.pi / 2, z.2.1, z.2.2.1 + Real.pi / 2, z.2.2.2)

/-- The standard `U3(θ, φ, λ)` matrix carried by a quafu `U3Gate`. -/
noncomputable def u3Matrix (theta phi lam : ℝ) : Matrix (Fin 2) (Fin 2) ℂ :=
  !![Complex.cos (theta / 2), -Complex.exp (lam * Complex.I) * Complex.sin (theta / 2);
     Complex.exp (phi * Complex.I) * Complex.sin (theta / 2),
     Complex.exp ((phi + lam) * Complex.I) * Complex.cos (theta / 2)]

/-- `U3Decompose` (`u3decompose.py`): decomposes the gate's matrix with the
(default) ZXZ scheme through `UnitaryDecompose`; for a 2×2 input the
emitted circuit is `RZ(γ)·RX(β)·RZ(α)` on the gate's qubit. -/
noncomputable def u3DecomposeRule : UnrollRule where
  original := "u3"
  basis := ["rx", "ry", "rz"]
  run op :=
    if op.name = "u3" then
      let q := op.pos.headD 0
      let z := zxzDecomposition
        (u3Matrix (op.paras.headD 0) (op.paras.getD 1 0) (op.paras.getD 2 0))
      [rzGate q z.1, rxGate q z.2.1, rzGate q z.2.2.1]
    else [op]
  phase _ := 0

/-- `CNOTToCZ` (`cnot2cz.py`), one of the conditional `CX_rules`. -/
def cnotToCZRule : UnrollRule where
  original := "cx"
  basis := ["cz", "h"]
  run op :=
    if op.name = "cx" then
      [hGate (op.pos.getD 1 0),
       czGate (op.pos.headD 0) (op.pos.getD 1 0),
       hGate (op.pos.getD 1 0)]
    else [op]
  phase _ := 0

/-- `CNOTToISWAP` (`cnot2iswap.py`), one of the conditional `CX_rules`;
global phase `π/4`. -/
noncomputable def cnotToISWAPRule : UnrollRule where
  original := "cx"
  basis := ["rx", "ry", "rz", "iswap"]
  run op :=
    if op.name = "cx" then
      [rzGate (op.pos.headD 0) (-Real.pi / 2),
       rxGate (op.pos.getD 1 0) (Real.pi / 2),
       rzGate (op.pos.getD 1 0) (Real.pi / 2),
       iswapGate (op.pos.headD 0) (op.pos.getD 1 0),
       rxGate (op.pos.headD 0) (Real.pi / 2),
       iswapGate (op.pos.headD 0) (op.pos.getD 1 0),
       rzGate (op.pos.getD 1 0) (Real.pi / 2)]
    else [op]
  phase _ := Real.pi / 4

/-- `CNOTToCP` (`cnot2cp.py`), one of the conditional `CX_rules`:
`H(t)·CP(π)·H(t)`. -/
noncomputable def cnotToCPRule : UnrollRule where
  original := "cx"
  basis := ["h", "cp"]
  run op :=
    if op.name = "cx" then
      [hGate (op.pos.getD 1 0),
       cpGate (op.pos.headD 0) (op.pos.getD 1 0) Real.pi,
       hGate (op.pos.getD 1 0)]
    else [op]
  phase _ := 0

/-- The rule table built by the import-time loop of `rules_library.py`:
one entry per rule instance of `rules/__init__.__all__` keyed by its
`original` name, skipping the `cx`-original rules, with a later instance
overwriting an earlier one under the same key — which happens only for
`ccx`, left pointing at `ToffoliToCNOT8`.  Keys are listed in first-
assignment order; lookup is by key, so the order is immaterial. -/
noncomputable def baseRulesDict : List (String × UnrollRule) :=
  [("cp", cpToCNOTRule), ("cs", csToCNOTRule), ("ct", ctToCNOTRule),
   ("cy", cyToCNOTRule), ("cz", czToCNOTRule), ("cswap", fredkinToToffoliRule),
   ("h", hToRYRZRule), ("iswap", iswapToCNOTRule), ("p", phaseToRZRule),
   ("rxx", rxxToCNOTRule), ("ryy", ryyToCNOTRule), ("rzz", rzzToCNOTRule),
   ("s", sToRZRule), ("sdg", sdgToRZRule), ("sw", swToRYRZRule),
   ("swdg", swdgToRYRZRule), ("swap", swapToCNOTRule), ("sx", sxToRXRule),
   ("sxdg", sxdgToRXRule), ("sy", syToRYRule), ("sydg", sydgToRYRule),
   ("t", tToRZRule), ("tdg", tdgToRZRule), ("ccx", toffoliToCNOT8Rule),
   ("w", wToRYRZRule), ("x", xToRXRule), ("y", yToRYRule), ("z", zToRZRule),
   ("crx", crxToCNOTRule), ("cry", cryToCNOTRule), ("crz", crzToCNOTRule),
   ("mcx", mcxToCNOTRule), ("mcy", mcyToCNOTRule), ("mcz", mczToCNOTRule),
   ("mcrx", mcrxToCNOTRule), ("mcry", mcryToCNOTRule), ("mcrz", mcrzToCNOTRule),
   ("u3", u3DecomposeRule)]

/-! ## `UnrollToBasis` (`unroll_to_basis.py`) -/

/-- `self.quantum_element` of `UnrollToBasis.__init__`: the names of
`Barrier`, `Delay`, `XYResonance` and `Measure`. -/
def quantumElement : List String := ["barrier", "delay", "xy", "measure"]

/-- The `basis_gates` field set up by `UnrollToBasis.__init__`: the given
basis (default `[cx, rx, ry, rz, id]`), extended by the four quantum
elements, all lower-cased. -/
def mkBasisGates (userBasis : Option (List String)) : List String :=
  ((userBasis.getD ["cx", "rx", "ry", "rz", "id"]) ++ quantumElement).map strToLower

/-- The `Rules_dict.update(CX_rules[...])` step of `UnrollToBasis.__init__`:
if `cz` is in the basis, add the `cx → CNOTToCZ` rule; else if `iswap`,
`CNOTToISWAP`; else if `cp`, `CNOTToCP`. -/
noncomputable def mkRulesDict (basisGates : List String) : List (String × UnrollRule) :=
  if "cz" ∈ basisGates then baseRulesDict ++ [("cx", cnotToCZRule)]
  else if "iswap" ∈ basisGates then baseRulesDict ++ [("cx", cnotToISWAPRule)]
  else if "cp" ∈ basisGates then baseRulesDict ++ [("cx", cnotToCPRule)]
  else baseRulesDict

/-- quafu `QuantumCircuit`, restricted to the fields the unroll pass uses:
qubit count, gate list, and the measure map (qubit ↦ classical bit). -/
structure QCircuit where
  num : ℕ
  gates : List QGate := []
  measures : List (ℕ × ℕ) := []

/-- The exceptions `UnrollToBasis` can raise: the `ValueError` of the
exhausted recursion depth, the uncaught `KeyError` for a gate without a
rule, and the `AttributeError` of calling `.measure` on the `None` left
behind by the `unitary` branch. -/
inductive UnrollErr where
  | cannotUnroll (nm : String) (basisGates : List String)
  | keyErr (nm : String)
  | attrErr

/-- Embedding of `UnrollToBasis._apply_gate_rules(current_op, gate,
new_circuit, depth)`.  The result pairs the Python return value (`None`
or the updated circuit) with the accumulated `self.global_phase`; depth
counts down exactly as in the source, with the `depth <= 0` check first. -/
noncomputable def applyGateRules (tbl : List (String × UnrollRule)) (basisGates : List String)
    (qubits : ℕ) : ℕ → QGate → QGate → Option QCircuit → ℝ →
    Except UnrollErr (Option QCircuit × ℝ)
  | 0, currentOp, _, _, _ =>
    .error (.cannotUnroll (strToLower currentOp.name) basisGates)
  | d + 1, currentOp, gate, newCircuit, phase =>
    let newC := newCircuit.getD { num := qubits }
    if strToLower gate.name ∈ basisGates then
      .ok (some { newC with gates := newC.gates ++ [gate] }, phase)
    else if strToLower gate.name = "unitary" then
      .ok (none, phase)
    else
      match tbl.find? (fun p => p.1 = strToLower gate.name) with
      | none => .error (.keyErr (strToLower gate.name))
      | some entry =>
        let rl := entry.2.run gate
        let phase := phase + entry.2.phase gate
        if entry.2.basis.all (· ∈ basisGates) then
          .ok (some { newC with gates := newC.gates ++ rl }, phase)
        else
          rl.foldlM
            (fun st g => applyGateRules tbl basisGates qubits d currentOp g st.1 st.2)
            (some newC, phase)

/-- `x % (2*π)` on floats (`math`-style modulo with a positive modulus). -/
noncomputable def modTwoPi (x : ℝ) : ℝ := x - 2 * Real.pi * ⌊x / (2 * Real.pi)⌋

/-- Embedding of `UnrollToBasis.run(circuit)`: fold `_apply_gate_rules`
with `depth = gate_run_limit = 8` over the gates, then replay the measures
on the result (`None.measure` raises when there are measures), and reduce
the accumulated global phase modulo `2π`. -/
noncomputable def unrollRun (tbl : List (String × UnrollRule)) (basisGates : List String)
    (circuit : QCircuit) : Except UnrollErr (Option QCircuit × ℝ) := do
  let res ← circuit.gates.foldlM
    (fun st op => applyGateRules tbl basisGates circuit.num 8 op op st.1 st.2)
    ((some { num := circuit.num } : Option QCircuit), (0 : ℝ))
  match res.1 with
  | some c => .ok (some { c with measures := c.measures ++ circuit.measures }, modTwoPi res.2)
  | none =>
    if circuit.measures = [] then .ok (none, modTwoPi res.2) else .error .attrErr

/-! ## C1: unroll output stays inside the basis -/

/-- A gate value uses the canonical (lower-case) name of its quafu class —
this is what ties the embedded `isinstance` tests (`op.name = "cp"` etc.)
to the name-keyed rule lookup `Rules_dict[gate.name.lower()]`. -/
abbrev CanonicalName (g : QGate) : Prop := strToLower g.name = g.name

/-- A `foldl` that only ever appends elements satisfying `P` preserves
`P` over the whole accumulated list. -/
theorem foldl_append_invariant {α β : Type} (P : β → Prop) (f : List β → α → List β)
    (hf : ∀ acc a, (∀ x ∈ acc, P x) → ∀ x ∈ f acc a, P x) :
    ∀ (l : List α) (acc : List β), (∀ x ∈ acc, P x) → ∀ x ∈ l.foldl f acc, P x := by
  intro l
  induction l with
  | nil => intro acc hacc x hx; exact hacc x hx
  | cons a l ih =>
    intro acc hacc x hx
    exact ih (f acc a) (hf acc a hacc) x hx

/-- The canonical-name fact for `cxGate`. -/
theorem cxGate_canonical (a b : ℕ) : CanonicalName (cxGate a b) := by
  show strToLower "cx" = "cx"
  decide

/-- The canonical-name fact for `cpGate`. -/
theorem cpGate_canonical (a b : ℕ) (th : ℝ) : CanonicalName (cpGate a b th) := by
  show strToLower "cp" = "cp"
  decide

/-- A `foldl` over a pair state whose step only ever appends elements
satisfying `P` to the first component preserves `P` there. -/
theorem foldl_pair_invariant {α β γ : Type} (P : β → Prop)
    (f : List β × γ → α → List β × γ)
    (hf : ∀ st a, (∀ x ∈ st.1, P x) → ∀ x ∈ (f st a).1, P x) :
    ∀ (l : List α) (st : List β × γ), (∀ x ∈ st.1, P x) → ∀ x ∈ (l.foldl f st).1, P x := by
  intro l
  induction l with
  | nil => intro st hst x hx; exact hst x hx
  | cons a l ih =>
    intro st hst x hx
    exact ih (f st a) (hf st a hst) x hx

/-- Every gate emitted by the gray-code section (from any entering
`last_code`) is a canonical `cx` or `cp`. -/
theorem graySectionFrom_names (cb : List ℕ) (tb : ℕ) (th : ℝ) (il : List ℕ) :
    ∀ g ∈ graySectionFrom cb tb th il,
      (g.name = "cx" ∨ g.name = "cp") ∧ CanonicalName g := by
  unfold graySectionFrom
  refine foldl_pair_invariant _ _ ?_ _ _ (by intro x hx; simp at hx)
  intro st a hacc x hx
  unfold grayStep at hx
  dsimp only at hx
  split at hx <;>
  · rcases List.mem_append.mp hx with hmem | hmem
    · split at hmem
      · rcases List.mem_append.mp hmem with hmem2 | hmem2
        · exact hacc x hmem2
        · simp only [List.mem_singleton] at hmem2
          subst hmem2
          exact ⟨Or.inl rfl, cxGate_canonical _ _⟩
      · split at hmem
        · rcases List.mem_append.mp hmem with hmem2 | hmem2
          · exact hacc x hmem2
          · simp only [List.mem_singleton] at hmem2
            subst hmem2
            exact ⟨Or.inl rfl, cxGate_canonical _ _⟩
        · exact hacc x hmem
    · simp only [List.mem_singleton] at hmem
      subst hmem
      exact ⟨Or.inr rfl, cpGate_canonical _ _ _⟩

/-- Specialisation of `graySectionFrom_names` to the first-entry section. -/
theorem graySection_names (cb : List ℕ) (tb : ℕ) (th : ℝ) :
    ∀ g ∈ graySection cb tb th, (g.name = "cx" ∨ g.name = "cp") ∧ CanonicalName g := by
  unfold graySection
  exact graySectionFrom_names cb tb th _

/-- Membership/canonicity transfer through a known gate name. -/
theorem gate_basis_ok {g : QGate} {bs : List String} (nm : String) (h : g.name = nm)
    (h2 : strToLower nm ∈ bs ∧ strToLower nm = nm) :
    strToLower g.name ∈ bs ∧ CanonicalName g := by
  constructor
  · rw [h]
    exact h2.1
  · show strToLower g.name = g.name
    rw [h]
    exact h2.2

/-- Rule-table soundness for the `cp` entry. -/
theorem cpRule_ok : ∀ g : QGate, g.name = "cp" → ∀ gp ∈ cpToCNOTRule.run g,
    strToLower gp.name ∈ cpToCNOTRule.basis ∧ CanonicalName gp := by
  intro g hg gp hgp
  simp only [cpToCNOTRule, cpToCNOTRun, hg, reduceIte, List.mem_cons, List.not_mem_nil, or_false] at hgp
  rcases hgp with rfl | rfl | rfl | rfl | rfl
  · exact gate_basis_ok "p" rfl (by decide)
  · exact gate_basis_ok "cx" rfl (by decide)
  · exact gate_basis_ok "p" rfl (by decide)
  · exact gate_basis_ok "cx" rfl (by decide)
  · exact gate_basis_ok "p" rfl (by decide)

/-- Rule-table soundness for the `cs` entry. -/
theorem csRule_ok : ∀ g : QGate, g.name = "cs" → ∀ gp ∈ csToCNOTRule.run g,
    strToLower gp.name ∈ csToCNOTRule.basis ∧ CanonicalName gp := by
  intro g hg gp hgp
  simp only [csToCNOTRule, hg, reduceIte, List.mem_cons, List.not_mem_nil, or_false] at hgp
  rcases hgp with rfl | rfl | rfl | rfl | rfl
  · exact gate_basis_ok "p" rfl (by decide)
  · exact gate_basis_ok "cx" rfl (by decide)
  · exact gate_basis_ok "p" rfl (by decide)
  · exact gate_basis_ok "cx" rfl (by decide)
  · exact gate_basis_ok "p" rfl (by decide)

/-- Rule-table soundness for the `ct` entry. -/
theorem ctRule_ok : ∀ g : QGate, g.name = "ct" → ∀ gp ∈ ctToCNOTRule.run g,
    strToLower gp.name ∈ ctToCNOTRule.basis ∧ CanonicalName gp := by
  intro g hg gp hgp
  simp only [ctToCNOTRule, hg, reduceIte, List.mem_cons, List.not_mem_nil, or_false] at hgp
  rcases hgp with rfl | rfl | rfl | rfl | rfl
  · exact gate_basis_ok "p" rfl (by decide)
  · exact gate_basis_ok "cx" rfl (by decide)
  · exact gate_basis_ok "p" rfl (by decide)
  · exact gate_basis_ok "cx" rfl (by decide)
  · exact gate_basis_ok "p" rfl (by decide)

/-- Rule-table soundness for the `cy` entry. -/
theorem cyRule_ok : ∀ g : QGate, g.name = "cy" → ∀ gp ∈ cyToCNOTRule.run g,
    strToLower gp.name ∈ cyToCNOTRule.basis ∧ CanonicalName gp := by
  intro g hg gp hgp
  simp only [cyToCNOTRule, hg, reduceIte, List.mem_cons, List.not_mem_nil, or_false] at hgp
  rcases hgp with rfl | rfl | rfl
  · exact gate_basis_ok "sdg" rfl (by decide)
  · exact gate_basis_ok "cx" rfl (by decide)
  · exact gate_basis_ok "s" rfl (by decide)

/-- Rule-table soundness for the `cz` entry. -/
theorem czRule_ok : ∀ g : QGate, g.name = "cz" → ∀ gp ∈ czToCNOTRule.run g,
    strToLower gp.name ∈ czToCNOTRule.basis ∧ CanonicalName gp := by
  intro g hg gp hgp
  simp only [czToCNOTRule, hg, reduceIte, List.mem_cons, List.not_mem_nil, or_false] at hgp
  rcases hgp with rfl | rfl | rfl
  · exact gate_basis_ok "h" rfl (by decide)
  · exact gate_basis_ok "cx" rfl (by decide)
  · exact gate_basis_ok "h" rfl (by decide)

/-- Rule-table soundness for the `cswap` entry. -/
theorem cswapRule_ok : ∀ g : QGate, g.name = "cswap" → ∀ gp ∈ fredkinToToffoliRule.run g,
    strToLower gp.name ∈ fredkinToToffoliRule.basis ∧ CanonicalName gp := by
  intro g hg gp hgp
  simp only [fredkinToToffoliRule, hg, reduceIte, List.mem_cons, List.not_mem_nil, or_false] at hgp
  rcases hgp with rfl | rfl | rfl
  · exact gate_basis_ok "cx" rfl (by decide)
  · exact gate_basis_ok "ccx" rfl (by decide)
  · exact gate_basis_ok "cx" rfl (by decide)

/-- Rule-table soundness for the `h` entry. -/
theorem hRule_ok : ∀ g : QGate, g.name = "h" → ∀ gp ∈ hToRYRZRule.run g,
    strToLower gp.name ∈ hToRYRZRule.basis ∧ CanonicalName gp := by
  intro g hg gp hgp
  simp only [hToRYRZRule, hg, reduceIte, List.mem_cons, List.not_mem_nil, or_false] at hgp
  rcases hgp with rfl | rfl
  · exact gate_basis_ok "rz" rfl (by decide)
  · exact gate_basis_ok "ry" rfl (by decide)

/-- Rule-table soundness for the `iswap` entry. -/
theorem iswapRule_ok : ∀ g : QGate, g.name = "iswap" → ∀ gp ∈ iswapToCNOTRule.run g,
    strToLower gp.name ∈ iswapToCNOTRule.basis ∧ CanonicalName gp := by
  intro g hg gp hgp
  simp only [iswapToCNOTRule, hg, reduceIte, List.mem_cons, List.not_mem_nil, or_false] at hgp
  rcases hgp with rfl | rfl | rfl | rfl | rfl | rfl
  · exact gate_basis_ok "s" rfl (by decide)
  · exact gate_basis_ok "s" rfl (by decide)
  · exact gate_basis_ok "h" rfl (by decide)
  · exact gate_basis_ok "cx" rfl (by decide)
  · exact gate_basis_ok "cx" rfl (by decide)
  · exact gate_basis_ok "h" rfl (by decide)

/-- Rule-table soundness for the `p` entry. -/
theorem pRule_ok : ∀ g : QGate, g.name = "p" → ∀ gp ∈ phaseToRZRule.run g,
    strToLower gp.name ∈ phaseToRZRule.basis ∧ CanonicalName gp := by
  intro g hg gp hgp
  simp only [phaseToRZRule, hg, reduceIte, List.mem_cons, List.not_mem_nil, or_false] at hgp
  rcases hgp with rfl
  · exact gate_basis_ok "rz" rfl (by decide)

/-- Rule-table soundness for the `rxx` entry. -/
theorem rxxRule_ok : ∀ g : QGate, g.name = "rxx" → ∀ gp ∈ rxxToCNOTRule.run g,
    strToLower gp.name ∈ rxxToCNOTRule.basis ∧ CanonicalName gp := by
  intro g hg gp hgp
  simp only [rxxToCNOTRule, hg, reduceIte, List.mem_cons, List.not_mem_nil, or_false] at hgp
  rcases hgp with rfl | rfl | rfl | rfl | rfl | rfl | rfl
  · exact gate_basis_ok "h" rfl (by decide)
  · exact gate_basis_ok "h" rfl (by decide)
  · exact gate_basis_ok "cx" rfl (by decide)
  · exact gate_basis_ok "rz" rfl (by decide)
  · exact gate_basis_ok "cx" rfl (by decide)
  · exact gate_basis_ok "h" rfl (by decide)
  · exact gate_basis_ok "h" rfl (by decide)

/-- Rule-table soundness for the `ryy` entry. -/
theorem ryyRule_ok : ∀ g : QGate, g.name = "ryy" → ∀ gp ∈ ryyToCNOTRule.run g,
    strToLower gp.name ∈ ryyToCNOTRule.basis ∧ CanonicalName gp := by
  intro g hg gp hgp
  simp only [ryyToCNOTRule, hg, reduceIte, List.mem_cons, List.not_mem_nil, or_false] at hgp
  rcases hgp with rfl | rfl | rfl | rfl | rfl | rfl | rfl
  · exact gate_basis_ok "rx" rfl (by decide)
  · exact gate_basis_ok "rx" rfl (by decide)
  · exact gate_basis_ok "cx" rfl (by decide)
  · exact gate_basis_ok "rz" rfl (by decide)
  · exact gate_basis_ok "cx" rfl (by decide)
  · exact gate_basis_ok "rx" rfl (by decide)
  · exact gate_basis_ok "rx" rfl (by decide)

/-- Rule-table soundness for the `rzz` entry. -/
theorem rzzRule_ok : ∀ g : QGate, g.name = "rzz" → ∀ gp ∈ rzzToCNOTRule.run g,
    strToLower gp.name ∈ rzzToCNOTRule.basis ∧ CanonicalName gp := by
  intro g hg gp hgp
  simp only [rzzToCNOTRule, hg, reduceIte, List.mem_cons, List.not_mem_nil, or_false] at hgp
  rcases hgp with rfl | rfl | rfl
  · exact gate_basis_ok "cx" rfl (by decide)
  · exact gate_basis_ok "rz" rfl (by decide)
  · exact gate_basis_ok "cx" rfl (by decide)

/-- Rule-table soundness for the `s` entry. -/
theorem sRule_ok : ∀ g : QGate, g.name = "s" → ∀ gp ∈ sToRZRule.run g,
    strToLower gp.name ∈ sToRZRule.basis ∧ CanonicalName gp := by
  intro g hg gp hgp
  simp only [sToRZRule, hg, reduceIte, List.mem_cons, List.not_mem_nil, or_false] at hgp
  rcases hgp with rfl
  · exact gate_basis_ok "rz" rfl (by decide)

/-- Rule-table soundness for the `sdg` entry. -/
theorem sdgRule_ok : ∀ g : QGate, g.name = "sdg" → ∀ gp ∈ sdgToRZRule.run g,
    strToLower gp.name ∈ sdgToRZRule.basis ∧ CanonicalName gp := by
  intro g hg gp hgp
  simp only [sdgToRZRule, hg, reduceIte, List.mem_cons, List.not_mem_nil, or_false] at hgp
  rcases hgp with rfl
  · exact gate_basis_ok "rz" rfl (by decide)

/-- Rule-table soundness for the `sw` entry. -/
theorem swRule_ok : ∀ g : QGate, g.name = "sw" → ∀ gp ∈ swToRYRZRule.run g,
    strToLower gp.name ∈ swToRYRZRule.basis ∧ CanonicalName gp := by
  intro g hg gp hgp
  simp only [swToRYRZRule, hg, reduceIte, List.mem_cons, List.not_mem_nil, or_false] at hgp
  rcases hgp with rfl | rfl | rfl
  · exact gate_basis_ok "rz" rfl (by decide)
  · exact gate_basis_ok "ry" rfl (by decide)
  · exact gate_basis_ok "rz" rfl (by decide)

/-- Rule-table soundness for the `swdg` entry. -/
theorem swdgRule_ok : ∀ g : QGate, g.name = "swdg" → ∀ gp ∈ swdgToRYRZRule.run g,
    strToLower gp.name ∈ swdgToRYRZRule.basis ∧ CanonicalName gp := by
  intro g hg gp hgp
  simp only [swdgToRYRZRule, hg, reduceIte, List.mem_cons, List.not_mem_nil, or_false] at hgp
  rcases hgp with rfl | rfl | rfl
  · exact gate_basis_ok "rz" rfl (by decide)
  · exact gate_basis_ok "ry" rfl (by decide)
  · exact gate_basis_ok "rz" rfl (by decide)

/-- Rule-table soundness for the `swap` entry. -/
theorem swapRule_ok : ∀ g : QGate, g.name = "swap" → ∀ gp ∈ swapToCNOTRule.run g,
    strToLower gp.name ∈ swapToCNOTRule.basis ∧ CanonicalName gp := by
  intro g hg gp hgp
  simp only [swapToCNOTRule, hg, reduceIte, List.mem_cons, List.not_mem_nil, or_false] at hgp
  rcases hgp with rfl | rfl | rfl
  · exact gate_basis_ok "cx" rfl (by decide)
  · exact gate_basis_ok "cx" rfl (by decide)
  · exact gate_basis_ok "cx" rfl (by decide)

/-- Rule-table soundness for the `sx` entry. -/
theorem sxRule_ok : ∀ g : QGate, g.name = "sx" → ∀ gp ∈ sxToRXRule.run g,
    strToLower gp.name ∈ sxToRXRule.basis ∧ CanonicalName gp := by
  intro g hg gp hgp
  simp only [sxToRXRule, hg, reduceIte, List.mem_cons, List.not_mem_nil, or_false] at hgp
  rcases hgp with rfl
  · exact gate_basis_ok "rx" rfl (by decide)

/-- Rule-table soundness for the `sxdg` entry. -/
theorem sxdgRule_ok : ∀ g : QGate, g.name = "sxdg" → ∀ gp ∈ sxdgToRXRule.run g,
    strToLower gp.name ∈ sxdgToRXRule.basis ∧ CanonicalName gp := by
  intro g hg gp hgp
  simp only [sxdgToRXRule, hg, reduceIte, List.mem_cons, List.not_mem_nil, or_false] at hgp
  rcases hgp with rfl
  · exact gate_basis_ok "rx" rfl (by decide)

/-- Rule-table soundness for the `sy` entry. -/
theorem syRule_ok : ∀ g : QGate, g.name = "sy" → ∀ gp ∈ syToRYRule.run g,
    strToLower gp.name ∈ syToRYRule.basis ∧ CanonicalName gp := by
  intro g hg gp hgp
  simp only [syToRYRule, hg, reduceIte, List.mem_cons, List.not_mem_nil, or_false] at hgp
  rcases hgp with rfl
  · exact gate_basis_ok "ry" rfl (by decide)

/-- Rule-table soundness for the `sydg` entry. -/
theorem sydgRule_ok : ∀ g : QGate, g.name = "sydg" → ∀ gp ∈ sydgToRYRule.run g,
    strToLower gp.name ∈ sydgToRYRule.basis ∧ CanonicalName gp := by
  intro g hg gp hgp
  simp only [sydgToRYRule, hg, reduceIte, List.mem_cons, List.not_mem_nil, or_false] at hgp
  rcases hgp with rfl
  · exact gate_basis_ok "ry" rfl (by decide)

/-- Rule-table soundness for the `t` entry. -/
theorem tRule_ok : ∀ g : QGate, g.name = "t" → ∀ gp ∈ tToRZRule.run g,
    strToLower gp.name ∈ tToRZRule.basis ∧ CanonicalName gp := by
  intro g hg gp hgp
  simp only [tToRZRule, hg, reduceIte, List.mem_cons, List.not_mem_nil, or_false] at hgp
  rcases hgp with rfl
  · exact gate_basis_ok "rz" rfl (by decide)

/-- Rule-table soundness for the `tdg` entry. -/
theorem tdgRule_ok : ∀ g : QGate, g.name = "tdg" → ∀ gp ∈ tdgToRZRule.run g,
    strToLower gp.name ∈ tdgToRZRule.basis ∧ CanonicalName gp := by
  intro g hg gp hgp
  simp only [tdgToRZRule, hg, reduceIte, List.mem_cons, List.not_mem_nil, or_false] at hgp
  rcases hgp with rfl
  · exact gate_basis_ok "rz" rfl (by decide)

/-- Rule-table soundness for the `ccx` entry. -/
theorem ccxRule_ok : ∀ g : QGate, g.name = "ccx" → ∀ gp ∈ toffoliToCNOT8Rule.run g,
    strToLower gp.name ∈ toffoliToCNOT8Rule.basis ∧ CanonicalName gp := by
  intro g hg gp hgp
  simp only [toffoliToCNOT8Rule, hg, reduceIte, List.mem_cons, List.not_mem_nil, or_false] at hgp
  rcases hgp with rfl | rfl | rfl | rfl | rfl | rfl | rfl | rfl | rfl | rfl | rfl | rfl | rfl | rfl | rfl | rfl | rfl
  · exact gate_basis_ok "h" rfl (by decide)
  · exact gate_basis_ok "t" rfl (by decide)
  · exact gate_basis_ok "t" rfl (by decide)
  · exact gate_basis_ok "t" rfl (by decide)
  · exact gate_basis_ok "cx" rfl (by decide)
  · exact gate_basis_ok "cx" rfl (by decide)
  · exact gate_basis_ok "t" rfl (by decide)
  · exact gate_basis_ok "cx" rfl (by decide)
  · exact gate_basis_ok "cx" rfl (by decide)
  · exact gate_basis_ok "cx" rfl (by decide)
  · exact gate_basis_ok "tdg" rfl (by decide)
  · exact gate_basis_ok "tdg" rfl (by decide)
  · exact gate_basis_ok "cx" rfl (by decide)
  · exact gate_basis_ok "cx" rfl (by decide)
  · exact gate_basis_ok "tdg" rfl (by decide)
  · exact gate_basis_ok "cx" rfl (by decide)
  · exact gate_basis_ok "h" rfl (by decide)

/-- Rule-table soundness for the `w` entry. -/
theorem wRule_ok : ∀ g : QGate, g.name = "w" → ∀ gp ∈ wToRYRZRule.run g,
    strToLower gp.name ∈ wToRYRZRule.basis ∧ CanonicalName gp := by
  intro g hg gp hgp
  simp only [wToRYRZRule, hg, reduceIte, List.mem_cons, List.not_mem_nil, or_false] at hgp
  rcases hgp with rfl | rfl
  · exact gate_basis_ok "rz" rfl (by decide)
  · exact gate_basis_ok "ry" rfl (by decide)

/-- Rule-table soundness for the `x` entry. -/
theorem xRule_ok : ∀ g : QGate, g.name = "x" → ∀ gp ∈ xToRXRule.run g,
    strToLower gp.name ∈ xToRXRule.basis ∧ CanonicalName gp := by
  intro g hg gp hgp
  simp only [xToRXRule, hg, reduceIte, List.mem_cons, List.not_mem_nil, or_false] at hgp
  rcases hgp with rfl
  · exact gate_basis_ok "rx" rfl (by decide)

/-- Rule-table soundness for the `y` entry. -/
theorem yRule_ok : ∀ g : QGate, g.name = "y" → ∀ gp ∈ yToRYRule.run g,
    strToLower gp.name ∈ yToRYRule.basis ∧ CanonicalName gp := by
  intro g hg gp hgp
  simp only [yToRYRule, hg, reduceIte, List.mem_cons, List.not_mem_nil, or_false] at hgp
  rcases hgp with rfl
  · exact gate_basis_ok "ry" rfl (by decide)

/-- Rule-table soundness for the `z` entry. -/
theorem zRule_ok : ∀ g : QGate, g.name = "z" → ∀ gp ∈ zToRZRule.run g,
    strToLower gp.name ∈ zToRZRule.basis ∧ CanonicalName gp := by
  intro g hg gp hgp
  simp only [zToRZRule, hg, reduceIte, List.mem_cons, List.not_mem_nil, or_false] at hgp
  rcases hgp with rfl
  · exact gate_basis_ok "rz" rfl (by decide)

/-- Rule-table soundness for the `crx` entry. -/
theorem crxRule_ok : ∀ g : QGate, g.name = "crx" → ∀ gp ∈ crxToCNOTRule.run g,
    strToLower gp.name ∈ crxToCNOTRule.basis ∧ CanonicalName gp := by
  intro g hg gp hgp
  simp only [crxToCNOTRule, hg, reduceIte, List.mem_cons, List.not_mem_nil, or_false] at hgp
  rcases hgp with rfl | rfl | rfl | rfl | rfl | rfl
  · exact gate_basis_ok "s" rfl (by decide)
  · exact gate_basis_ok "cx" rfl (by decide)
  · exact gate_basis_ok "ry" rfl (by decide)
  · exact gate_basis_ok "cx" rfl (by decide)
  · exact gate_basis_ok "ry" rfl (by decide)
  · exact gate_basis_ok "sdg" rfl (by decide)

/-- Rule-table soundness for the `cry` entry. -/
theorem cryRule_ok : ∀ g : QGate, g.name = "cry" → ∀ gp ∈ cryToCNOTRule.run g,
    strToLower gp.name ∈ cryToCNOTRule.basis ∧ CanonicalName gp := by
  intro g hg gp hgp
  simp only [cryToCNOTRule, hg, reduceIte, List.mem_cons, List.not_mem_nil, or_false] at hgp
  rcases hgp with rfl | rfl | rfl | rfl
  · exact gate_basis_ok "ry" rfl (by decide)
  · exact gate_basis_ok "cx" rfl (by decide)
  · exact gate_basis_ok "ry" rfl (by decide)
  · exact gate_basis_ok "cx" rfl (by decide)

/-- Rule-table soundness for the `crz` entry. -/
theorem crzRule_ok : ∀ g : QGate, g.name = "crz" → ∀ gp ∈ crzToCNOTRule.run g,
    strToLower gp.name ∈ crzToCNOTRule.basis ∧ CanonicalName gp := by
  intro g hg gp hgp
  simp only [crzToCNOTRule, hg, reduceIte, List.mem_cons, List.not_mem_nil, or_false] at hgp
  rcases hgp with rfl | rfl | rfl | rfl
  · exact gate_basis_ok "rz" rfl (by decide)
  · exact gate_basis_ok "cx" rfl (by decide)
  · exact gate_basis_ok "rz" rfl (by decide)
  · exact gate_basis_ok "cx" rfl (by decide)

/-- Rule-table soundness for the `u3` entry. -/
theorem u3Rule_ok : ∀ g : QGate, g.name = "u3" → ∀ gp ∈ u3DecomposeRule.run g,
    strToLower gp.name ∈ u3DecomposeRule.basis ∧ CanonicalName gp := by
  intro g hg gp hgp
  simp only [u3DecomposeRule, hg, reduceIte, List.mem_cons, List.not_mem_nil, or_false] at hgp
  rcases hgp with rfl | rfl | rfl
  · exact gate_basis_ok "rz" rfl (by decide)
  · exact gate_basis_ok "rx" rfl (by decide)
  · exact gate_basis_ok "rz" rfl (by decide)

/-- Rule-table soundness for the `cx` entry. -/
theorem cnotCZRule_ok : ∀ g : QGate, g.name = "cx" → ∀ gp ∈ cnotToCZRule.run g,
    strToLower gp.name ∈ cnotToCZRule.basis ∧ CanonicalName gp := by
  intro g hg gp hgp
  simp only [cnotToCZRule, hg, reduceIte, List.mem_cons, List.not_mem_nil, or_false] at hgp
  rcases hgp with rfl | rfl | rfl
  · exact gate_basis_ok "h" rfl (by decide)
  · exact gate_basis_ok "cz" rfl (by decide)
  · exact gate_basis_ok "h" rfl (by decide)

/-- Rule-table soundness for the `cx` entry. -/
theorem cnotISWAPRule_ok : ∀ g : QGate, g.name = "cx" → ∀ gp ∈ cnotToISWAPRule.run g,
    strToLower gp.name ∈ cnotToISWAPRule.basis ∧ CanonicalName gp := by
  intro g hg gp hgp
  simp only [cnotToISWAPRule, hg, reduceIte, List.mem_cons, List.not_mem_nil, or_false] at hgp
  rcases hgp with rfl | rfl | rfl | rfl | rfl | rfl | rfl
  · exact gate_basis_ok "rz" rfl (by decide)
  · exact gate_basis_ok "rx" rfl (by decide)
  · exact gate_basis_ok "rz" rfl (by decide)
  · exact gate_basis_ok "iswap" rfl (by decide)
  · exact gate_basis_ok "rx" rfl (by decide)
  · exact gate_basis_ok "iswap" rfl (by decide)
  · exact gate_basis_ok "rz" rfl (by decide)

/-- Rule-table soundness for the `cx` entry. -/
theorem cnotCPRule_ok : ∀ g : QGate, g.name = "cx" → ∀ gp ∈ cnotToCPRule.run g,
    strToLower gp.name ∈ cnotToCPRule.basis ∧ CanonicalName gp := by
  intro g hg gp hgp
  simp only [cnotToCPRule, hg, reduceIte, List.mem_cons, List.not_mem_nil, or_false] at hgp
  rcases hgp with rfl | rfl | rfl
  · exact gate_basis_ok "h" rfl (by decide)
  · exact gate_basis_ok "cp" rfl (by decide)
  · exact gate_basis_ok "h" rfl (by decide)

/-- Every gate of the `MCX` case split is a canonical `cx`, `h`, `cp` or
`ccx`. -/
theorem mcxCore_names (cb : List ℕ) (t : ℕ) :
    ∀ gp ∈ mcxCore cb t, strToLower gp.name ∈ ["cx", "h", "cp", "ccx"] ∧ CanonicalName gp := by
  intro gp hgp
  unfold mcxCore at hgp
  split at hgp
  · simp only [List.mem_singleton] at hgp
    subst hgp
    exact gate_basis_ok "cx" rfl (by decide)
  · split at hgp
    · simp only [List.mem_singleton] at hgp
      subst hgp
      exact gate_basis_ok "ccx" rfl (by decide)
    · simp only [List.mem_append, List.mem_singleton] at hgp
      rcases hgp with (hgp | hgp) | hgp
      · subst hgp
        exact gate_basis_ok "h" rfl (by decide)
      · obtain ⟨hname, hcan⟩ := graySection_names _ _ _ gp hgp
        rcases hname with h | h
        · exact gate_basis_ok "cx" h (by decide)
        · exact gate_basis_ok "cp" h (by decide)
      · subst hgp
        exact gate_basis_ok "h" rfl (by decide)

/-- Rule-table soundness for the `mcx` entry. -/
theorem mcxRule_ok : ∀ g : QGate, g.name = "mcx" → ∀ gp ∈ mcxToCNOTRule.run g,
    strToLower gp.name ∈ mcxToCNOTRule.basis ∧ CanonicalName gp := by
  intro g hg gp hgp
  simp only [mcxToCNOTRule, hg, reduceIte] at hgp
  exact mcxCore_names _ _ gp hgp

/-- Rule-table soundness for the (spec-modelled) `mcy` entry. -/
theorem mcyRule_ok : ∀ g : QGate, g.name = "mcy" → ∀ gp ∈ mcyToCNOTRule.run g,
    strToLower gp.name ∈ mcyToCNOTRule.basis ∧ CanonicalName gp := by
  intro g hg gp hgp
  simp only [mcyToCNOTRule, hg, reduceIte, List.mem_append, List.mem_singleton] at hgp
  rcases hgp with (hgp | hgp) | hgp
  · subst hgp
    exact gate_basis_ok "sdg" rfl (by decide)
  · obtain ⟨hname, hcan⟩ := mcxCore_names _ _ gp hgp
    refine ⟨?_, hcan⟩
    have hsub : ∀ x ∈ ["cx", "h", "cp", "ccx"], x ∈ mcyToCNOTRule.basis := by decide
    exact hsub _ hname
  · subst hgp
    exact gate_basis_ok "s" rfl (by decide)

/-- Rule-table soundness for the (spec-modelled) `mcz` entry. -/
theorem mczRule_ok : ∀ g : QGate, g.name = "mcz" → ∀ gp ∈ mczToCNOTRule.run g,
    strToLower gp.name ∈ mczToCNOTRule.basis ∧ CanonicalName gp := by
  intro g hg gp hgp
  simp only [mczToCNOTRule, hg, reduceIte, List.mem_append, List.mem_singleton] at hgp
  rcases hgp with (hgp | hgp) | hgp
  · subst hgp
    exact gate_basis_ok "h" rfl (by decide)
  · exact mcxCore_names _ _ gp hgp
  · subst hgp
    exact gate_basis_ok "h" rfl (by decide)

/-- Rule-table soundness for the (spec-modelled) `mcrx` entry. -/
theorem mcrxRule_ok : ∀ g : QGate, g.name = "mcrx" → ∀ gp ∈ mcrxToCNOTRule.run g,
    strToLower gp.name ∈ mcrxToCNOTRule.basis ∧ CanonicalName gp := by
  intro g hg gp hgp
  simp only [mcrxToCNOTRule, hg, reduceIte, List.mem_append, List.mem_singleton] at hgp
  rcases hgp with ((hgp | hgp) | hgp) | hgp
  · subst hgp
    exact gate_basis_ok "rx" rfl (by decide)
  · obtain ⟨hname, hcan⟩ := graySection_names _ _ _ gp hgp
    rcases hname with h | h
    · exact gate_basis_ok "cx" h (by decide)
    · exact gate_basis_ok "cp" h (by decide)
  · subst hgp
    exact gate_basis_ok "rx" rfl (by decide)
  · obtain ⟨hname, hcan⟩ := graySection_names _ _ _ gp hgp
    rcases hname with h | h
    · exact gate_basis_ok "cx" h (by decide)
    · exact gate_basis_ok "cp" h (by decide)

/-- Rule-table soundness for the (spec-modelled) `mcrz` entry. -/
theorem mcrzRule_ok : ∀ g : QGate, g.name = "mcrz" → ∀ gp ∈ mcrzToCNOTRule.run g,
    strToLower gp.name ∈ mcrzToCNOTRule.basis ∧ CanonicalName gp := by
  intro g hg gp hgp
  simp only [mcrzToCNOTRule, hg, reduceIte, List.mem_append, List.mem_singleton] at hgp
  rcases hgp with ((hgp | hgp) | hgp) | hgp
  · subst hgp
    exact gate_basis_ok "rz" rfl (by decide)
  · obtain ⟨hname, hcan⟩ := graySection_names _ _ _ gp hgp
    rcases hname with h | h
    · exact gate_basis_ok "cx" h (by decide)
    · exact gate_basis_ok "cp" h (by decide)
  · subst hgp
    exact gate_basis_ok "rz" rfl (by decide)
  · obtain ⟨hname, hcan⟩ := graySection_names _ _ _ gp hgp
    rcases hname with h | h
    · exact gate_basis_ok "cx" h (by decide)
    · exact gate_basis_ok "cp" h (by decide)

/-! ## C1: the `mcry` rule's declared basis omits the `h` gates it emits -/

/-- Basis part of the C1 failing input: `UnrollToBasis` configured with
exactly the basis that `MCRYToCNOT` declares — `cx, sdg, s, cp, cy, ccx,
ry` — which contains no `h`. -/
def c1BasisGates : List String :=
  mkBasisGates (some ["cx", "sdg", "s", "cp", "cy", "ccx", "ry"])

/-- Circuit part of the C1 failing input: one `MCRY` gate with three
controls, forcing `MCRYToCNOT.run` into the gray-code branch — the branch
that appends `HGate`s. -/
noncomputable def c1Circuit : QCircuit :=
  { num := 4, gates := [mcryGate [0, 1, 2] 3 1] }

/-- C1: counterexample.  On the failing input, `UnrollToBasis.run`
returns normally and its output contains the gate `H(3)`: the gray-code
branch of `MCRYToCNOT.run` emits it, and the declared-basis-subset
shortcut of `_apply_gate_rules` adds the rule's output unchecked because
the declared basis (which omits `h`) is a subset of the target basis.
Yet `h` is not in the target basis (which already includes the four
always-permitted quantum elements), so a gate outside the target basis
survives unrolling, contradicting the claim. -/
theorem c1_unroll_basis_escape :
    ∃ ph, unrollRun (mkRulesDict c1BasisGates) c1BasisGates c1Circuit =
        .ok (some { num := 4, gates := mcryToCNOTRule.run (mcryGate [0, 1, 2] 3 1) }, ph) ∧
      hGate 3 ∈ mcryToCNOTRule.run (mcryGate [0, 1, 2] 3 1) ∧
      strToLower (hGate 3).name ∉ c1BasisGates := by
  refine ⟨modTwoPi (0 + mcryToCNOTRule.phase (mcryGate [0, 1, 2] 3 1)), rfl, ?_, by decide⟩
  simp [mcryToCNOTRule, mcryGate]

/-! ## C4: the recursion-depth bound of `_apply_gate_rules` -/

/-- Certificate that a gate's recursive rule expansion reaches the target
basis within `k` nested rule applications: it is already in the basis
(zero applications), or its rule fires once and the declared-basis-subset
shortcut accepts the whole output (one application), or its rule fires
once and every produced gate reaches the basis within `k` more.  The
`unitary` name is excluded (that branch voids the circuit, see C9). -/
inductive Reaches (tbl : List (String × UnrollRule)) (bg : List String) : ℕ → QGate → Prop where
  | inBasis (g : QGate) (k : ℕ) (hg : strToLower g.name ∈ bg) : Reaches tbl bg k g
  | subset (g : QGate) (k : ℕ) (e : String × UnrollRule)
      (hu : strToLower g.name ≠ "unitary")
      (hf : tbl.find? (fun p => p.1 = strToLower g.name) = some e)
      (hb : e.2.basis.all (· ∈ bg) = true) : Reaches tbl bg (k + 1) g
  | recurse (g : QGate) (k : ℕ) (e : String × UnrollRule)
      (hu : strToLower g.name ≠ "unitary")
      (hf : tbl.find? (fun p => p.1 = strToLower g.name) = some e)
      (hr : ∀ gp ∈ e.2.run g, Reaches tbl bg k gp) : Reaches tbl bg (k + 1) g

/-- Folding `_apply_gate_rules` over gates that each succeed with a `some`
circuit succeeds with a `some` circuit. -/
theorem foldlM_applyGateRules_ok (tbl : List (String × UnrollRule)) (bg : List String)
    (q d : ℕ) (op : QGate) :
    ∀ l : List QGate,
      (∀ gp ∈ l, ∀ (acc : QCircuit) (ph : ℝ), ∃ c ph2,
        applyGateRules tbl bg q d op gp (some acc) ph = .ok (some c, ph2)) →
      ∀ (acc : QCircuit) (ph : ℝ), ∃ c ph2,
        l.foldlM (fun st g => applyGateRules tbl bg q d op g st.1 st.2)
          ((some acc : Option QCircuit), ph) = .ok (some c, ph2) := by
  intro l
  induction l with
  | nil => intro _ acc ph; exact ⟨acc, ph, rfl⟩
  | cons g l ih =>
    intro h acc ph
    obtain ⟨c, ph2, hc⟩ := h g (List.mem_cons_self g l) acc ph
    obtain ⟨c2, ph3, hc2⟩ := ih (fun gp hgp => h gp (List.mem_cons_of_mem g hgp)) c ph2
    refine ⟨c2, ph3, ?_⟩
    rw [List.foldlM_cons, hc]
    exact hc2

/-- Safety: a `Reaches k` certificate with `k < d` guarantees
`_apply_gate_rules` at depth `d` returns a circuit, never an error. -/
theorem applyGateRules_reaches (tbl : List (String × UnrollRule)) (bg : List String)
    (q : ℕ) (op : QGate) :
    ∀ (k : ℕ) (g : QGate), Reaches tbl bg k g → ∀ d : ℕ, k < d →
      ∀ (acc : QCircuit) (ph : ℝ), ∃ c ph2,
        applyGateRules tbl bg q d op g (some acc) ph = .ok (some c, ph2) := by
  intro k g hre
  induction hre with
  | inBasis g k hg =>
    intro d hd acc ph
    obtain ⟨d', rfl⟩ : ∃ d', d = d' + 1 := ⟨d - 1, by omega⟩
    refine ⟨{ acc with gates := acc.gates ++ [g] }, ph, ?_⟩
    simp only [applyGateRules, Option.getD_some]
    rw [if_pos hg]
  | subset g k e hu hf hb =>
    intro d hd acc ph
    obtain ⟨d', rfl⟩ : ∃ d', d = d' + 1 := ⟨d - 1, by omega⟩
    by_cases hin : strToLower g.name ∈ bg
    · refine ⟨{ acc with gates := acc.gates ++ [g] }, ph, ?_⟩
      simp only [applyGateRules, Option.getD_some]
      rw [if_pos hin]
    · refine ⟨{ acc with gates := acc.gates ++ e.2.run g }, ph + e.2.phase g, ?_⟩
      simp only [applyGateRules, Option.getD_some]
      rw [if_neg hin, if_neg hu, hf]
      simp only [hb, if_true]
  | recurse g k e hu hf hr ih =>
    intro d hd acc ph
    obtain ⟨d', rfl⟩ : ∃ d', d = d' + 1 := ⟨d - 1, by omega⟩
    by_cases hin : strToLower g.name ∈ bg
    · refine ⟨{ acc with gates := acc.gates ++ [g] }, ph, ?_⟩
      simp only [applyGateRules, Option.getD_some]
      rw [if_pos hin]
    · by_cases hsub : e.2.basis.all (· ∈ bg) = true
      · refine ⟨{ acc with gates := acc.gates ++ e.2.run g }, ph + e.2.phase g, ?_⟩
        simp only [applyGateRules, Option.getD_some]
        rw [if_neg hin, if_neg hu, hf]
        simp only [hsub, if_true]
      · have hstep : ∀ gp ∈ e.2.run g, ∀ (acc2 : QCircuit) (ph2 : ℝ), ∃ c ph3,
            applyGateRules tbl bg q d' op gp (some acc2) ph2 = .ok (some c, ph3) :=
          fun gp hgp acc2 ph2 => ih gp hgp d' (by omega) acc2 ph2
        obtain ⟨c, ph3, hfold⟩ :=
          foldlM_applyGateRules_ok tbl bg q d' op (e.2.run g) hstep acc (ph + e.2.phase g)
        refine ⟨c, ph3, ?_⟩
        simp only [applyGateRules, Option.getD_some]
        rw [if_neg hin, if_neg hu, hf]
        simp only [hsub, if_false]
        exact hfold

/-- C4: amended.  (i) A gate whose recursive expansion reaches the target
basis within `k < d` nested rule applications is unrolled at depth `d`
without error; since `run` calls `_apply_gate_rules` with
`gate_run_limit = 8` and the `depth <= 0` check precedes the basis check,
the effective bound on nested rule applications is 7.  (ii) Exhausting
the depth fails with exactly the cannot-unroll `ValueError`, naming the
lower-cased original instruction and the basis-gates set.  (The claim's
further assertion that every gate that cannot reach the basis fails this
way is refuted by `c4_keyerr_counterexample`: the rules-table lookup can
raise an uncaught `KeyError` first.) -/
theorem c4_depth_bound (tbl : List (String × UnrollRule)) (bg : List String)
    (q : ℕ) (op g : QGate) (k d : ℕ) (acc : QCircuit) (ph : ℝ)
    (h : Reaches tbl bg k g) (hk : k < d) :
    (∃ c ph2, applyGateRules tbl bg q d op g (some acc) ph = .ok (some c, ph2)) ∧
    applyGateRules tbl bg q 0 op g (some acc) ph =
      .error (.cannotUnroll (strToLower op.name) bg) :=
  ⟨applyGateRules_reaches tbl bg q op k g h d hk acc ph, rfl⟩

/-- C4 witness: with the default basis, `T` reaches the basis in one rule
application (`t → rz(π/4)`, accepted by the declared-basis shortcut), so
depth 8 unrolls it, while depth 0 raises the cannot-unroll error. -/
theorem c4_depth_bound_witness :
    (∃ c ph2, applyGateRules baseRulesDict (mkBasisGates none) 1 8 (tGate 0) (tGate 0)
        (some { num := 1 }) 0 = .ok (some c, ph2)) ∧
    applyGateRules baseRulesDict (mkBasisGates none) 1 0 (tGate 0) (tGate 0)
        (some { num := 1 }) 0 =
      .error (.cannotUnroll (strToLower (tGate 0).name) (mkBasisGates none)) :=
  c4_depth_bound baseRulesDict (mkBasisGates none) 1 (tGate 0) (tGate 0) 1 8 { num := 1 } 0
    (Reaches.subset (tGate 0) 0 ("t", tToRZRule) (by decide) rfl (by decide))
    (by decide)

/-- C4: counterexample to the claimed failure mode.  With target basis
`['cx']`, the gate `T` cannot reach the basis; the claim promises the
cannot-unroll `ValueError`, but the pass instead fails with the uncaught
`KeyError 'rz'` of the rules-table lookup (`t → rz`, and `rz` has neither
a basis membership nor a rule). -/
theorem c4_keyerr_counterexample :
    unrollRun (mkRulesDict (mkBasisGates (some ["cx"]))) (mkBasisGates (some ["cx"]))
      { num := 1, gates := [tGate 0] } = .error (.keyErr "rz") := rfl

/-! ## C9: the `unitary` branch silently voids the accumulated circuit -/

/-- C9: a gate named `unitary` that is not in the basis makes
`_apply_gate_rules` return `None` without raising, whatever circuit had
been accumulated (first conjunct — note the result is independent of
`acc`, so everything unrolled before is discarded); a `None` accumulator
is then replaced by a fresh empty circuit on the next call (second
conjunct); and over `run`'s fold at depth 8, the gates after the
`unitary` gate are accumulated exactly as if the pass had restarted on a
fresh empty circuit (third conjunct). -/
theorem c9_unitary_void (tbl : List (String × UnrollRule)) (bg : List String)
    (q : ℕ) (g : QGate)
    (hg : strToLower g.name = "unitary") (hnb : strToLower g.name ∉ bg) :
    (∀ (d : ℕ) (op : QGate) (acc : Option QCircuit) (ph : ℝ), 0 < d →
      applyGateRules tbl bg q d op g acc ph = .ok (none, ph)) ∧
    (∀ (d : ℕ) (op g2 : QGate) (ph : ℝ),
      applyGateRules tbl bg q d op g2 none ph =
        applyGateRules tbl bg q d op g2 (some { num := q }) ph) ∧
    (∀ (y : QGate) (ys : List QGate) (acc : Option QCircuit) (ph : ℝ),
      (g :: y :: ys).foldlM (fun st op => applyGateRules tbl bg q 8 op op st.1 st.2)
          (acc, ph) =
        (y :: ys).foldlM (fun st op => applyGateRules tbl bg q 8 op op st.1 st.2)
          ((some { num := q } : Option QCircuit), ph)) := by
  have h1 : ∀ (d : ℕ) (op : QGate) (acc : Option QCircuit) (ph : ℝ), 0 < d →
      applyGateRules tbl bg q d op g acc ph = .ok (none, ph) := by
    intro d op acc ph hd
    obtain ⟨d', rfl⟩ : ∃ d', d = d' + 1 := ⟨d - 1, by omega⟩
    simp only [applyGateRules]
    rw [if_neg hnb, if_pos hg]
  have h2 : ∀ (d : ℕ) (op g2 : QGate) (ph : ℝ),
      applyGateRules tbl bg q d op g2 none ph =
        applyGateRules tbl bg q d op g2 (some { num := q }) ph := by
    intro d op g2 ph
    cases d with
    | zero => rfl
    | succ d => rfl
  refine ⟨h1, h2, ?_⟩
  intro y ys acc ph
  have hB : (g :: y :: ys).foldlM
      (fun st op => applyGateRules tbl bg q 8 op op st.1 st.2) (acc, ph) =
      (y :: ys).foldlM
      (fun st op => applyGateRules tbl bg q 8 op op st.1 st.2)
      ((none : Option QCircuit), ph) := by
    simp only [List.foldlM_cons]
    rw [h1 8 g acc ph (by norm_num)]
    rfl
  rw [hB]
  simp only [List.foldlM_cons]
  congr 1

/-- C9 witness: on the default basis, a `unitary` gate at depth 1 turns an
accumulator already holding an `H` gate into `None` without error. -/
theorem c9_unitary_void_witness :
    applyGateRules baseRulesDict (mkBasisGates none) 1 1 (g1 "unitary" 0) (g1 "unitary" 0)
      (some { num := 1, gates := [hGate 0] }) 0 = .ok (none, 0) :=
  (c9_unitary_void baseRulesDict (mkBasisGates none) 1 (g1 "unitary" 0)
      (by decide) (by decide)).1 1 (g1 "unitary" 0)
    (some { num := 1, gates := [hGate 0] }) 0 (by decide)

/-! ## C8: `check_openqasm` (`program_verification.py`)

The checker works line-by-line on the OpenQASM string.  The embedding
represents each line by the feature `check_openqasm` extracts from it:
lines containing `measure`/`barrier`, then `OPENQASM`/`include` headers,
then `qreg`/`creg` declarations (from which the *first* integer of the
line is read — the register size), and remaining lines, which either
match the gate regex `(\w+)(\(..\))? q[i](,q[j])?;` with one or two qubit
arguments or do not match it at all (three-qubit statements do not match
and are silently skipped, so the `exceeding 2-qubits` branch is dead
code).  The model assumes `qreg_creg` succeeded, as it does on any
program with the standard headers and consistent measure names. -/

inductive QasmLine where
  | header
  | qreg (name : String) (n : ℕ)
  | creg (name : String) (n : ℕ)
  | measureLine
  | gate1 (q : ℕ)
  | gate2 (a b : ℕ)
  | unmatched
deriving DecidableEq

/-- The exceptions `check_openqasm` can raise: the register-size
`Exception`, the single-qubit-index `Exception`, the uncoupled-pair
`ValueError`, and Python's `IndexError` from `legal_matrix` indexing. -/
inductive QasmErr where
  | regOverflow (req chipN : ℕ)
  | indexOverflow (q chipN : ℕ)
  | notCoupled (a b : ℕ)
  | indexErr
deriving DecidableEq

/-- The non-raising return values of `check_openqasm`: `(True, s, t)`, the
two error strings for exceeded gate-count limits, and the empty-circuit
warning string. -/
inductive CheckReturn where
  | success (single two : ℕ)
  | twoLimit (single two : ℕ)
  | singleLimit (single two : ℕ)
  | emptyWarn
deriving DecidableEq

/-- The first classification loop's register-size check: every
`qreg`/`creg` line whose first integer exceeds `chip_qubit_num` raises,
at the first such line. -/
def regLoop (chipN : ℕ) : List QasmLine → Except QasmErr Unit
  | [] => .ok ()
  | .qreg _ n :: ls => if n > chipN then .error (.regOverflow n chipN) else regLoop chipN ls
  | .creg _ n :: ls => if n > chipN then .error (.regOverflow n chipN) else regLoop chipN ls
  | _ :: ls => regLoop chipN ls

/-- `legal_matrix[a][b]` for in-range indices: whether some coupling pair
equals `(a, b)`. -/
def legalFun (couplings : List (ℕ × ℕ)) : ℕ → ℕ → Bool :=
  fun a b => couplings.any fun p => p.1 = a && p.2 = b

/-- Building `legal_matrix`: the construction loop raises `IndexError`
when a coupling pair is out of the `chip_qubit_num × chip_qubit_num`
range; otherwise the matrix holds `legalFun`. -/
def buildLegal (couplings : List (ℕ × ℕ)) (chipN : ℕ) : Except QasmErr (ℕ → ℕ → Bool) :=
  if couplings.all (fun p => p.1 < chipN && p.2 < chipN) then .ok (legalFun couplings)
  else .error .indexErr

/-- The gate-counting loop over the gate lines: a single-qubit gate is
counted then checked with the *strict* `qubits[0] > chip_qubit_num`; a
two-qubit gate indexes `legal_matrix` (raising `IndexError` out of
range) and raises the uncoupled `ValueError` on a `False` entry; an
unmatched line is skipped. -/
def gateLoop (legal : ℕ → ℕ → Bool) (chipN : ℕ) :
    List QasmLine → ℕ → ℕ → Except QasmErr (ℕ × ℕ)
  | [], s, t => .ok (s, t)
  | .gate1 q :: ls, s, t =>
    if q > chipN then .error (.indexOverflow q chipN) else gateLoop legal chipN ls (s + 1) t
  | .gate2 a b :: ls, s, t =>
    if a < chipN ∧ b < chipN then
      if legal a b then gateLoop legal chipN ls s (t + 1) else .error (.notCoupled a b)
    else .error .indexErr
  | _ :: ls, s, t => gateLoop legal chipN ls s t

/-- The number of regex-matching single-qubit gate lines. -/
def singleCount : List QasmLine → ℕ
  | [] => 0
  | .gate1 _ :: ls => singleCount ls + 1
  | _ :: ls => singleCount ls

/-- The number of regex-matching two-qubit gate lines. -/
def twoCount : List QasmLine → ℕ
  | [] => 0
  | .gate2 _ _ :: ls => twoCount ls + 1
  | _ :: ls => twoCount ls

/-- Embedding of `check_openqasm(qasm, coupling_list, chip_qubit_num)`:
register-size loop, `legal_matrix` build, gate loop, then the count-limit
and empty-circuit returns. -/
def checkOpenqasm (lines : List QasmLine) (couplings : List (ℕ × ℕ)) (chipN : ℕ) :
    Except QasmErr CheckReturn :=
  match regLoop chipN lines with
  | .error e => .error e
  | .ok _ =>
    match buildLegal couplings chipN with
    | .error e => .error e
    | .ok legal =>
      match gateLoop legal chipN lines 0 0 with
      | .error e => .error e
      | .ok (s, t) =>
        if 100000 < t then .ok (.twoLimit s t)
        else if 5000000 < s then .ok (.singleLimit s t)
        else if s = 0 ∧ t = 0 then .ok .emptyWarn
        else .ok (.success s t)

/-- `regOk chipN l`: the line passes the register-size check. -/
def regOk (chipN : ℕ) : QasmLine → Bool
  | .qreg _ n => n ≤ chipN
  | .creg _ n => n ≤ chipN
  | _ => true

/-- `gateOk couplings chipN l`: the line passes the gate loop without
raising (note the strict `>` of the source admits `q = chipN`). -/
def gateOk (couplings : List (ℕ × ℕ)) (chipN : ℕ) : QasmLine → Bool
  | .gate1 q => q ≤ chipN
  | .gate2 a b => decide ((a, b) ∈ couplings) && a < chipN && b < chipN
  | _ => true

/-- `legal_matrix[a][b]` is `True` exactly on the coupling pairs. -/
theorem legalFun_eq_mem (couplings : List (ℕ × ℕ)) (a b : ℕ) :
    legalFun couplings a b = true ↔ (a, b) ∈ couplings := by
  simp only [legalFun, List.any_eq_true, Bool.and_eq_true, decide_eq_true_eq]
  constructor
  · rintro ⟨⟨x, y⟩, hp, h1, h2⟩
    subst h1
    subst h2
    exact hp
  · intro h
    exact ⟨(a, b), h, rfl, rfl⟩

/-- The register loop passes when every line's register size fits. -/
theorem regLoop_ok (chipN : ℕ) :
    ∀ lines : List QasmLine, lines.all (regOk chipN) = true →
      regLoop chipN lines = .ok () := by
  intro lines
  induction lines with
  | nil => intro _; rfl
  | cons l ls ih =>
    intro h
    rw [List.all_cons, Bool.and_eq_true] at h
    cases l with
    | qreg nm n =>
      have hn : n ≤ chipN := by simpa [regOk] using h.1
      have hn2 : ¬ (n > chipN) := by omega
      simp only [regLoop]
      rw [if_neg hn2]
      exact ih h.2
    | creg nm n =>
      have hn : n ≤ chipN := by simpa [regOk] using h.1
      have hn2 : ¬ (n > chipN) := by omega
      simp only [regLoop]
      rw [if_neg hn2]
      exact ih h.2
    | header => exact ih h.2
    | measureLine => exact ih h.2
    | gate1 q => exact ih h.2
    | gate2 a b => exact ih h.2
    | unmatched => exact ih h.2

/-- The register loop raises on a program declaring a too-large quantum
register. -/
theorem regLoop_err (chipN : ℕ) :
    ∀ (lines : List QasmLine) (nm : String) (n : ℕ),
      QasmLine.qreg nm n ∈ lines → chipN < n →
      ∃ e, regLoop chipN lines = .error e := by
  intro lines
  induction lines with
  | nil => intro nm n h _; simp at h
  | cons l ls ih =>
    intro nm n hmem hn
    cases l with
    | qreg nm2 n2 =>
      by_cases h2 : n2 > chipN
      · exact ⟨.regOverflow n2 chipN, by simp only [regLoop]; rw [if_pos h2]⟩
      · rcases List.mem_cons.mp hmem with heq | htail
        · cases heq
          omega
        · obtain ⟨e, he⟩ := ih nm n htail hn
          exact ⟨e, by simp only [regLoop]; rw [if_neg h2]; exact he⟩
    | creg nm2 n2 =>
      by_cases h2 : n2 > chipN
      · exact ⟨.regOverflow n2 chipN, by simp only [regLoop]; rw [if_pos h2]⟩
      · rcases List.mem_cons.mp hmem with heq | htail
        · exact absurd heq (by simp)
        · obtain ⟨e, he⟩ := ih nm n htail hn
          exact ⟨e, by simp only [regLoop]; rw [if_neg h2]; exact he⟩
    | header =>
      rcases List.mem_cons.mp hmem with heq | htail
      · exact absurd heq (by simp)
      · exact ih nm n htail hn
    | measureLine =>
      rcases List.mem_cons.mp hmem with heq | htail
      · exact absurd heq (by simp)
      · exact ih nm n htail hn
    | gate1 q =>
      rcases List.mem_cons.mp hmem with heq | htail
      · exact absurd heq (by simp)
      · exact ih nm n htail hn
    | gate2 a b =>
      rcases List.mem_cons.mp hmem with heq | htail
      · exact absurd heq (by simp)
      · exact ih nm n htail hn
    | unmatched =>
      rcases List.mem_cons.mp hmem with heq | htail
      · exact absurd heq (by simp)
      · exact ih nm n htail hn

/-- The gate loop returns the exact counts when every gate line passes. -/
theorem gateLoop_ok (couplings : List (ℕ × ℕ)) (chipN : ℕ) :
    ∀ lines : List QasmLine, lines.all (gateOk couplings chipN) = true →
      ∀ s t : ℕ, gateLoop (legalFun couplings) chipN lines s t =
        .ok (s + singleCount lines, t + twoCount lines) := by
  intro lines
  induction lines with
  | nil => intro _ s t; simp [gateLoop, singleCount, twoCount]
  | cons l ls ih =>
    intro h s t
    rw [List.all_cons, Bool.and_eq_true] at h
    cases l with
    | gate1 q =>
      have hq : q ≤ chipN := by simpa [gateOk] using h.1
      have hq2 : ¬ (q > chipN) := by omega
      simp only [gateLoop, singleCount, twoCount]
      rw [if_neg hq2, ih h.2 (s + 1) t]
      simp only [Except.ok.injEq, Prod.mk.injEq, and_true]
      omega
    | gate2 a b =>
      have hab : (a, b) ∈ couplings ∧ a < chipN ∧ b < chipN := by
        simpa [gateOk, and_assoc] using h.1
      simp only [gateLoop, singleCount, twoCount]
      rw [if_pos ⟨hab.2.1, hab.2.2⟩, if_pos ((legalFun_eq_mem couplings a b).mpr hab.1),
        ih h.2 s (t + 1)]
      simp only [Except.ok.injEq, Prod.mk.injEq, true_and]
      omega
    | header => simpa [gateLoop, singleCount, twoCount] using ih h.2 s t
    | measureLine => simpa [gateLoop, singleCount, twoCount] using ih h.2 s t
    | qreg nm n => simpa [gateLoop, singleCount, twoCount] using ih h.2 s t
    | creg nm n => simpa [gateLoop, singleCount, twoCount] using ih h.2 s t
    | unmatched => simpa [gateLoop, singleCount, twoCount] using ih h.2 s t

/-- The gate loop raises on a two-qubit gate over an uncoupled pair. -/
theorem gateLoop_err (couplings : List (ℕ × ℕ)) (chipN : ℕ) :
    ∀ (lines : List QasmLine) (a b : ℕ),
      QasmLine.gate2 a b ∈ lines → (a, b) ∉ couplings →
      ∀ s t : ℕ, ∃ e, gateLoop (legalFun couplings) chipN lines s t = .error e := by
  intro lines
  induction lines with
  | nil => intro a b h _ _ _; simp at h
  | cons l ls ih =>
    intro a b hmem hnc s t
    cases l with
    | gate1 q =>
      by_cases hq : q > chipN
      · exact ⟨.indexOverflow q chipN, by simp only [gateLoop]; rw [if_pos hq]⟩
      · rcases List.mem_cons.mp hmem with heq | htail
        · exact absurd heq (by simp)
        · obtain ⟨e, he⟩ := ih a b htail hnc (s + 1) t
          exact ⟨e, by simp only [gateLoop]; rw [if_neg hq]; exact he⟩
    | gate2 a2 b2 =>
      by_cases hin : a2 < chipN ∧ b2 < chipN
      · by_cases hl : legalFun couplings a2 b2 = true
        · have hm2 : (a2, b2) ∈ couplings := (legalFun_eq_mem couplings a2 b2).mp hl
          rcases List.mem_cons.mp hmem with heq | htail
          · cases heq
            exact absurd hm2 hnc
          · obtain ⟨e, he⟩ := ih a b htail hnc s (t + 1)
            exact ⟨e, by simp only [gateLoop]; rw [if_pos hin, if_pos hl]; exact he⟩
        · exact ⟨.notCoupled a2 b2, by
            simp only [gateLoop]
            rw [if_pos hin, if_neg hl]⟩
      · exact ⟨.indexErr, by simp only [gateLoop]; rw [if_neg hin]⟩
    | header =>
      rcases List.mem_cons.mp hmem with heq | htail
      · exact absurd heq (by simp)
      · exact ih a b htail hnc s t
    | measureLine =>
      rcases List.mem_cons.mp hmem with heq | htail
      · exact absurd heq (by simp)
      · exact ih a b htail hnc s t
    | qreg nm n =>
      rcases List.mem_cons.mp hmem with heq | htail
      · exact absurd heq (by simp)
      · exact ih a b htail hnc s t
    | creg nm n =>
      rcases List.mem_cons.mp hmem with heq | htail
      · exact absurd heq (by simp)
      · exact ih a b htail hnc s t
    | unmatched =>
      rcases List.mem_cons.mp hmem with heq | htail
      · exact absurd heq (by simp)
      · exact ih a b htail hnc s t

/-- C8: amended.  (i) `check_openqasm` returns without raising — with the
exact gate counts, or the empty-circuit warning when there is no gate —
only under conditions strictly stronger than the claim's two checks:
every `qreg` AND `creg` size must fit (the loop reads the first integer
of any register line), every single-qubit index must satisfy the strict
`q > chip_qubit_num` check, every coupling pair and two-qubit gate pair
must be in range of `legal_matrix`, and the gate counts must stay within
the two-qubit/single-qubit limits.  (ii) A too-large quantum register
always raises.  (iii) A two-qubit gate over an uncoupled pair always
makes the call raise. -/
theorem c8_check_openqasm (lines : List QasmLine) (couplings : List (ℕ × ℕ)) (chipN : ℕ) :
    (lines.all (regOk chipN) = true →
      couplings.all (fun p => p.1 < chipN && p.2 < chipN) = true →
      lines.all (gateOk couplings chipN) = true →
      singleCount lines ≤ 5000000 → twoCount lines ≤ 100000 →
      checkOpenqasm lines couplings chipN =
        (if singleCount lines = 0 ∧ twoCount lines = 0 then .ok .emptyWarn
         else .ok (.success (singleCount lines) (twoCount lines)))) ∧
    (∀ (nm : String) (n : ℕ), QasmLine.qreg nm n ∈ lines → chipN < n →
      ∃ e, checkOpenqasm lines couplings chipN = .error e) ∧
    (∀ a b : ℕ, QasmLine.gate2 a b ∈ lines → (a, b) ∉ couplings →
      ∃ e, checkOpenqasm lines couplings chipN = .error e) := by
  refine ⟨?_, ?_, ?_⟩
  · intro hreg hcpl hgate hs ht
    unfold checkOpenqasm buildLegal
    rw [regLoop_ok chipN lines hreg, if_pos hcpl]
    dsimp only
    rw [gateLoop_ok couplings chipN lines hgate 0 0]
    dsimp only
    simp only [Nat.zero_add]
    have h1 : ¬ (100000 < twoCount lines) := by omega
    have h2 : ¬ (5000000 < singleCount lines) := by omega
    rw [if_neg h1, if_neg h2]
  · intro nm n hmem hn
    obtain ⟨e, he⟩ := regLoop_err chipN lines nm n hmem hn
    exact ⟨e, by unfold checkOpenqasm; rw [he]⟩
  · intro a b hmem hnc
    cases hr : regLoop chipN lines with
    | error e => exact ⟨e, by unfold checkOpenqasm; rw [hr]⟩
    | ok u =>
      by_cases hcpl : couplings.all (fun p => p.1 < chipN && p.2 < chipN) = true
      · obtain ⟨e, he⟩ := gateLoop_err couplings chipN lines a b hmem hnc 0 0
        refine ⟨e, ?_⟩
        unfold checkOpenqasm buildLegal
        rw [hr, if_pos hcpl]
        dsimp only
        rw [he]
      · exact ⟨.indexErr, by unfold checkOpenqasm buildLegal; rw [hr, if_neg hcpl]⟩

/-- C8 witness: a well-formed two-gate program on a 3-qubit chip with the
coupled pair `(0,1)` returns `(True, 1, 1)`. -/
theorem c8_check_openqasm_witness :
    checkOpenqasm [QasmLine.header, QasmLine.qreg "q" 2, QasmLine.gate1 0,
      QasmLine.gate2 0 1, QasmLine.measureLine] [(0, 1), (1, 0)] 3 =
      .ok (.success 1 1) := by
  have h := (c8_check_openqasm [QasmLine.header, QasmLine.qreg "q" 2, QasmLine.gate1 0,
      QasmLine.gate2 0 1, QasmLine.measureLine] [(0, 1), (1, 0)] 3).1
    (by decide) (by decide) (by decide) (by decide) (by decide)
  rw [h, if_neg (by decide)]
  rfl

/-- C8: counterexample.  A program whose quantum register (size 1) fits
the 3-qubit chip and whose only gate is single-qubit — so it passes both
checks named by the claim — still raises, because the register loop also
applies the size check to the *classical* register line `creg c[5];`.
Shrinking the classical register to 3 makes the same program succeed. -/
theorem c8_creg_counterexample :
    checkOpenqasm [QasmLine.header, QasmLine.qreg "q" 1, QasmLine.creg "c" 5,
        QasmLine.gate1 0] [(0, 1), (1, 0), (1, 2), (2, 1)] 3 =
      .error (.regOverflow 5 3) ∧
    checkOpenqasm [QasmLine.header, QasmLine.qreg "q" 1, QasmLine.creg "c" 3,
        QasmLine.gate1 0] [(0, 1), (1, 0), (1, 2), (2, 1)] 3 =
      .ok (.success 1 0) := by
  constructor <;> rfl

/-! ## C3: `SabreRouting._get_best_swap`, heuristic `mixture`

The embedding carries the numeric data `_get_best_swap` reads as fields
of a state record: the distance matrix, `path_fidelity`, the logarithms
`np.log(coupling_graph.edge_dict[..])` of the edge fidelities (only
these logs enter `_swap_score`, so the embedding holds them directly),
`qubits_decay` and `extended_set_weight`.  Python floats are embedded as
`ℚ` (every arithmetic operation used — `+ * / min max` and comparisons —
is field/order arithmetic, exact on the chosen rational inputs).  Layout
is modelled from the spec: `v2p` is a map and `swap(a,b)` exchanges the
images of virtual `a` and `b` (`baselayout.py` is not among the provided
sources); two-qubit nodes are their `(pos[0], pos[1])` pairs, and the
candidate set is a list in its Python iteration order. -/

structure SabreState where
  distance : ℕ → ℕ → ℚ
  pathFid : ℕ × ℕ → ℚ
  logEdgeFid : ℕ × ℕ → ℚ
  decay : ℕ → ℚ
  extWeight : ℚ

/-- `Layout.swap(a, b)` on the `v2p` map (spec §4.3). -/
def layoutSwap (v2p : ℕ → ℕ) (a b : ℕ) : ℕ → ℕ :=
  fun v => if v = a then v2p b else if v = b then v2p a else v2p v

/-- `_compute_distance_cost(layer, layout)`. -/
def computeDistanceCost (st : SabreState) (layer : List (ℕ × ℕ)) (v2p : ℕ → ℕ) : ℚ :=
  (layer.map (fun n => st.distance (v2p n.1) (v2p n.2))).sum

/-- `_compute_fidelity_cost(layer, layout)`: per node, the average of the
two path-fidelity orientations. -/
def computeFidelityCost (st : SabreState) (layer : List (ℕ × ℕ)) (v2p : ℕ → ℕ) : ℚ :=
  (layer.map (fun n => 1/2 * (st.pathFid (v2p n.1, v2p n.2) + st.pathFid (v2p n.2, v2p n.1)))).sum

/-- `_score_heuristic(heuristic, front_layer, extended_set, layout, swap)`
for the two live heuristics: swap the trial layout, then either the
decay-scaled, length-normalised distance cost, or the decay-averaged
fidelity cost. -/
def scoreHeuristic (st : SabreState) (heuristic : String) (front ext : List (ℕ × ℕ))
    (v2p : ℕ → ℕ) (sw : ℕ × ℕ) : ℚ :=
  let trial := layoutSwap v2p sw.1 sw.2
  if heuristic = "distance" then
    let frontCost := computeDistanceCost st front trial / front.length
    let extCost := if ext = [] then 0 else computeDistanceCost st ext trial / ext.length
    (frontCost + st.extWeight * extCost) * max (st.decay sw.1) (st.decay sw.2)
  else
    let noiseFrontCost := computeFidelityCost st front trial
    let noiseExtCost := if ext = [] then 0 else computeFidelityCost st ext trial
    1/2 * (st.decay sw.1 + st.decay sw.2) * (noiseFrontCost + st.extWeight * noiseExtCost)

/-- `_swap_score(physical_swap_qubits)`: `2·max + min` of the edge's two
log-fidelities. -/
def swapScore (st : SabreState) (p : ℕ × ℕ) : ℚ :=
  let f1 := st.logEdgeFid (p.1, p.2)
  let f2 := st.logEdgeFid (p.2, p.1)
  2 * max f1 f2 + min f1 f2

/-- The tie-breaking loop of the `mixture` branch, state `(max_score,
best_swap)` initialised to `(0, best_swaps[0])`: a candidate whose sorted
physical pair is not blocked gets `score = swap_cost + fidelity score`,
and the update fires when `max_score > score`. -/
def mixtureTieLoop (st : SabreState) (v2p : ℕ → ℕ) (front ext : List (ℕ × ℕ))
    (unavail : List (ℕ × ℕ)) :
    List (ℕ × ℕ) → ℚ → ℕ × ℕ → ℚ × (ℕ × ℕ)
  | [], m, b => (m, b)
  | sw :: rest, m, b =>
    let p := (v2p sw.1, v2p sw.2)
    let sortedP := if p.1 ≤ p.2 then p else (p.2, p.1)
    if sortedP ∉ unavail then
      let score := swapScore st p + scoreHeuristic st "fidelity" front ext v2p sw
      if m > score then mixtureTieLoop st v2p front ext unavail rest score sw
      else mixtureTieLoop st v2p front ext unavail rest m b
    else mixtureTieLoop st v2p front ext unavail rest m b

/-- The `heuristic == 'mixture'` branch of `_get_best_swap`: score every
candidate with the `distance` heuristic, keep the minimal-score ties in
candidate order, and if more than one remains run the tie-breaking loop
(`none` models the `best_swaps[0]` IndexError on an empty candidate
set). -/
def getBestSwapMixture (st : SabreState) (cands : List (ℕ × ℕ)) (v2p : ℕ → ℕ)
    (front ext : List (ℕ × ℕ)) (unavail : List (ℕ × ℕ)) : Option (ℕ × ℕ) :=
  let vals := cands.map (fun sw => scoreHeuristic st "distance" front ext v2p sw)
  let bestScore := vals.foldl min (vals.headD 0)
  let bestSwaps := cands.filter
    (fun sw => scoreHeuristic st "distance" front ext v2p sw = bestScore)
  match bestSwaps with
  | [] => none
  | b0 :: bs =>
    if bs = [] then some b0
    else some (mixtureTieLoop st v2p front ext unavail (b0 :: bs) 0 b0).2

/-- The C3 failing input: a 0–1–2–3 line chip (distance `|i−j|`), identity
layout, one front two-qubit gate on `(0, 3)`, empty extended set, all
decays 1, uniform path fidelity `−1/2`, and edge log-fidelities `−1/10`
on `(0,1)` and `−1` on `(2,3)`. -/
def c3State : SabreState where
  distance i j := ((max i j - min i j : ℕ) : ℚ)
  pathFid _ := -1/2
  logEdgeFid p := if p = (0, 1) ∨ p = (1, 0) then -1/10 else -1
  decay _ := 1
  extWeight := 1/2

/-- C3: on the failing input the two candidate swaps `(0,1)` and `(2,3)`
are tied on the distance score, and the candidate `(0,1)` has the
strictly larger tie-breaking fidelity score (`−4/5` against `−7/2`,
second conjunct) — yet the `mixture` branch returns `(2,3)` (first
conjunct): its tie-breaking loop starts from `max_score = 0` and updates
on `max_score > score`, so among negative fidelity scores it selects the
minimum, not the maximum the claim (and the `fidelity` heuristic of the
same function) prescribes. -/
theorem c3_mixture_picks_minimum :
    getBestSwapMixture c3State [(0, 1), (2, 3)] id [(0, 3)] [] [] = some (2, 3) ∧
    swapScore c3State (id 0, id 1) +
        scoreHeuristic c3State "fidelity" [(0, 3)] [] id (0, 1) >
      swapScore c3State (id 2, id 3) +
        scoreHeuristic c3State "fidelity" [(0, 3)] [] id (2, 3) := by
  have hfd : ¬ ("fidelity" = "distance") := by decide
  constructor
  · norm_num [getBestSwapMixture, mixtureTieLoop, scoreHeuristic, swapScore,
      computeDistanceCost, computeFidelityCost, layoutSwap, c3State, if_neg hfd]
  · norm_num [swapScore, scoreHeuristic, computeFidelityCost, layoutSwap, c3State,
      if_neg hfd]

/-! ## C2: `DAGCircuit` structural edits preserve the DAG invariants

`dagcircuit.py` builds on a networkx `MultiDiGraph`: nodes are the
special markers `-1` and `float('inf')` plus `InstructionNode` objects,
and each edge carries a label `q<i>` naming its qubit wire.  The
embedding lists the nodes and the edges `(src, dst, wire)`; edge colors,
which the invariants never mention, are dropped.  `InstructionNode`
(`instruction_node.py` is not among the provided sources) is modelled
from the spec as name/pos/label.  The `node_qubits_predecessors` dict of
the source maps each wire label to the edge endpoint; under invariant I3
each wire key occurs at most once, so the first match of `find?` is the
dict entry. -/

structure INode where
  name : String
  pos : List ℕ
  label : ℤ
deriving DecidableEq

/-- A `DAGCircuit` node: `-1`, `float('inf')`, or an instruction node. -/
inductive DNode where
  | source
  | sink
  | ins (g : INode)
deriving DecidableEq

structure DAGCircuit where
  nodes : List DNode
  edges : List (DNode × DNode × ℕ)

/-- The number of in-edges of `v` on wire `q`. -/
def countIn (d : DAGCircuit) (v : DNode) (q : ℕ) : ℕ :=
  d.edges.countP (fun e => e.2.1 = v && e.2.2 = q)

/-- The number of out-edges of `v` on wire `q`. -/
def countOut (d : DAGCircuit) (v : DNode) (q : ℕ) : ℕ :=
  d.edges.countP (fun e => e.1 = v && e.2.2 = q)

/-- `node_qubits_predecessors(v)[q]`: the source of the in-edge of `v`
labelled `q`. -/
def predOn (d : DAGCircuit) (v : DNode) (q : ℕ) : Option DNode :=
  (d.edges.find? (fun e => e.2.1 = v && e.2.2 = q)).map (·.1)

/-- `node_qubits_successors(v)[q]`: the target of the out-edge of `v`
labelled `q`. -/
def succOn (d : DAGCircuit) (v : DNode) (q : ℕ) : Option DNode :=
  (d.edges.find? (fun e => e.1 = v && e.2.2 = q)).map (fun e => e.2.1)

/-- `update_qubits_used()`: the wire labels of the out-edges of `-1`. -/
def qubitsUsed (d : DAGCircuit) : List ℕ :=
  (d.edges.filter (fun e => e.1 = DNode.source)).map (fun e => e.2.2)

/-- `qubits_predecessors[q]` of a gate being removed (`-1` can only stand
in for a missing dict entry, which invariant I3 rules out). -/
def stitchPred (d : DAGCircuit) (g : INode) (q : ℕ) : DNode :=
  (predOn d (.ins g) q).getD .source

/-- `qubits_successors[q]` of a gate being removed. -/
def stitchSucc (d : DAGCircuit) (g : INode) (q : ℕ) : DNode :=
  (succOn d (.ins g) q).getD .sink

/-- `remove_instruction_node(gate)`: stitch `predecessor → successor` on
every wire of the gate, then drop the node and its incident edges. -/
def removeInstructionNode (d : DAGCircuit) (g : INode) : DAGCircuit :=
  { nodes := d.nodes.filter (fun v => v ≠ DNode.ins g),
    edges := (d.edges ++ g.pos.map fun q => (stitchPred d g q, stitchSucc d g q, q)).filter
      (fun e => e.1 ≠ DNode.ins g && e.2.1 ≠ DNode.ins g) }

/-- `add_instruction_node(gate, predecessors_dict, successors_dict)`: on
every wire of the gate already in use, remove the predecessor's out-edge
and the successor's in-edge on that wire (a set union of edge keys);
then add the node and its per-wire in/out edges. -/
def addInstructionNode (d : DAGCircuit) (g : INode) (predD succD : ℕ → DNode) : DAGCircuit :=
  let preKeys := g.pos.filterMap fun q =>
    if q ∈ qubitsUsed d then d.edges.find? (fun e => e.1 = predD q && e.2.2 = q) else none
  let sucKeys := g.pos.filterMap fun q =>
    if q ∈ qubitsUsed d then d.edges.find? (fun e => e.2.1 = succD q && e.2.2 = q) else none
  { nodes := if DNode.ins g ∈ d.nodes then d.nodes else d.nodes ++ [DNode.ins g],
    edges := d.edges.filter (fun e => e ∉ preKeys && e ∉ sucKeys) ++
      (g.pos.map fun q => (predD q, DNode.ins g, q)) ++
      (g.pos.map fun q => (DNode.ins g, succD q, q)) }

/-- `add_instruction_node_end(gate)`: with both markers present, insert
before `float('inf')` using the sink's per-wire predecessors (default
`-1` for fresh wires); otherwise first create the markers. -/
def addInstructionNodeEnd (d : DAGCircuit) (g : INode) : DAGCircuit :=
  if DNode.source ∈ d.nodes ∧ DNode.sink ∈ d.nodes then
    addInstructionNode d g (fun q => (predOn d .sink q).getD .source) (fun _ => .sink)
  else
    { nodes := d.nodes ++
        (if DNode.source ∈ d.nodes then [] else [DNode.source]) ++
        (if DNode.sink ∈ d.nodes then [] else [DNode.sink]) ++ [DNode.ins g],
      edges := d.edges ++ (g.pos.map fun q => (DNode.source, DNode.ins g, q)) ++
        (g.pos.map fun q => (DNode.ins g, DNode.sink, q)) }

/-- The DAG invariants of spec §4.4 (I1–I4): the two markers are present
and the node list is duplicate-free; edges join graph nodes; `-1` has no
incoming and `float('inf')` no outgoing edge; the graph is acyclic
(witnessed by a rank function increasing along every edge); every
instruction node in the graph has duplicate-free positions and exactly
one in-edge and one out-edge per wire of its positions, and none on
other wires; `-1` has at most one out-edge and `float('inf')` at most
one in-edge per wire, and they serve the same wire set. -/
structure WF (d : DAGCircuit) : Prop where
  srcMem : DNode.source ∈ d.nodes
  sinkMem : DNode.sink ∈ d.nodes
  nodesNodup : d.nodes.Nodup
  edgeNodes : ∀ e ∈ d.edges, e.1 ∈ d.nodes ∧ e.2.1 ∈ d.nodes
  noInSource : ∀ e ∈ d.edges, e.2.1 ≠ DNode.source
  noOutSink : ∀ e ∈ d.edges, e.1 ≠ DNode.sink
  acyclic : ∃ f : DNode → ℚ, ∀ e ∈ d.edges, f e.1 < f e.2.1
  insPos : ∀ gn : INode, DNode.ins gn ∈ d.nodes → gn.pos.Nodup
  insIn : ∀ gn : INode, DNode.ins gn ∈ d.nodes → ∀ q : ℕ,
    countIn d (.ins gn) q = if q ∈ gn.pos then 1 else 0
  insOut : ∀ gn : INode, DNode.ins gn ∈ d.nodes → ∀ q : ℕ,
    countOut d (.ins gn) q = if q ∈ gn.pos then 1 else 0
  srcOut : ∀ q : ℕ, countOut d DNode.source q ≤ 1
  sinkIn : ∀ q : ℕ, countIn d DNode.sink q ≤ 1
  wireMatch : ∀ q : ℕ, countOut d DNode.source q = countIn d DNode.sink q

/-- Splitting a `countP` along a second predicate. -/
theorem countP_split {α : Type} (l : List α) (p r : α → Bool) :
    l.countP p = l.countP (fun a => p a && r a) + l.countP (fun a => p a && !(r a)) := by
  induction l with
  | nil => simp
  | cons x xs ih =>
    simp only [List.countP_cons, ih]
    cases hp : p x <;> cases hr : r x <;> simp [hp, hr] <;> omega

/-- A predicate counted at most once holds of at most one list member. -/
theorem countP_le_one_unique {α : Type} (l : List α) (p : α → Bool) (h : l.countP p ≤ 1) :
    ∀ a ∈ l, p a = true → ∀ b ∈ l, p b = true → a = b := by
  induction l with
  | nil => intro a ha; simp at ha
  | cons x xs ih =>
    intro a ha hpa b hb hpb
    rw [List.countP_cons] at h
    cases hpx : p x with
    | true =>
      have hxs : xs.countP p = 0 := by
        rw [hpx] at h
        simp only [if_true, reduceIte] at h
        omega
      have hnone : ∀ c ∈ xs, ¬ p c = true := by
        intro c hc
        exact (List.countP_eq_zero.mp hxs) c hc
      rcases List.mem_cons.mp ha with rfl | ha2
      · rcases List.mem_cons.mp hb with rfl | hb2
        · rfl
        · exact absurd hpb (hnone b hb2)
      · exact absurd hpa (hnone a ha2)
    | false =>
      have h2 : xs.countP p ≤ 1 := by
        rw [hpx] at h
        simp only [Bool.false_eq_true, if_false, reduceIte] at h
        omega
      rcases List.mem_cons.mp ha with rfl | ha2
      · rw [hpa] at hpx; cases hpx
      · rcases List.mem_cons.mp hb with rfl | hb2
        · rw [hpb] at hpx; cases hpx
        · exact ih h2 a ha2 hpa b hb2 hpb

/-- With at most one match, `find?` returns any member that matches. -/
theorem find?_unique {α : Type} (l : List α) (p : α → Bool) (h : l.countP p ≤ 1)
    (a : α) (ha : a ∈ l) (hp : p a = true) : l.find? p = some a := by
  cases hf : l.find? p with
  | none =>
    rw [List.find?_eq_none] at hf
    exact absurd hp (hf a ha)
  | some b =>
    have hb := List.find?_some hf
    have hbm := List.mem_of_find?_eq_some hf
    rw [countP_le_one_unique l p h b hbm hb a ha hp]

/-- A positive count yields a `find?` witness. -/
theorem find?_of_countP_pos {α : Type} (l : List α) (p : α → Bool) (h : 0 < l.countP p) :
    ∃ a, l.find? p = some a ∧ a ∈ l ∧ p a = true := by
  have : ∃ a ∈ l, p a = true := by
    by_contra hno
    push_neg at hno
    have : l.countP p = 0 := List.countP_eq_zero.mpr (by intro c hc; simpa using hno c hc)
    omega
  obtain ⟨a, ha, hpa⟩ := this
  cases hf : l.find? p with
  | none =>
    rw [List.find?_eq_none] at hf
    exact absurd hpa (hf a ha)
  | some b => exact ⟨b, rfl, List.mem_of_find?_eq_some hf, List.find?_some hf⟩

/-- Counting over a map whose elements are tagged by duplicate-free
labels: when only label `q` can match, the count is a 0/1 indicator. -/
theorem countP_map_nodup {α : Type} (pos : List ℕ) (hnd : pos.Nodup) (fn : ℕ → α)
    (p : α → Bool) (q : ℕ) (hq : ∀ q', p (fn q') = true → q' = q) :
    (pos.map fn).countP p = if q ∈ pos ∧ p (fn q) = true then 1 else 0 := by
  induction pos with
  | nil => simp
  | cons a l ih =>
    rw [List.nodup_cons] at hnd
    simp only [List.map_cons, List.countP_cons]
    cases hpa : p (fn a) with
    | true =>
      have haq : a = q := hq a hpa
      subst haq
      have hzero : (l.map fn).countP p = 0 := by
        rw [List.countP_eq_zero]
        intro x hx
        obtain ⟨q', hq', rfl⟩ := List.mem_map.mp hx
        intro hpx
        exact hnd.1 (hq q' hpx ▸ hq')
      rw [hzero]
      simp [hpa]
    | false =>
      rw [ih hnd.2]
      by_cases hqa : q = a
      · subst hqa
        simp [hpa]
      · simp [List.mem_cons, hqa, hpa]

/-- On every wire of a member gate, the unique out-edge runs to
`stitchSucc`. -/
theorem stitch_out_edge (d : DAGCircuit) (hWF : WF d) (g : INode)
    (hg : DNode.ins g ∈ d.nodes) (q : ℕ) (hq : q ∈ g.pos) :
    (DNode.ins g, stitchSucc d g q, q) ∈ d.edges ∧
    ∀ e ∈ d.edges, e.1 = DNode.ins g → e.2.2 = q →
      e = (DNode.ins g, stitchSucc d g q, q) := by
  have hcnt : countOut d (DNode.ins g) q = 1 := by
    rw [hWF.insOut g hg q, if_pos hq]
  unfold countOut at hcnt
  obtain ⟨e0, hfind, hmem, hp⟩ :=
    find?_of_countP_pos d.edges (fun e => e.1 = DNode.ins g && e.2.2 = q) (by omega)
  simp only [Bool.and_eq_true, decide_eq_true_eq] at hp
  have hss : stitchSucc d g q = e0.2.1 := by
    unfold stitchSucc succOn
    rw [hfind]
    rfl
  have he0 : e0 = (DNode.ins g, stitchSucc d g q, q) := by
    obtain ⟨a, b, c⟩ := e0
    simp only [hss]
    simp only at hp
    rw [hp.1, hp.2]
  refine ⟨he0 ▸ hmem, ?_⟩
  intro e he h1 h2
  have := countP_le_one_unique d.edges (fun e => e.1 = DNode.ins g && e.2.2 = q)
    (by omega) e he (by simp [h1, h2]) e0 hmem (by simp [hp.1, hp.2])
  rw [this, he0]

/-- On every wire of a member gate, the unique in-edge comes from
`stitchPred`. -/
theorem stitch_in_edge (d : DAGCircuit) (hWF : WF d) (g : INode)
    (hg : DNode.ins g ∈ d.nodes) (q : ℕ) (hq : q ∈ g.pos) :
    (stitchPred d g q, DNode.ins g, q) ∈ d.edges ∧
    ∀ e ∈ d.edges, e.2.1 = DNode.ins g → e.2.2 = q →
      e = (stitchPred d g q, DNode.ins g, q) := by
  have hcnt : countIn d (DNode.ins g) q = 1 := by
    rw [hWF.insIn g hg q, if_pos hq]
  unfold countIn at hcnt
  obtain ⟨e0, hfind, hmem, hp⟩ :=
    find?_of_countP_pos d.edges (fun e => e.2.1 = DNode.ins g && e.2.2 = q) (by omega)
  simp only [Bool.and_eq_true, decide_eq_true_eq] at hp
  have hss : stitchPred d g q = e0.1 := by
    unfold stitchPred predOn
    rw [hfind]
    rfl
  have he0 : e0 = (stitchPred d g q, DNode.ins g, q) := by
    obtain ⟨a, b, c⟩ := e0
    simp only [hss]
    simp only at hp
    rw [hp.1, hp.2]
  refine ⟨he0 ▸ hmem, ?_⟩
  intro e he h1 h2
  have := countP_le_one_unique d.edges (fun e => e.2.1 = DNode.ins g && e.2.2 = q)
    (by omega) e he (by simp [h1, h2]) e0 hmem (by simp [hp.1, hp.2])
  rw [this, he0]

/-- Rank and endpoint facts about the stitch endpoints of a member gate:
they are graph nodes distinct from the gate, the predecessor is not the
sink, the successor is not the source, and any acyclicity rank places
them strictly around the gate. -/
theorem stitch_ends (d : DAGCircuit) (hWF : WF d) (g : INode)
    (hg : DNode.ins g ∈ d.nodes) (q : ℕ) (hq : q ∈ g.pos) :
    stitchPred d g q ∈ d.nodes ∧ stitchSucc d g q ∈ d.nodes ∧
    stitchPred d g q ≠ DNode.ins g ∧ stitchSucc d g q ≠ DNode.ins g ∧
    stitchPred d g q ≠ DNode.sink ∧ stitchSucc d g q ≠ DNode.source ∧
    ∀ f : DNode → ℚ, (∀ e ∈ d.edges, f e.1 < f e.2.1) →
      f (stitchPred d g q) < f (DNode.ins g) ∧ f (DNode.ins g) < f (stitchSucc d g q) := by
  obtain ⟨hin, _⟩ := stitch_in_edge d hWF g hg q hq
  obtain ⟨hout, _⟩ := stitch_out_edge d hWF g hg q hq
  have hp1 := (hWF.edgeNodes _ hin).1
  have hs1 := (hWF.edgeNodes _ hout).2
  have hrank : ∀ f : DNode → ℚ, (∀ e ∈ d.edges, f e.1 < f e.2.1) →
      f (stitchPred d g q) < f (DNode.ins g) ∧ f (DNode.ins g) < f (stitchSucc d g q) :=
    fun f hf => ⟨hf _ hin, hf _ hout⟩
  obtain ⟨f0, hf0⟩ := hWF.acyclic
  refine ⟨hp1, hs1, ?_, ?_, ?_, ?_, hrank⟩
  · intro hcontra
    have := (hrank f0 hf0).1
    rw [hcontra] at this
    exact lt_irrefl _ this
  · intro hcontra
    have := (hrank f0 hf0).2
    rw [hcontra] at this
    exact lt_irrefl _ this
  · exact hWF.noOutSink _ hin
  · exact hWF.noInSource _ hout

/-- Removing a gate leaves every other node's per-wire in-degree
unchanged: the in-edge lost to the gate's removal is exactly compensated
by the stitched edge. -/
theorem remove_countIn (d : DAGCircuit) (hWF : WF d) (g : INode)
    (hg : DNode.ins g ∈ d.nodes) (v : DNode) (hv : v ≠ DNode.ins g) (q : ℕ) :
    countIn (removeInstructionNode d g) v q = countIn d v q := by
  have hpos := hWF.insPos g hg
  unfold countIn removeInstructionNode
  rw [List.countP_filter, List.countP_append]
  have hst : (g.pos.map fun q' => (stitchPred d g q', stitchSucc d g q', q')).countP
      (fun e => (e.2.1 = v && e.2.2 = q) &&
        (decide (e.1 ≠ DNode.ins g) && decide (e.2.1 ≠ DNode.ins g))) =
      if q ∈ g.pos ∧ stitchSucc d g q = v then 1 else 0 := by
    rw [countP_map_nodup g.pos hpos _ _ q]
    · by_cases hq : q ∈ g.pos
      · obtain ⟨_, _, hpg, hsg, _, _, _⟩ := stitch_ends d hWF g hg q hq
        by_cases hsv : stitchSucc d g q = v
        · simp [hq, hsv]
          exact ⟨hpg, hv⟩
        · simp [hq, hsv]
      · simp [hq]
    · intro q' hq'
      simp only [Bool.and_eq_true, decide_eq_true_eq] at hq'
      exact hq'.1.2
  rw [hst]
  have hcongr : d.edges.countP
      (fun e => (e.2.1 = v && e.2.2 = q) &&
        (decide (e.1 ≠ DNode.ins g) && decide (e.2.1 ≠ DNode.ins g))) =
      d.edges.countP
      (fun e => (e.2.1 = v && e.2.2 = q) && !(decide (e.1 = DNode.ins g))) := by
    apply List.countP_congr
    intro e _
    by_cases h1 : e.2.1 = v
    · by_cases h2 : e.2.2 = q
      · simp [h1, h2, hv]
      · simp [h2]
    · simp [h1]
  rw [hcongr]
  have hsplit := countP_split d.edges
    (fun e => e.2.1 = v && e.2.2 = q) (fun e => e.1 = DNode.ins g)
  have hgv : d.edges.countP
      (fun e => (e.2.1 = v && e.2.2 = q) && (e.1 = DNode.ins g)) =
      if q ∈ g.pos ∧ stitchSucc d g q = v then 1 else 0 := by
    by_cases hq : q ∈ g.pos
    · obtain ⟨hout, huniq⟩ := stitch_out_edge d hWF g hg q hq
      by_cases hsv : stitchSucc d g q = v
      · rw [if_pos ⟨hq, hsv⟩]
        have hle : d.edges.countP
            (fun e => (e.2.1 = v && e.2.2 = q) && (e.1 = DNode.ins g)) ≤
            d.edges.countP (fun e => e.1 = DNode.ins g && e.2.2 = q) := by
          apply List.countP_mono_left
          intro e _ he
          simp only [Bool.and_eq_true, decide_eq_true_eq] at he ⊢
          exact ⟨he.2, he.1.2⟩
        have hone : d.edges.countP (fun e => e.1 = DNode.ins g && e.2.2 = q) = 1 := by
          have := hWF.insOut g hg q
          unfold countOut at this
          rw [this, if_pos hq]
        have hpos2 : 0 < d.edges.countP
            (fun e => (e.2.1 = v && e.2.2 = q) && (e.1 = DNode.ins g)) := by
          rw [List.countP_pos_iff]
          exact ⟨(DNode.ins g, stitchSucc d g q, q), hout, by simp [hsv]⟩
        omega
      · rw [if_neg (by tauto)]
        rw [List.countP_eq_zero]
        intro e he hpe
        simp only [Bool.and_eq_true, decide_eq_true_eq] at hpe
        have := huniq e he hpe.2 hpe.1.2
        rw [this] at hpe
        exact hsv (by simpa using hpe.1.1)
    · rw [if_neg (by tauto)]
      rw [List.countP_eq_zero]
      intro e he hpe
      simp only [Bool.and_eq_true, decide_eq_true_eq] at hpe
      have hzero : countOut d (DNode.ins g) q = 0 := by
        rw [hWF.insOut g hg q, if_neg hq]
      unfold countOut at hzero
      rw [List.countP_eq_zero] at hzero
      exact hzero e he (by simp [hpe.2, hpe.1.2])
  omega

/-- Removing a gate leaves every other node's per-wire out-degree
unchanged. -/
theorem remove_countOut (d : DAGCircuit) (hWF : WF d) (g : INode)
    (hg : DNode.ins g ∈ d.nodes) (v : DNode) (hv : v ≠ DNode.ins g) (q : ℕ) :
    countOut (removeInstructionNode d g) v q = countOut d v q := by
  have hpos := hWF.insPos g hg
  unfold countOut removeInstructionNode
  rw [List.countP_filter, List.countP_append]
  have hst : (g.pos.map fun q' => (stitchPred d g q', stitchSucc d g q', q')).countP
      (fun e => (e.1 = v && e.2.2 = q) &&
        (decide (e.1 ≠ DNode.ins g) && decide (e.2.1 ≠ DNode.ins g))) =
      if q ∈ g.pos ∧ stitchPred d g q = v then 1 else 0 := by
    rw [countP_map_nodup g.pos hpos _ _ q]
    · by_cases hq : q ∈ g.pos
      · obtain ⟨_, _, hpg, hsg, _, _, _⟩ := stitch_ends d hWF g hg q hq
        by_cases hpv : stitchPred d g q = v
        · simp [hq, hpv]
          exact ⟨hv, hsg⟩
        · simp [hq, hpv]
      · simp [hq]
    · intro q' hq'
      simp only [Bool.and_eq_true, decide_eq_true_eq] at hq'
      exact hq'.1.2
  rw [hst]
  have hcongr : d.edges.countP
      (fun e => (e.1 = v && e.2.2 = q) &&
        (decide (e.1 ≠ DNode.ins g) && decide (e.2.1 ≠ DNode.ins g))) =
      d.edges.countP
      (fun e => (e.1 = v && e.2.2 = q) && !(decide (e.2.1 = DNode.ins g))) := by
    apply List.countP_congr
    intro e _
    by_cases h1 : e.1 = v
    · by_cases h2 : e.2.2 = q
      · simp [h1, h2, hv]
      · simp [h2]
    · simp [h1]
  rw [hcongr]
  have hsplit := countP_split d.edges
    (fun e => e.1 = v && e.2.2 = q) (fun e => e.2.1 = DNode.ins g)
  have hgv : d.edges.countP
      (fun e => (e.1 = v && e.2.2 = q) && (e.2.1 = DNode.ins g)) =
      if q ∈ g.pos ∧ stitchPred d g q = v then 1 else 0 := by
    by_cases hq : q ∈ g.pos
    · obtain ⟨hin, huniq⟩ := stitch_in_edge d hWF g hg q hq
      by_cases hpv : stitchPred d g q = v
      · rw [if_pos ⟨hq, hpv⟩]
        have hle : d.edges.countP
            (fun e => (e.1 = v && e.2.2 = q) && (e.2.1 = DNode.ins g)) ≤
            d.edges.countP (fun e => e.2.1 = DNode.ins g && e.2.2 = q) := by
          apply List.countP_mono_left
          intro e _ he
          simp only [Bool.and_eq_true, decide_eq_true_eq] at he ⊢
          exact ⟨he.2, he.1.2⟩
        have hone : d.edges.countP (fun e => e.2.1 = DNode.ins g && e.2.2 = q) = 1 := by
          have := hWF.insIn g hg q
          unfold countIn at this
          rw [this, if_pos hq]
        have hpos2 : 0 < d.edges.countP
            (fun e => (e.1 = v && e.2.2 = q) && (e.2.1 = DNode.ins g)) := by
          rw [List.countP_pos_iff]
          exact ⟨(stitchPred d g q, DNode.ins g, q), hin, by simp [hpv]⟩
        omega
      · rw [if_neg (by tauto)]
        rw [List.countP_eq_zero]
        intro e he hpe
        simp only [Bool.and_eq_true, decide_eq_true_eq] at hpe
        have := huniq e he hpe.2 hpe.1.2
        rw [this] at hpe
        exact hpv (by simpa using hpe.1.1)
    · rw [if_neg (by tauto)]
      rw [List.countP_eq_zero]
      intro e he hpe
      simp only [Bool.and_eq_true, decide_eq_true_eq] at hpe
      have hzero : countIn d (DNode.ins g) q = 0 := by
        rw [hWF.insIn g hg q, if_neg hq]
      unfold countIn at hzero
      rw [List.countP_eq_zero] at hzero
      exact hzero e he (by simp [hpe.2, hpe.1.2])
  omega

/-- `remove_instruction_node` preserves all DAG invariants. -/
theorem remove_WF (d : DAGCircuit) (hWF : WF d) (g : INode)
    (hg : DNode.ins g ∈ d.nodes) : WF (removeInstructionNode d g) := by
  obtain ⟨f0, hf0⟩ := hWF.acyclic
  have hmemE : ∀ e ∈ (removeInstructionNode d g).edges,
      (e ∈ d.edges ∧ e.1 ≠ DNode.ins g ∧ e.2.1 ≠ DNode.ins g) ∨
      ∃ q ∈ g.pos, e = (stitchPred d g q, stitchSucc d g q, q) := by
    intro e he
    obtain ⟨hmem, hkeep⟩ := List.mem_filter.mp he
    simp only [Bool.and_eq_true, decide_eq_true_eq] at hkeep
    rcases List.mem_append.mp hmem with hold | hst
    · exact Or.inl ⟨hold, hkeep⟩
    · obtain ⟨q, hq, rfl⟩ := List.mem_map.mp hst
      exact Or.inr ⟨q, hq, rfl⟩
  refine ⟨?_, ?_, ?_, ?_, ?_, ?_, ?_, ?_, ?_, ?_, ?_, ?_, ?_⟩
  · exact List.mem_filter.mpr ⟨hWF.srcMem, by simp⟩
  · exact List.mem_filter.mpr ⟨hWF.sinkMem, by simp⟩
  · exact hWF.nodesNodup.filter _
  · intro e he
    rcases hmemE e he with ⟨hold, h1, h2⟩ | ⟨q, hq, rfl⟩
    · obtain ⟨hn1, hn2⟩ := hWF.edgeNodes e hold
      exact ⟨List.mem_filter.mpr ⟨hn1, by simpa using h1⟩,
        List.mem_filter.mpr ⟨hn2, by simpa using h2⟩⟩
    · obtain ⟨hm1, hm2, hn1, hn2, _, _, _⟩ := stitch_ends d hWF g hg q hq
      exact ⟨List.mem_filter.mpr ⟨hm1, by simpa using hn1⟩,
        List.mem_filter.mpr ⟨hm2, by simpa using hn2⟩⟩
  · intro e he
    rcases hmemE e he with ⟨hold, _, _⟩ | ⟨q, hq, rfl⟩
    · exact hWF.noInSource e hold
    · obtain ⟨_, _, _, _, _, hns, _⟩ := stitch_ends d hWF g hg q hq
      exact hns
  · intro e he
    rcases hmemE e he with ⟨hold, _, _⟩ | ⟨q, hq, rfl⟩
    · exact hWF.noOutSink e hold
    · obtain ⟨_, _, _, _, hns, _, _⟩ := stitch_ends d hWF g hg q hq
      exact hns
  · refine ⟨f0, ?_⟩
    intro e he
    rcases hmemE e he with ⟨hold, _, _⟩ | ⟨q, hq, rfl⟩
    · exact hf0 e hold
    · obtain ⟨_, _, _, _, _, _, hrank⟩ := stitch_ends d hWF g hg q hq
      obtain ⟨h1, h2⟩ := hrank f0 hf0
      exact lt_trans h1 h2
  · intro gn hgn
    exact hWF.insPos gn (List.mem_filter.mp hgn).1
  · intro gn hgn q
    obtain ⟨hmem, hne⟩ := List.mem_filter.mp hgn
    rw [remove_countIn d hWF g hg (DNode.ins gn) (by simpa using hne) q]
    exact hWF.insIn gn hmem q
  · intro gn hgn q
    obtain ⟨hmem, hne⟩ := List.mem_filter.mp hgn
    rw [remove_countOut d hWF g hg (DNode.ins gn) (by simpa using hne) q]
    exact hWF.insOut gn hmem q
  · intro q
    rw [remove_countOut d hWF g hg DNode.source (by simp) q]
    exact hWF.srcOut q
  · intro q
    rw [remove_countIn d hWF g hg DNode.sink (by simp) q]
    exact hWF.sinkIn q
  · intro q
    rw [remove_countOut d hWF g hg DNode.source (by simp) q,
      remove_countIn d hWF g hg DNode.sink (by simp) q]
    exact hWF.wireMatch q

/-- The stitched `predecessor → successor` edge is present after removal,
on every wire of the removed gate. -/
theorem remove_stitch_mem (d : DAGCircuit) (hWF : WF d) (g : INode)
    (hg : DNode.ins g ∈ d.nodes) :
    ∀ q ∈ g.pos,
      (stitchPred d g q, stitchSucc d g q, q) ∈ (removeInstructionNode d g).edges := by
  intro q hq
  obtain ⟨_, _, hn1, hn2, _, _, _⟩ := stitch_ends d hWF g hg q hq
  apply List.mem_filter.mpr
  refine ⟨List.mem_append_right _ (List.mem_map.mpr ⟨q, hq, rfl⟩), ?_⟩
  simp [hn1, hn2]

/-- A node outside the graph has no out-edges. -/
theorem countOut_zero_of_not_mem (d : DAGCircuit)
    (hedge : ∀ e ∈ d.edges, e.1 ∈ d.nodes ∧ e.2.1 ∈ d.nodes)
    (v : DNode) (hv : v ∉ d.nodes) (q : ℕ) : countOut d v q = 0 := by
  unfold countOut
  rw [List.countP_eq_zero]
  intro e he hp
  simp only [Bool.and_eq_true, decide_eq_true_eq] at hp
  exact hv (hp.1 ▸ (hedge e he).1)

/-- A node outside the graph has no in-edges. -/
theorem countIn_zero_of_not_mem (d : DAGCircuit)
    (hedge : ∀ e ∈ d.edges, e.1 ∈ d.nodes ∧ e.2.1 ∈ d.nodes)
    (v : DNode) (hv : v ∉ d.nodes) (q : ℕ) : countIn d v q = 0 := by
  unfold countIn
  rw [List.countP_eq_zero]
  intro e he hp
  simp only [Bool.and_eq_true, decide_eq_true_eq] at hp
  exact hv (hp.1 ▸ (hedge e he).2)

/-- In a well-formed DAG every node has at most one out-edge per wire. -/
theorem wf_countOut_le_one (d : DAGCircuit) (hWF : WF d) (v : DNode) (q : ℕ) :
    countOut d v q ≤ 1 := by
  cases v with
  | source => exact hWF.srcOut q
  | sink =>
    have : countOut d DNode.sink q = 0 := by
      unfold countOut
      rw [List.countP_eq_zero]
      intro e he hp
      simp only [Bool.and_eq_true, decide_eq_true_eq] at hp
      exact hWF.noOutSink e he hp.1
    omega
  | ins gn =>
    by_cases hm : DNode.ins gn ∈ d.nodes
    · rw [hWF.insOut gn hm q]
      split <;> omega
    · rw [countOut_zero_of_not_mem d hWF.edgeNodes _ hm q]
      omega

/-- In a well-formed DAG every node has at most one in-edge per wire. -/
theorem wf_countIn_le_one (d : DAGCircuit) (hWF : WF d) (v : DNode) (q : ℕ) :
    countIn d v q ≤ 1 := by
  cases v with
  | sink => exact hWF.sinkIn q
  | source =>
    have : countIn d DNode.source q = 0 := by
      unfold countIn
      rw [List.countP_eq_zero]
      intro e he hp
      simp only [Bool.and_eq_true, decide_eq_true_eq] at hp
      exact hWF.noInSource e he hp.1
    omega
  | ins gn =>
    by_cases hm : DNode.ins gn ∈ d.nodes
    · rw [hWF.insIn gn hm q]
      split <;> omega
    · rw [countIn_zero_of_not_mem d hWF.edgeNodes _ hm q]
      omega

/-- Wire membership in `qubits_used` is positivity of the source
out-count. -/
theorem mem_qubitsUsed (d : DAGCircuit) (q : ℕ) :
    q ∈ qubitsUsed d ↔ 0 < countOut d DNode.source q := by
  unfold qubitsUsed countOut
  rw [List.countP_pos_iff]
  constructor
  · intro h
    obtain ⟨e, he, rfl⟩ := List.mem_map.mp h
    obtain ⟨hmem, hsrc⟩ := List.mem_filter.mp he
    exact ⟨e, hmem, by simp [decide_eq_true_eq] at hsrc ⊢; exact hsrc⟩
  · rintro ⟨e, he, hp⟩
    simp only [Bool.and_eq_true, decide_eq_true_eq] at hp
    exact List.mem_map.mpr ⟨e, List.mem_filter.mpr ⟨he, by simp [hp.1]⟩, hp.2⟩

/-- The per-wire cut edges removed by `add_instruction_node`. -/
def cutList (d : DAGCircuit) (g : INode) (predD succD : ℕ → DNode) :
    List (DNode × DNode × ℕ) :=
  g.pos.filterMap fun q =>
    if q ∈ qubitsUsed d then some (predD q, succD q, q) else none

/-- Membership in the cut list. -/
theorem mem_cutList (d : DAGCircuit) (g : INode) (predD succD : ℕ → DNode)
    (e : DNode × DNode × ℕ) :
    e ∈ cutList d g predD succD ↔
      ∃ q ∈ g.pos, q ∈ qubitsUsed d ∧ e = (predD q, succD q, q) := by
  unfold cutList
  rw [List.mem_filterMap]
  constructor
  · rintro ⟨q, hq, hfq⟩
    by_cases hu : q ∈ qubitsUsed d
    · rw [if_pos hu] at hfq
      exact ⟨q, hq, hu, (Option.some.injEq .. ▸ hfq).symm⟩
    · rw [if_neg hu] at hfq
      cases hfq
  · rintro ⟨q, hq, hu, rfl⟩
    exact ⟨q, hq, by rw [if_pos hu]⟩

/-- When every used wire's dict entries name a directly connected pair,
both key lookups of `add_instruction_node` resolve to the cut edges. -/
theorem add_keys_eq (d : DAGCircuit) (hWF : WF d) (g : INode) (predD succD : ℕ → DNode)
    (hcut : ∀ q ∈ g.pos, q ∈ qubitsUsed d → (predD q, succD q, q) ∈ d.edges) :
    (g.pos.filterMap fun q =>
      if q ∈ qubitsUsed d then
        d.edges.find? (fun e => e.1 = predD q && e.2.2 = q) else none) =
      cutList d g predD succD ∧
    (g.pos.filterMap fun q =>
      if q ∈ qubitsUsed d then
        d.edges.find? (fun e => e.2.1 = succD q && e.2.2 = q) else none) =
      cutList d g predD succD := by
  unfold cutList
  constructor
  · apply List.filterMap_congr
    intro q hq
    by_cases hu : q ∈ qubitsUsed d
    · rw [if_pos hu, if_pos hu]
      apply find?_unique
      · have := wf_countOut_le_one d hWF (predD q) q
        unfold countOut at this
        exact this
      · exact hcut q hq hu
      · simp
    · rw [if_neg hu, if_neg hu]
  · apply List.filterMap_congr
    intro q hq
    by_cases hu : q ∈ qubitsUsed d
    · rw [if_pos hu, if_pos hu]
      apply find?_unique
      · have := wf_countIn_le_one d hWF (succD q) q
        unfold countIn at this
        exact this
      · exact hcut q hq hu
      · simp
    · rw [if_neg hu, if_neg hu]

/-- With resolved keys, the edge list produced by `add_instruction_node`
is: the old edges minus the cut edges, plus the gate's in- and
out-edges. -/
theorem add_edges_eq (d : DAGCircuit) (hWF : WF d) (g : INode) (predD succD : ℕ → DNode)
    (hcut : ∀ q ∈ g.pos, q ∈ qubitsUsed d → (predD q, succD q, q) ∈ d.edges) :
    (addInstructionNode d g predD succD).edges =
      d.edges.filter (fun e =>
        e ∉ cutList d g predD succD && e ∉ cutList d g predD succD) ++
      (g.pos.map fun q => (predD q, DNode.ins g, q)) ++
      (g.pos.map fun q => (DNode.ins g, succD q, q)) := by
  obtain ⟨h1, h2⟩ := add_keys_eq d hWF g predD succD hcut
  unfold addInstructionNode
  simp only [qubitsUsed] at h1 h2 ⊢
  simp only [h1, h2]

/-- Adding a gate changes the per-wire out-degree of other nodes only on
fresh wires, where the source gains the new wire's head edge. -/
theorem add_countOut (d : DAGCircuit) (hWF : WF d) (g : INode) (predD succD : ℕ → DNode)
    (hnew : DNode.ins g ∉ d.nodes) (hnd : g.pos.Nodup)
    (hcut : ∀ q ∈ g.pos, q ∈ qubitsUsed d → (predD q, succD q, q) ∈ d.edges)
    (v : DNode) (hv : v ≠ DNode.ins g) (q : ℕ) :
    countOut (addInstructionNode d g predD succD) v q =
      countOut d v q +
        (if q ∈ g.pos ∧ q ∉ qubitsUsed d ∧ predD q = v then 1 else 0) := by
  unfold countOut
  rw [add_edges_eq d hWF g predD succD hcut]
  rw [List.countP_append, List.countP_append, List.countP_filter]
  have hNewOut : (g.pos.map fun q' => (DNode.ins g, succD q', q')).countP
      (fun e => e.1 = v && e.2.2 = q) = 0 := by
    rw [List.countP_eq_zero]
    intro e he hp
    obtain ⟨q', _, rfl⟩ := List.mem_map.mp he
    simp only [Bool.and_eq_true, decide_eq_true_eq] at hp
    exact hv hp.1.symm
  have hNewIn : (g.pos.map fun q' => (predD q', DNode.ins g, q')).countP
      (fun e => e.1 = v && e.2.2 = q) =
      if q ∈ g.pos ∧ predD q = v then 1 else 0 := by
    rw [countP_map_nodup g.pos hnd _ _ q]
    · by_cases hq : q ∈ g.pos
      · by_cases hp : predD q = v
        · simp [hq, hp]
        · simp [hq, hp]
      · simp [hq]
    · intro q' hq'
      simp only [Bool.and_eq_true, decide_eq_true_eq] at hq'
      exact hq'.2
  have hcongr : d.edges.countP (fun e =>
      (e.1 = v && e.2.2 = q) &&
        (e ∉ cutList d g predD succD && e ∉ cutList d g predD succD)) =
      d.edges.countP (fun e =>
      (e.1 = v && e.2.2 = q) && !(decide (e ∈ cutList d g predD succD))) := by
    apply List.countP_congr
    intro e _
    by_cases hc : e ∈ cutList d g predD succD <;> simp [hc]
  have hsplit := countP_split d.edges
    (fun e => e.1 = v && e.2.2 = q) (fun e => decide (e ∈ cutList d g predD succD))
  have hCut : d.edges.countP (fun e =>
      (e.1 = v && e.2.2 = q) && decide (e ∈ cutList d g predD succD)) =
      if q ∈ g.pos ∧ q ∈ qubitsUsed d ∧ predD q = v then 1 else 0 := by
    by_cases hA : q ∈ g.pos ∧ q ∈ qubitsUsed d ∧ predD q = v
    · rw [if_pos hA]
      obtain ⟨hq, hu, hp⟩ := hA
      have hge : 0 < d.edges.countP (fun e =>
          (e.1 = v && e.2.2 = q) && decide (e ∈ cutList d g predD succD)) := by
        rw [List.countP_pos_iff]
        refine ⟨(predD q, succD q, q), hcut q hq hu, ?_⟩
        simp only [Bool.and_eq_true, decide_eq_true_eq]
        exact ⟨⟨by simp [hp], by simp⟩, (mem_cutList ..).mpr ⟨q, hq, hu, rfl⟩⟩
      have hle : d.edges.countP (fun e =>
          (e.1 = v && e.2.2 = q) && decide (e ∈ cutList d g predD succD)) ≤
          d.edges.countP (fun e => e.1 = v && e.2.2 = q) := by
        apply List.countP_mono_left
        intro e _ he
        simp only [Bool.and_eq_true] at he ⊢
        exact he.1
      have hone := wf_countOut_le_one d hWF v q
      unfold countOut at hone
      omega
    · rw [if_neg hA]
      rw [List.countP_eq_zero]
      intro e he hp
      simp only [Bool.and_eq_true, decide_eq_true_eq] at hp
      obtain ⟨⟨hp1, hp2⟩, hpc⟩ := hp
      obtain ⟨q', hq', hu', rfl⟩ := (mem_cutList ..).mp hpc
      simp only at hp1 hp2
      subst hp2
      exact hA ⟨hq', hu', hp1⟩
  rw [hcongr, hNewOut, hNewIn]
  rw [hCut] at hsplit
  by_cases hq : q ∈ g.pos <;> by_cases hu : q ∈ qubitsUsed d <;>
    by_cases hp : predD q = v <;> simp only [hq, hu, hp] at hsplit ⊢ <;>
    simp_all <;> omega

/-- Adding a gate changes the per-wire in-degree of other nodes only on
fresh wires, where the sink gains the new wire's tail edge. -/
theorem add_countIn (d : DAGCircuit) (hWF : WF d) (g : INode) (predD succD : ℕ → DNode)
    (hnew : DNode.ins g ∉ d.nodes) (hnd : g.pos.Nodup)
    (hcut : ∀ q ∈ g.pos, q ∈ qubitsUsed d → (predD q, succD q, q) ∈ d.edges)
    (v : DNode) (hv : v ≠ DNode.ins g) (q : ℕ) :
    countIn (addInstructionNode d g predD succD) v q =
      countIn d v q +
        (if q ∈ g.pos ∧ q ∉ qubitsUsed d ∧ succD q = v then 1 else 0) := by
  unfold countIn
  rw [add_edges_eq d hWF g predD succD hcut]
  rw [List.countP_append, List.countP_append, List.countP_filter]
  have hNewIn : (g.pos.map fun q' => (predD q', DNode.ins g, q')).countP
      (fun e => e.2.1 = v && e.2.2 = q) = 0 := by
    rw [List.countP_eq_zero]
    intro e he hp
    obtain ⟨q', _, rfl⟩ := List.mem_map.mp he
    simp only [Bool.and_eq_true, decide_eq_true_eq] at hp
    exact hv hp.1.symm
  have hNewOut : (g.pos.map fun q' => (DNode.ins g, succD q', q')).countP
      (fun e => e.2.1 = v && e.2.2 = q) =
      if q ∈ g.pos ∧ succD q = v then 1 else 0 := by
    rw [countP_map_nodup g.pos hnd _ _ q]
    · by_cases hq : q ∈ g.pos
      · by_cases hp : succD q = v
        · simp [hq, hp]
        · simp [hq, hp]
      · simp [hq]
    · intro q' hq'
      simp only [Bool.and_eq_true, decide_eq_true_eq] at hq'
      exact hq'.2
  have hcongr : d.edges.countP (fun e =>
      (e.2.1 = v && e.2.2 = q) &&
        (e ∉ cutList d g predD succD && e ∉ cutList d g predD succD)) =
      d.edges.countP (fun e =>
      (e.2.1 = v && e.2.2 = q) && !(decide (e ∈ cutList d g predD succD))) := by
    apply List.countP_congr
    intro e _
    by_cases hc : e ∈ cutList d g predD succD <;> simp [hc]
  have hsplit := countP_split d.edges
    (fun e => e.2.1 = v && e.2.2 = q) (fun e => decide (e ∈ cutList d g predD succD))
  have hCut : d.edges.countP (fun e =>
      (e.2.1 = v && e.2.2 = q) && decide (e ∈ cutList d g predD succD)) =
      if q ∈ g.pos ∧ q ∈ qubitsUsed d ∧ succD q = v then 1 else 0 := by
    by_cases hA : q ∈ g.pos ∧ q ∈ qubitsUsed d ∧ succD q = v
    · rw [if_pos hA]
      obtain ⟨hq, hu, hp⟩ := hA
      have hge : 0 < d.edges.countP (fun e =>
          (e.2.1 = v && e.2.2 = q) && decide (e ∈ cutList d g predD succD)) := by
        rw [List.countP_pos_iff]
        refine ⟨(predD q, succD q, q), hcut q hq hu, ?_⟩
        simp only [Bool.and_eq_true, decide_eq_true_eq]
        exact ⟨⟨by simp [hp], by simp⟩, (mem_cutList ..).mpr ⟨q, hq, hu, rfl⟩⟩
      have hle : d.edges.countP (fun e =>
          (e.2.1 = v && e.2.2 = q) && decide (e ∈ cutList d g predD succD)) ≤
          d.edges.countP (fun e => e.2.1 = v && e.2.2 = q) := by
        apply List.countP_mono_left
        intro e _ he
        simp only [Bool.and_eq_true] at he ⊢
        exact he.1
      have hone := wf_countIn_le_one d hWF v q
      unfold countIn at hone
      omega
    · rw [if_neg hA]
      rw [List.countP_eq_zero]
      intro e he hp
      simp only [Bool.and_eq_true, decide_eq_true_eq] at hp
      obtain ⟨⟨hp1, hp2⟩, hpc⟩ := hp
      obtain ⟨q', hq', hu', rfl⟩ := (mem_cutList ..).mp hpc
      simp only at hp1 hp2
      subst hp2
      exact hA ⟨hq', hu', hp1⟩
  rw [hcongr, hNewIn, hNewOut]
  rw [hCut] at hsplit
  by_cases hq : q ∈ g.pos <;> by_cases hu : q ∈ qubitsUsed d <;>
    by_cases hp : succD q = v <;> simp only [hq, hu, hp] at hsplit ⊢ <;>
    simp_all <;> omega

/-- The dictionary endpoints of a valid insertion avoid the new gate and
live in the graph (predecessors also avoid the sink, successors the
source). -/
theorem add_ends (d : DAGCircuit) (hWF : WF d) (g : INode) (predD succD : ℕ → DNode)
    (hnew : DNode.ins g ∉ d.nodes)
    (hcut : ∀ q ∈ g.pos, q ∈ qubitsUsed d → (predD q, succD q, q) ∈ d.edges)
    (hfresh : ∀ q ∈ g.pos, q ∉ qubitsUsed d → predD q = DNode.source ∧ succD q = DNode.sink) :
    ∀ q ∈ g.pos, predD q ∈ d.nodes ∧ succD q ∈ d.nodes ∧
      predD q ≠ DNode.ins g ∧ succD q ≠ DNode.ins g ∧
      predD q ≠ DNode.sink ∧ succD q ≠ DNode.source := by
  intro q hq
  by_cases hu : q ∈ qubitsUsed d
  · have hmem := hcut q hq hu
    obtain ⟨h1, h2⟩ := hWF.edgeNodes _ hmem
    exact ⟨h1, h2, fun h => hnew (h ▸ h1), fun h => hnew (h ▸ h2),
      hWF.noOutSink _ hmem, hWF.noInSource _ hmem⟩
  · obtain ⟨hp, hs⟩ := hfresh q hq hu
    rw [hp, hs]
    exact ⟨hWF.srcMem, hWF.sinkMem, by simp, by simp, by simp, by simp⟩

/-- The inserted gate's per-wire out-degrees are exactly its wires. -/
theorem add_countOut_g (d : DAGCircuit) (hWF : WF d) (g : INode) (predD succD : ℕ → DNode)
    (hnew : DNode.ins g ∉ d.nodes) (hnd : g.pos.Nodup)
    (hcut : ∀ q ∈ g.pos, q ∈ qubitsUsed d → (predD q, succD q, q) ∈ d.edges)
    (hfresh : ∀ q ∈ g.pos, q ∉ qubitsUsed d → predD q = DNode.source ∧ succD q = DNode.sink)
    (q : ℕ) :
    countOut (addInstructionNode d g predD succD) (DNode.ins g) q =
      if q ∈ g.pos then 1 else 0 := by
  have hends := add_ends d hWF g predD succD hnew hcut hfresh
  unfold countOut
  rw [add_edges_eq d hWF g predD succD hcut]
  rw [List.countP_append, List.countP_append, List.countP_filter]
  have hE : d.edges.countP (fun e => (e.1 = DNode.ins g && e.2.2 = q) &&
      (e ∉ cutList d g predD succD && e ∉ cutList d g predD succD)) = 0 := by
    rw [List.countP_eq_zero]
    intro e he hp
    simp only [Bool.and_eq_true, decide_eq_true_eq] at hp
    exact hnew (hp.1.1 ▸ (hWF.edgeNodes e he).1)
  have hNewIn : (g.pos.map fun q' => (predD q', DNode.ins g, q')).countP
      (fun e => e.1 = DNode.ins g && e.2.2 = q) = 0 := by
    rw [List.countP_eq_zero]
    intro e he hp
    obtain ⟨q', hq', rfl⟩ := List.mem_map.mp he
    simp only [Bool.and_eq_true, decide_eq_true_eq] at hp
    exact (hends q' hq').2.2.1 hp.1
  have hNewOut : (g.pos.map fun q' => (DNode.ins g, succD q', q')).countP
      (fun e => e.1 = DNode.ins g && e.2.2 = q) =
      if q ∈ g.pos then 1 else 0 := by
    rw [countP_map_nodup g.pos hnd _ _ q]
    · by_cases hq : q ∈ g.pos <;> simp [hq]
    · intro q' hq'
      simp only [Bool.and_eq_true, decide_eq_true_eq] at hq'
      exact hq'.2
  rw [hE, hNewIn, hNewOut]
  omega

/-- The inserted gate's per-wire in-degrees are exactly its wires. -/
theorem add_countIn_g (d : DAGCircuit) (hWF : WF d) (g : INode) (predD succD : ℕ → DNode)
    (hnew : DNode.ins g ∉ d.nodes) (hnd : g.pos.Nodup)
    (hcut : ∀ q ∈ g.pos, q ∈ qubitsUsed d → (predD q, succD q, q) ∈ d.edges)
    (hfresh : ∀ q ∈ g.pos, q ∉ qubitsUsed d → predD q = DNode.source ∧ succD q = DNode.sink)
    (q : ℕ) :
    countIn (addInstructionNode d g predD succD) (DNode.ins g) q =
      if q ∈ g.pos then 1 else 0 := by
  have hends := add_ends d hWF g predD succD hnew hcut hfresh
  unfold countIn
  rw [add_edges_eq d hWF g predD succD hcut]
  rw [List.countP_append, List.countP_append, List.countP_filter]
  have hE : d.edges.countP (fun e => (e.2.1 = DNode.ins g && e.2.2 = q) &&
      (e ∉ cutList d g predD succD && e ∉ cutList d g predD succD)) = 0 := by
    rw [List.countP_eq_zero]
    intro e he hp
    simp only [Bool.and_eq_true, decide_eq_true_eq] at hp
    exact hnew (hp.1.1 ▸ (hWF.edgeNodes e he).2)
  have hNewOut : (g.pos.map fun q' => (DNode.ins g, succD q', q')).countP
      (fun e => e.2.1 = DNode.ins g && e.2.2 = q) = 0 := by
    rw [List.countP_eq_zero]
    intro e he hp
    obtain ⟨q', hq', rfl⟩ := List.mem_map.mp he
    simp only [Bool.and_eq_true, decide_eq_true_eq] at hp
    exact (hends q' hq').2.2.2.1 hp.1
  have hNewIn : (g.pos.map fun q' => (predD q', DNode.ins g, q')).countP
      (fun e => e.2.1 = DNode.ins g && e.2.2 = q) =
      if q ∈ g.pos then 1 else 0 := by
    rw [countP_map_nodup g.pos hnd _ _ q]
    · by_cases hq : q ∈ g.pos <;> simp [hq]
    · intro q' hq'
      simp only [Bool.and_eq_true, decide_eq_true_eq] at hq'
      exact hq'.2
  rw [hE, hNewIn, hNewOut]
  omega

/-- `add_instruction_node` preserves all DAG invariants, provided the
gate is new, its positions are duplicate-free, on every used wire the
dictionaries name a directly connected predecessor/successor pair, on
every fresh wire they name `-1` and `float('inf')`, and some acyclicity
rank admits a uniform cut value between all predecessors and all
successors. -/
theorem add_WF (d : DAGCircuit) (hWF : WF d) (g : INode) (predD succD : ℕ → DNode)
    (hnew : DNode.ins g ∉ d.nodes) (hnd : g.pos.Nodup)
    (hcut : ∀ q ∈ g.pos, q ∈ qubitsUsed d → (predD q, succD q, q) ∈ d.edges)
    (hfresh : ∀ q ∈ g.pos, q ∉ qubitsUsed d → predD q = DNode.source ∧ succD q = DNode.sink)
    (hrank : ∃ (f : DNode → ℚ) (c : ℚ), (∀ e ∈ d.edges, f e.1 < f e.2.1) ∧
      ∀ q ∈ g.pos, f (predD q) < c ∧ c < f (succD q)) :
    WF (addInstructionNode d g predD succD) := by
  have hends := add_ends d hWF g predD succD hnew hcut hfresh
  have hnodes : (addInstructionNode d g predD succD).nodes = d.nodes ++ [DNode.ins g] := by
    unfold addInstructionNode
    simp only [if_neg hnew]
  have hmemE : ∀ e ∈ (addInstructionNode d g predD succD).edges,
      (e ∈ d.edges) ∨
      (∃ q ∈ g.pos, e = (predD q, DNode.ins g, q)) ∨
      (∃ q ∈ g.pos, e = (DNode.ins g, succD q, q)) := by
    intro e he
    rw [add_edges_eq d hWF g predD succD hcut] at he
    rcases List.mem_append.mp he with h12 | h3
    · rcases List.mem_append.mp h12 with h1 | h2
      · exact Or.inl (List.mem_filter.mp h1).1
      · obtain ⟨q, hq, rfl⟩ := List.mem_map.mp h2
        exact Or.inr (Or.inl ⟨q, hq, rfl⟩)
    · obtain ⟨q, hq, rfl⟩ := List.mem_map.mp h3
      exact Or.inr (Or.inr ⟨q, hq, rfl⟩)
  refine ⟨?_, ?_, ?_, ?_, ?_, ?_, ?_, ?_, ?_, ?_, ?_, ?_, ?_⟩
  · rw [hnodes]; exact List.mem_append_left _ hWF.srcMem
  · rw [hnodes]; exact List.mem_append_left _ hWF.sinkMem
  · rw [hnodes, List.nodup_append]
    exact ⟨hWF.nodesNodup, List.nodup_singleton _,
      by intro a ha hb; simp at hb; subst hb; exact hnew ha⟩
  · intro e he
    rw [hnodes]
    rcases hmemE e he with hold | ⟨q, hq, rfl⟩ | ⟨q, hq, rfl⟩
    · obtain ⟨h1, h2⟩ := hWF.edgeNodes e hold
      exact ⟨List.mem_append_left _ h1, List.mem_append_left _ h2⟩
    · exact ⟨List.mem_append_left _ (hends q hq).1, by simp⟩
    · exact ⟨by simp, List.mem_append_left _ (hends q hq).2.1⟩
  · intro e he
    rcases hmemE e he with hold | ⟨q, hq, rfl⟩ | ⟨q, hq, rfl⟩
    · exact hWF.noInSource e hold
    · simp
    · exact (hends q hq).2.2.2.2.2
  · intro e he
    rcases hmemE e he with hold | ⟨q, hq, rfl⟩ | ⟨q, hq, rfl⟩
    · exact hWF.noOutSink e hold
    · exact (hends q hq).2.2.2.2.1
    · simp
  · obtain ⟨f, c, hf, hc⟩ := hrank
    refine ⟨fun v => if v = DNode.ins g then c else f v, ?_⟩
    intro e he
    dsimp only
    rcases hmemE e he with hold | ⟨q, hq, rfl⟩ | ⟨q, hq, rfl⟩
    · obtain ⟨h1, h2⟩ := hWF.edgeNodes e hold
      rw [if_neg (fun h : e.1 = DNode.ins g => hnew (h ▸ h1)),
        if_neg (fun h : e.2.1 = DNode.ins g => hnew (h ▸ h2))]
      exact hf e hold
    · dsimp only
      rw [if_neg (hends q hq).2.2.1, if_pos rfl]
      exact (hc q hq).1
    · dsimp only
      rw [if_pos rfl, if_neg (hends q hq).2.2.2.1]
      exact (hc q hq).2
  · intro gn hgn
    rw [hnodes] at hgn
    rcases List.mem_append.mp hgn with hold | hnew2
    · exact hWF.insPos gn hold
    · simp only [List.mem_singleton, DNode.ins.injEq] at hnew2
      exact hnew2 ▸ hnd
  · intro gn hgn q
    rw [hnodes] at hgn
    rcases List.mem_append.mp hgn with hold | hnew2
    · have hne : DNode.ins gn ≠ DNode.ins g := fun h => hnew (h ▸ hold)
      rw [add_countIn d hWF g predD succD hnew hnd hcut (DNode.ins gn) hne q]
      rw [hWF.insIn gn hold q]
      have hzero : ¬ (q ∈ g.pos ∧ q ∉ qubitsUsed d ∧ succD q = DNode.ins gn) := by
        rintro ⟨hq, hu, hs⟩
        rw [(hfresh q hq hu).2] at hs
        cases hs
      rw [if_neg hzero]
      omega
    · simp only [List.mem_singleton, DNode.ins.injEq] at hnew2
      subst hnew2
      exact add_countIn_g d hWF gn predD succD hnew hnd hcut hfresh q
  · intro gn hgn q
    rw [hnodes] at hgn
    rcases List.mem_append.mp hgn with hold | hnew2
    · have hne : DNode.ins gn ≠ DNode.ins g := fun h => hnew (h ▸ hold)
      rw [add_countOut d hWF g predD succD hnew hnd hcut (DNode.ins gn) hne q]
      rw [hWF.insOut gn hold q]
      have hzero : ¬ (q ∈ g.pos ∧ q ∉ qubitsUsed d ∧ predD q = DNode.ins gn) := by
        rintro ⟨hq, hu, hs⟩
        rw [(hfresh q hq hu).1] at hs
        cases hs
      rw [if_neg hzero]
      omega
    · simp only [List.mem_singleton, DNode.ins.injEq] at hnew2
      subst hnew2
      exact add_countOut_g d hWF gn predD succD hnew hnd hcut hfresh q
  · intro q
    rw [add_countOut d hWF g predD succD hnew hnd hcut DNode.source (by simp) q]
    by_cases hA : q ∈ g.pos ∧ q ∉ qubitsUsed d ∧ predD q = DNode.source
    · obtain ⟨hq, hu, hp⟩ := hA
      have hzero : ¬ 0 < countOut d DNode.source q :=
        fun h => hu ((mem_qubitsUsed d q).mpr h)
      rw [if_pos ⟨hq, hu, hp⟩]
      omega
    · rw [if_neg hA]
      have := hWF.srcOut q
      omega
  · intro q
    rw [add_countIn d hWF g predD succD hnew hnd hcut DNode.sink (by simp) q]
    by_cases hA : q ∈ g.pos ∧ q ∉ qubitsUsed d ∧ succD q = DNode.sink
    · obtain ⟨hq, hu, hp⟩ := hA
      have hzero : ¬ 0 < countOut d DNode.source q :=
        fun h => hu ((mem_qubitsUsed d q).mpr h)
      have hwm := hWF.wireMatch q
      rw [if_pos ⟨hq, hu, hp⟩]
      omega
    · rw [if_neg hA]
      have := hWF.sinkIn q
      omega
  · intro q
    rw [add_countOut d hWF g predD succD hnew hnd hcut DNode.source (by simp) q,
      add_countIn d hWF g predD succD hnew hnd hcut DNode.sink (by simp) q]
    have hiff : (q ∈ g.pos ∧ q ∉ qubitsUsed d ∧ predD q = DNode.source) ↔
        (q ∈ g.pos ∧ q ∉ qubitsUsed d ∧ succD q = DNode.sink) := by
      constructor
      · rintro ⟨hq, hu, _⟩
        exact ⟨hq, hu, (hfresh q hq hu).2⟩
      · rintro ⟨hq, hu, _⟩
        exact ⟨hq, hu, (hfresh q hq hu).1⟩
    rw [hWF.wireMatch q]
    by_cases hA : q ∈ g.pos ∧ q ∉ qubitsUsed d ∧ succD q = DNode.sink
    · rw [if_pos hA, if_pos (hiff.mpr hA)]
    · rw [if_neg hA, if_neg (fun h => hA (hiff.mp h))]

/-- `foldr max` dominates its base and every member. -/
theorem foldr_max_bounds (l : List ℚ) (b : ℚ) :
    b ≤ l.foldr max b ∧ ∀ x ∈ l, x ≤ l.foldr max b := by
  induction l with
  | nil => exact ⟨le_refl _, by simp⟩
  | cons a l ih =>
    refine ⟨le_trans ih.1 (le_max_right a _), ?_⟩
    intro x hx
    rcases List.mem_cons.mp hx with rfl | hx2
    · exact le_max_left _ _
    · exact le_trans (ih.2 x hx2) (le_max_right a _)

/-- `add_instruction_node_end` preserves all DAG invariants for a new
gate with duplicate-free positions: the sink's per-wire predecessors
form a valid cut just below `float('inf')`. -/
theorem addEnd_WF (d : DAGCircuit) (hWF : WF d) (g : INode)
    (hnew : DNode.ins g ∉ d.nodes) (hnd : g.pos.Nodup) :
    WF (addInstructionNodeEnd d g) := by
  unfold addInstructionNodeEnd
  rw [if_pos ⟨hWF.srcMem, hWF.sinkMem⟩]
  have hused : ∀ q, q ∈ qubitsUsed d →
      ((predOn d DNode.sink q).getD DNode.source, DNode.sink, q) ∈ d.edges := by
    intro q hu
    have hpos : 0 < countIn d DNode.sink q := by
      have := hWF.wireMatch q
      have h2 := (mem_qubitsUsed d q).mp hu
      omega
    unfold countIn at hpos
    obtain ⟨e0, hfind, hmem, hp⟩ := find?_of_countP_pos d.edges
      (fun e => e.2.1 = DNode.sink && e.2.2 = q) (by omega)
    simp only [Bool.and_eq_true, decide_eq_true_eq] at hp
    have hpred : (predOn d DNode.sink q).getD DNode.source = e0.1 := by
      unfold predOn
      rw [hfind]
      rfl
    rw [hpred]
    have he0 : e0 = (e0.1, DNode.sink, q) := by
      obtain ⟨a, b, c⟩ := e0
      simp only at hp ⊢
      rw [hp.1, hp.2]
    rw [← he0]
    exact hmem
  have hfreshP : ∀ q, q ∉ qubitsUsed d →
      (predOn d DNode.sink q).getD DNode.source = DNode.source := by
    intro q hu
    have hzero : countIn d DNode.sink q = 0 := by
      have := hWF.wireMatch q
      have h2 : ¬ 0 < countOut d DNode.source q :=
        fun h => hu ((mem_qubitsUsed d q).mpr h)
      omega
    unfold countIn at hzero
    have hfind : d.edges.find? (fun e => e.2.1 = DNode.sink && e.2.2 = q) = none := by
      rw [List.find?_eq_none]
      intro e he hp
      exact List.countP_eq_zero.mp hzero e he hp
    unfold predOn
    rw [hfind]
    rfl
  apply add_WF d hWF g _ _ hnew hnd
  · intro q _ hu
    exact hused q hu
  · intro q _ hu
    exact ⟨hfreshP q hu, rfl⟩
  · obtain ⟨f, hf⟩ := hWF.acyclic
    have hb := foldr_max_bounds (d.edges.map fun e => f e.1) (f DNode.source)
    refine ⟨fun v => if v = DNode.sink then
      (d.edges.map fun e => f e.1).foldr max (f DNode.source) + 1 else f v,
      (d.edges.map fun e => f e.1).foldr max (f DNode.source) + 1/2, ?_, ?_⟩
    · intro e he
      dsimp only
      rw [if_neg (hWF.noOutSink e he)]
      by_cases h2 : e.2.1 = DNode.sink
      · rw [if_pos h2]
        have : f e.1 ≤ (d.edges.map fun e => f e.1).foldr max (f DNode.source) :=
          hb.2 _ (List.mem_map.mpr ⟨e, he, rfl⟩)
        linarith
      · rw [if_neg h2]
        exact hf e he
    · intro q _
      constructor
      · by_cases hu : q ∈ qubitsUsed d
        · have hmem := hused q hu
          have hne : (predOn d DNode.sink q).getD DNode.source ≠ DNode.sink :=
            hWF.noOutSink _ hmem
          dsimp only
          rw [if_neg hne]
          have : f ((predOn d DNode.sink q).getD DNode.source) ≤
              (d.edges.map fun e => f e.1).foldr max (f DNode.source) :=
            hb.2 _ (List.mem_map.mpr ⟨_, hmem, rfl⟩)
          linarith
        · rw [hfreshP q hu]
          dsimp only
          rw [if_neg (by simp)]
          have := hb.1
          linarith
      · dsimp only
        rw [if_pos rfl]
        linarith

/-- A concrete two-gate, one-wire DAG: `-1 → H(0) → X(0) → inf`. -/
def aNode : INode := { name := "h", pos := [0], label := 0 }

def bNode : INode := { name := "x", pos := [0], label := 1 }

def gNode : INode := { name := "y", pos := [0], label := 2 }

def d0 : DAGCircuit :=
  { nodes := [DNode.source, DNode.ins aNode, DNode.ins bNode, DNode.sink],
    edges := [(DNode.source, DNode.ins aNode, 0), (DNode.ins aNode, DNode.ins bNode, 0),
      (DNode.ins bNode, DNode.sink, 0)] }

/-- A topological rank for `d0`. -/
def rank0 : DNode → ℚ
  | DNode.source => 0
  | DNode.sink => 3
  | DNode.ins n => if n.label = 0 then 1 else 2

/-- No edge of `d0` carries a label other than `0`. -/
theorem d0_label (q : ℕ) (hq : q ≠ 0) : ∀ e ∈ d0.edges, ¬ e.2.2 = q := by
  intro e he
  simp only [d0, List.mem_cons, List.not_mem_nil, or_false] at he
  rcases he with rfl | rfl | rfl <;> simpa using fun h => hq h.symm

/-- Labels of another wire contribute no in-edges. -/
theorem countIn_ne_label (d : DAGCircuit) (v : DNode) (q : ℕ)
    (h : ∀ e ∈ d.edges, ¬ e.2.2 = q) : countIn d v q = 0 := by
  unfold countIn
  rw [List.countP_eq_zero]
  intro e he hp
  simp only [Bool.and_eq_true, decide_eq_true_eq] at hp
  exact h e he hp.2

/-- Labels of another wire contribute no out-edges. -/
theorem countOut_ne_label (d : DAGCircuit) (v : DNode) (q : ℕ)
    (h : ∀ e ∈ d.edges, ¬ e.2.2 = q) : countOut d v q = 0 := by
  unfold countOut
  rw [List.countP_eq_zero]
  intro e he hp
  simp only [Bool.and_eq_true, decide_eq_true_eq] at hp
  exact h e he hp.2

/-- `d0` satisfies all DAG invariants. -/
theorem wf_d0 : WF d0 := by
  refine ⟨by decide, by decide, by decide, by decide, by decide, by decide,
    ⟨rank0, ?_⟩, ?_, ?_, ?_, ?_, ?_, ?_⟩
  · intro e he
    simp only [d0, List.mem_cons, List.not_mem_nil, or_false] at he
    rcases he with rfl | rfl | rfl <;> norm_num [rank0, aNode, bNode]
  · intro gn hgn
    simp only [d0, List.mem_cons, List.not_mem_nil, or_false] at hgn
    rcases hgn with hgn | hgn | hgn | hgn
    · cases hgn
    · obtain rfl := DNode.ins.inj hgn
      decide
    · obtain rfl := DNode.ins.inj hgn
      decide
    · cases hgn
  · intro gn hgn q
    simp only [d0, List.mem_cons, List.not_mem_nil, or_false] at hgn
    rcases hgn with hgn | hgn | hgn | hgn
    · cases hgn
    · obtain rfl := DNode.ins.inj hgn
      by_cases hq : q = 0
      · subst hq; decide
      · rw [countIn_ne_label d0 _ q (d0_label q hq), if_neg (by simp [aNode, hq])]
    · obtain rfl := DNode.ins.inj hgn
      by_cases hq : q = 0
      · subst hq; decide
      · rw [countIn_ne_label d0 _ q (d0_label q hq), if_neg (by simp [bNode, hq])]
    · cases hgn
  · intro gn hgn q
    simp only [d0, List.mem_cons, List.not_mem_nil, or_false] at hgn
    rcases hgn with hgn | hgn | hgn | hgn
    · cases hgn
    · obtain rfl := DNode.ins.inj hgn
      by_cases hq : q = 0
      · subst hq; decide
      · rw [countOut_ne_label d0 _ q (d0_label q hq), if_neg (by simp [aNode, hq])]
    · obtain rfl := DNode.ins.inj hgn
      by_cases hq : q = 0
      · subst hq; decide
      · rw [countOut_ne_label d0 _ q (d0_label q hq), if_neg (by simp [bNode, hq])]
    · cases hgn
  · intro q
    by_cases hq : q = 0
    · subst hq; decide
    · rw [countOut_ne_label d0 _ q (d0_label q hq)]
      omega
  · intro q
    by_cases hq : q = 0
    · subst hq; decide
    · rw [countIn_ne_label d0 _ q (d0_label q hq)]
      omega
  · intro q
    by_cases hq : q = 0
    · subst hq; decide
    · rw [countOut_ne_label d0 _ q (d0_label q hq),
        countIn_ne_label d0 _ q (d0_label q hq)]

/-- C2: amended.  Each structural edit preserves the DAG invariants under
its implicit well-formedness preconditions.  (i) `remove_instruction_node`
on a member gate preserves all invariants and restitches the gate's
per-wire predecessor directly to its successor on every wire of the gate.
(ii) `add_instruction_node` preserves the invariants provided the gate is
new with duplicate-free positions, on every already-used wire the given
dictionaries name a directly connected predecessor/successor pair, on
every fresh wire they name `-1`/`float('inf')`, and a topological rank
admits a uniform cut between all named predecessors and successors — the
counterexample shows the invariants are otherwise lost, so the bare
claim is too strong.  (iii) `add_instruction_node_end` preserves the
invariants for any new gate with duplicate-free positions. -/
theorem c2_dag_invariants (d : DAGCircuit) (g : INode) (predD succD : ℕ → DNode) :
    (WF d → DNode.ins g ∈ d.nodes →
      WF (removeInstructionNode d g) ∧
      ∀ q ∈ g.pos,
        (stitchPred d g q, stitchSucc d g q, q) ∈ (removeInstructionNode d g).edges) ∧
    (WF d → DNode.ins g ∉ d.nodes → g.pos.Nodup →
      (∀ q ∈ g.pos, q ∈ qubitsUsed d → (predD q, succD q, q) ∈ d.edges) →
      (∀ q ∈ g.pos, q ∉ qubitsUsed d → predD q = DNode.source ∧ succD q = DNode.sink) →
      (∃ (f : DNode → ℚ) (c : ℚ), (∀ e ∈ d.edges, f e.1 < f e.2.1) ∧
        ∀ q ∈ g.pos, f (predD q) < c ∧ c < f (succD q)) →
      WF (addInstructionNode d g predD succD)) ∧
    (WF d → DNode.ins g ∉ d.nodes → g.pos.Nodup → WF (addInstructionNodeEnd d g)) :=
  ⟨fun hWF hg => ⟨remove_WF d hWF g hg, remove_stitch_mem d hWF g hg⟩,
   fun hWF hnew hnd hcut hfresh hrank => add_WF d hWF g predD succD hnew hnd hcut hfresh hrank,
   fun hWF hnew hnd => addEnd_WF d hWF g hnew hnd⟩

/-- C2 witness: removing `H(0)` from the concrete DAG keeps all
invariants and stitches `-1 → X(0)` on wire 0. -/
theorem c2_dag_invariants_witness :
    WF (removeInstructionNode d0 aNode) ∧
    (stitchPred d0 aNode 0, stitchSucc d0 aNode 0, 0) ∈ (removeInstructionNode d0 aNode).edges := by
  have h := (c2_dag_invariants d0 aNode (fun _ => DNode.source) (fun _ => DNode.sink)).1
    wf_d0 (by decide)
  exact ⟨h.1, h.2 0 (by decide)⟩

/-- C2: counterexample to the unconditional claim.  The concrete DAG
`-1 → H(0) → X(0) → inf` satisfies every invariant, yet a single
`add_instruction_node` call whose dictionaries name `X(0)` as
predecessor and `H(0)` as successor — arguments the code accepts without
any check — produces the cycle `H → X → Y → H`, so no topological rank
exists and the invariants are lost.  The claim needs the valid-insertion
preconditions of the amended statement. -/
theorem c2_add_counterexample :
    WF d0 ∧
    ¬ WF (addInstructionNode d0 gNode
      (fun _ => DNode.ins bNode) (fun _ => DNode.ins aNode)) := by
  refine ⟨wf_d0, ?_⟩
  intro h
  obtain ⟨f, hf⟩ := h.acyclic
  have h1 : f (DNode.ins aNode) < f (DNode.ins bNode) :=
    hf (DNode.ins aNode, DNode.ins bNode, 0) (by decide)
  have h2 : f (DNode.ins bNode) < f (DNode.ins gNode) :=
    hf (DNode.ins bNode, DNode.ins gNode, 0) (by decide)
  have h3 : f (DNode.ins gNode) < f (DNode.ins aNode) :=
    hf (DNode.ins gNode, DNode.ins aNode, 0) (by decide)
  linarith

/-! ## C10: `SabreRouting.run` on a single-qubit DAG

The run skeleton is translated from `sabre_routing.py` lines 119–277: the
copy of the input, the single-qubit early return, the `float('inf')`
removal, the virtual-vs-physical qubit check, the initial-layout
selection, the routing loop, and the final model writes.  The `Model`
(`model.py` is not among the provided sources) is modelled from the spec
as the layout pair plus the `datadict` scratchpad, with layouts as `v2p`
maps.  The routing while-loop — whose internal heuristics the claim does
not touch — enters the embedding as an explicit function parameter from
the current layout to either an exception or the final layout, the
`add_swap_count` and the optional mapped DAG; the claim's frame property
is proved for EVERY such loop, and the random initial layout is likewise
a parameter.  `copy_dag` rebuilds the graph from the edge list
(`add_weighted_edges_from`), so its node list is the deduplicated list of
edge endpoints. -/

structure Model where
  initialLayout : Option (ℕ → ℕ)
  finalLayout : Option (ℕ → ℕ)
  datadict : List (String × ℕ)

inductive RoutingErr where
  | tooManyQubits
  | loopFailure

/-- `copy_dag` (`circuit_dag_convert.py`): nodes are recovered from the
copied weighted edges. -/
def copyDag (d : DAGCircuit) : DAGCircuit :=
  { nodes := ((d.edges.map fun e => [e.1, e.2.1]).flatten).dedup, edges := d.edges }

/-- networkx `remove_node(float('inf'))`: drop the node and its incident
edges. -/
def removeSinkNode (d : DAGCircuit) : DAGCircuit :=
  if DNode.sink ∈ d.nodes then
    { nodes := d.nodes.filter (fun v => v ≠ DNode.sink),
      edges := d.edges.filter (fun e => e.1 ≠ DNode.sink && e.2.1 ≠ DNode.sink) }
  else d

/-- `datadict[k] = v`. -/
def setKey (dd : List (String × ℕ)) (k : String) (v : ℕ) : List (String × ℕ) :=
  dd.filter (fun p => p.1 ≠ k) ++ [(k, v)]

/-- The initial-layout selection of `run`: the pass argument wins, then
the model's existing entry, then the random layout. -/
def chooseInit (passInitLayout : Option (ℕ → ℕ)) (modelInit : Option (ℕ → ℕ))
    (randomLayout : ℕ → ℕ) : ℕ → ℕ :=
  match passInitLayout with
  | some l => l
  | none =>
    match modelInit with
    | some l => l
    | none => randomLayout

/-- Embedding of `SabreRouting.run` on a DAG input (a circuit input is
first converted by `circuit_to_dag` and then follows the same path). -/
def sabreRun (numQubits : ℕ) (passInitLayout : Option (ℕ → ℕ)) (randomLayout : ℕ → ℕ)
    (modifyDag : Bool)
    (loop : (ℕ → ℕ) → Except RoutingErr ((ℕ → ℕ) × ℕ × Option DAGCircuit))
    (model : Model) (d : DAGCircuit) : Except RoutingErr (DAGCircuit × Model) :=
  let dag := copyDag d
  if (qubitsUsed dag).dedup.length = 1 then .ok (dag, model)
  else
    let dag1 := removeSinkNode dag
    if numQubits < (qubitsUsed dag).dedup.length then .error .tooManyQubits
    else
      let initL := chooseInit passInitLayout model.initialLayout randomLayout
      let model1 := { model with initialLayout := some initL }
      match loop initL with
      | .error e => .error e
      | .ok (finalL, cnt, mapped) =>
        .ok (if modifyDag then mapped.getD dag1 else dag1,
          { model1 with
            finalLayout := some finalL,
            datadict := setKey model1.datadict "add_swap_count" cnt })

/-- C10: a DAG using exactly one qubit makes `SabreRouting.run` return the
copied input immediately — for EVERY routing loop, random layout, and
mode — leaving the model untouched: `final_layout` keeps its old value
and `datadict` is not written, and no SWAP is inserted since the returned
DAG's edge list is exactly the input's (first conjunct).  By contrast a
multi-qubit run whose routing loop terminates normally always writes
both: the returned model holds the loop's final layout in
`final_layout` and its swap count under `add_swap_count` (second
conjunct). -/
theorem c10_single_qubit_frame (numQubits : ℕ) (passInitLayout : Option (ℕ → ℕ))
    (randomLayout : ℕ → ℕ) (modifyDag : Bool)
    (loop : (ℕ → ℕ) → Except RoutingErr ((ℕ → ℕ) × ℕ × Option DAGCircuit))
    (model : Model) (d : DAGCircuit) :
    ((qubitsUsed (copyDag d)).dedup.length = 1 →
      sabreRun numQubits passInitLayout randomLayout modifyDag loop model d =
        .ok (copyDag d, model) ∧ (copyDag d).edges = d.edges) ∧
    (¬ (qubitsUsed (copyDag d)).dedup.length = 1 →
      ¬ numQubits < (qubitsUsed (copyDag d)).dedup.length →
      ∀ finalL cnt mapped,
        loop (chooseInit passInitLayout model.initialLayout randomLayout) =
          .ok (finalL, cnt, mapped) →
      ∃ dout, sabreRun numQubits passInitLayout randomLayout modifyDag loop model d =
        .ok (dout,
          { initialLayout :=
              some (chooseInit passInitLayout model.initialLayout randomLayout),
            finalLayout := some finalL,
            datadict := setKey model.datadict "add_swap_count" cnt }) ∧
        ((setKey model.datadict "add_swap_count" cnt).find?
          (fun p => p.1 = "add_swap_count")).isSome = true) := by
  constructor
  · intro h1
    unfold sabreRun
    rw [if_pos h1]
    exact ⟨rfl, rfl⟩
  · intro h1 h2 finalL cnt mapped hloop
    refine ⟨if modifyDag then mapped.getD (removeSinkNode (copyDag d))
      else removeSinkNode (copyDag d), ?_, ?_⟩
    · unfold sabreRun
      rw [if_neg h1, if_neg h2]
      dsimp only
      rw [hloop]
    · unfold setKey
      rw [List.find?_append]
      cases hfind : (model.datadict.filter (fun p => p.1 ≠ "add_swap_count")).find?
          (fun p => p.1 = "add_swap_count") with
      | some e => simp
      | none => simp

/-- C10 witness: the concrete one-wire DAG `d0` is returned as-is with an
untouched model, even under an adversarial routing loop that would fail
if entered. -/
theorem c10_single_qubit_frame_witness :
    sabreRun 3 none id false (fun _ => .error .loopFailure)
      { initialLayout := none, finalLayout := none, datadict := [] } d0 =
      .ok (copyDag d0,
        { initialLayout := none, finalLayout := none, datadict := [] }) :=
  ((c10_single_qubit_frame 3 none id false (fun _ => .error .loopFailure)
    { initialLayout := none, finalLayout := none, datadict := [] } d0).1 (by decide)).1

end QSteed
